import Mathlib

/-!
# A shallow embedding of `planner.cpp` (symbolic STRIPS-style planner)

The C++ program is embedded as pure Lean functions.

* `std::string` is `String`; a string is read as its sequence of characters (`String.data`).
* `std::list<T>` and `std::vector<T>` are `List T`.
* `std::unordered_set<T>` is a `List T` holding the elements in iteration order.  `insert`
  leaves the container unchanged when an equal element is present and otherwise adds the
  element (`set_insert`); `erase` removes the element (`set_erase`).  The iteration order
  of the C++ containers is unspecified; the model iterates in insertion order, and the
  statements about sets speak of membership only.
* `std::unordered_map<K, V>` is an association list, searched with the key equality of
  the C++ container.  The hash functions only select buckets: equal keys have equal
  hashes (`operator_eq_iff`, `state_eq_iff_perm`, `hash_state_perm`), so a search
  finds exactly the entries whose key equals the searched key.
* `std::priority_queue<node_t>` is the list of its elements; `top` yields an element that
  is not `operator<` another one.
* `bindings.at(..)` / `cost.at(..)` throw `std::out_of_range` when the key is absent:
  fallible code returns `Except Err`.
* every `while` loop of the source takes a `fuel : Nat`; running out of fuel is the error
  `Err.out_of_fuel`, which stands for "no result yet", never for a result of the program.
* `int` values (`cost`, `g`, `f`, heuristic values) are `Int`; they are bounded by the
  number of dequeued states and of goal literals, far below `2^31`.
* `size_t` hash values are `Nat`; they are only combined with XOR, which cannot overflow.
  `std::hash<std::string>` is a parameter `strHash`.
-/

namespace Planner

/-- The two ways in which a run of the embedded code yields no value: an uncaught
`std::out_of_range` (thrown by `.at`), or the fuel of a loop ran out. -/
inductive Err where
  | out_of_range
  | out_of_fuel
deriving DecidableEq, Repr

/-! ## GroundedAction -/

/-- `class GroundedAction`: a name and a list of argument values. -/
structure GroundedAction where
  name : String
  arg_values : List String
deriving DecidableEq, Repr

/-- `GroundedAction()`: the default-constructed action used for the start node. -/
def GroundedAction.default : GroundedAction := ⟨"", []⟩

/-! ## GroundedCondition -/

/-- `class GroundedCondition`: predicate, argument values, truth flag. -/
structure GroundedCondition where
  predicate : String
  arg_values : List String
  truth : Bool
deriving DecidableEq, Repr

/-- The `while (lhs_it != end && rhs_it != end)` loop of `operator==`: it walks both
argument lists in step and answers `false` at the first differing position. -/
def args_equal_loop : List String → List String → Bool
  | l :: ls, r :: rs => if l != r then false else args_equal_loop ls rs
  | _, _ => true

/-- `GroundedCondition::operator==`. -/
def GroundedCondition.operator_eq (lhs rhs : GroundedCondition) : Bool :=
  if lhs.predicate != rhs.predicate || lhs.arg_values.length != rhs.arg_values.length then
    false
  else if !(args_equal_loop lhs.arg_values rhs.arg_values) then
    false
  else if lhs.truth != rhs.truth then
    false
  else
    true

/-- `temp.substr(0, temp.length() - 1)`: `size_t` arithmetic, so on the empty string the
count wraps to `npos` and the whole (empty) string is returned. -/
def substr_drop_last (temp : String) : String :=
  String.mk (temp.data.take (temp.data.length - 1))

/-- `GroundedCondition::toString`: the canonical form `!pred(a,b,c)`. -/
def GroundedCondition.toString (g : GroundedCondition) : String :=
  let temp := if g.truth then "" else "!"
  let temp := temp ++ g.predicate
  let temp := temp ++ "("
  let temp := g.arg_values.foldl (fun t l => t ++ (l ++ ",")) temp
  let temp := substr_drop_last temp
  temp ++ ")"

/-- `GroundedCondition::negate`. -/
def GroundedCondition.negate (g : GroundedCondition) : GroundedCondition :=
  ⟨g.predicate, g.arg_values, !g.truth⟩

/-- The loop `while (other_itr != other_args.end())` of `is_negate`: it walks the argument
list of the other literal and reads this literal's list in step, without testing
`this_itr` for `end()`.  Dereferencing `this_itr` at `end()` is a read past the end of the
list (undefined behaviour): the model answers `none`. -/
def is_negate_loop : List String → List String → Option Bool
  | [], _ => some true
  | _ :: _, [] => none
  | other :: others, this :: rest =>
    if other != this then some false else is_negate_loop others rest

/-- `GroundedCondition::is_negate`; `none` when the comparison reads past the end of this
literal's argument list. -/
def GroundedCondition.is_negate (self condition : GroundedCondition) : Option Bool :=
  let other_args := condition.arg_values
  if condition.predicate != self.predicate then some false
  else if self.truth == condition.truth then some false
  else is_negate_loop other_args self.arg_values

/-- `std::hash<GroundedCondition>` and `GroundedConditionHasher`: the string hash of the
canonical form. -/
def GroundedCondition.hash (strHash : String → Nat) (gcond : GroundedCondition) : Nat :=
  strHash gcond.toString

/-! ## Sets and states -/

/-- `unordered_set::insert`. -/
def set_insert {α : Type} [DecidableEq α] (s : List α) (x : α) : List α :=
  if x ∈ s then s else s ++ [x]

/-- `unordered_set::erase(key)`. -/
def set_erase {α : Type} [DecidableEq α] (s : List α) (x : α) : List α :=
  s.filter (fun y => decide (y ≠ x))

/-- `typedef unordered_set<GroundedCondition> state_t`.  Membership (`IN`, `NOTIN`, `find`)
is decided by `GroundedCondition::operator==`, which `operator_eq_iff` shows to be
structural equality, so the model writes `g ∈ state`. -/
abbrev state_t := List GroundedCondition

/-- `std::hash<state_t>`: the size, XOR-ed with the hash of every literal in iteration
order. -/
def hash_state (strHash : String → Nat) (state : state_t) : Nat :=
  state.foldl (fun temp condition => temp ^^^ GroundedCondition.hash strHash condition)
    state.length

/-- `operator==(const state_t s1, const state_t s2)`. -/
def state_eq (s1 s2 : state_t) : Bool :=
  if s1.length != s2.length then false
  else s1.all (fun condition => decide (condition ∈ s2))

/-! ## Bindings -/

/-- `unordered_map<string, string>`: a binding of argument names to symbols. -/
abbrev bindings_t := List (String × String)

/-- `bindings.find(s)`. -/
def bindings_find : bindings_t → String → Option String
  | [], _ => none
  | (k, v) :: rest, s => if k = s then some v else bindings_find rest s

/-- `bindings.at(s)`: throws `std::out_of_range` when `s` is not a key. -/
def bindings_at (bindings : bindings_t) (s : String) : Except Err String :=
  match bindings_find bindings s with
  | some v => .ok v
  | none => .error .out_of_range

/-- `bindings.insert({k, v})`: no effect when `k` is already a key. -/
def bindings_insert (bindings : bindings_t) (k v : String) : bindings_t :=
  match bindings_find bindings k with
  | some _ => bindings
  | none => bindings ++ [(k, v)]

/-- The loop `for (string s : args) arg_list.push_back(bindings.at(s))`. -/
def ground_args (bindings : bindings_t) : List String → Except Err (List String)
  | [] => .ok []
  | s :: rest =>
    match bindings_at bindings s with
    | .error e => .error e
    | .ok v =>
      match ground_args bindings rest with
      | .error e => .error e
      | .ok vs => .ok (v :: vs)

/-! ## The worklist loops -/

/-- The loop shape shared by `Condition::match` and `get_actions`:
`while (partial_bindings.size()) { item = top(); pop(); body }`, where the body either
appends to the result vector or pushes new items.  The stack is a list with its top at the
head; `body` returns the results it appends and the items it pushes, in push order. -/
def stack_loop {ι ο : Type} (body : ι → Except Err (List ο × List ι)) :
    Nat → List ι → List ο → Except Err (List ο)
  | _, [], out => .ok out
  | 0, _ :: _, _ => .error .out_of_fuel
  | fuel + 1, item :: stack, out =>
    match body item with
    | .error e => .error e
    | .ok (results, pushed) => stack_loop body fuel (pushed.reverse ++ stack) (out ++ results)

/-! ## Condition -/

/-- `class Condition`: a lifted literal. -/
structure Condition where
  predicate : String
  args : List String
  truth : Bool
deriving DecidableEq, Repr

/-- `Condition::ground`. -/
def Condition.ground (c : Condition) (bindings : bindings_t) : Except Err GroundedCondition :=
  match ground_args bindings c.args with
  | .error e => .error e
  | .ok arg_list => .ok ⟨c.predicate, arg_list, c.truth⟩

/-- The symbols already assigned to variables: `used` in `Condition::match`, the values of
the non-identity entries of `bindings`. -/
def used_symbols (bindings : bindings_t) : List String :=
  bindings.foldl (fun used item => if item.1 ≠ item.2 then set_insert used item.2 else used) []

/-- The body of the `while` loop of `Condition::match`.  `args` are the arguments of the
literal that `bindings` leaves unbound, `used` is computed once, before the loop.
(`args[index]` is read only for `index` below `num_args`.) -/
def Condition.match_body (c : Condition) (state : state_t) (symbols : List String)
    (args : List String) (used : List String) (item : bindings_t × Nat) :
    Except Err (List bindings_t × List (bindings_t × Nat)) :=
  let partial_ := item.1
  let index := item.2
  if index = args.length then
    match c.ground partial_ with
    | .error e => .error e
    | .ok condition =>
      if condition ∈ state then .ok ([partial_], []) else .ok ([], [])
  else
    let new_index := index + 1
    .ok ([], (symbols.filter (fun sym => decide (sym ∉ used))).map
      (fun sym => (bindings_insert partial_ (args.getD index "") sym, new_index)))

/-- `Condition::match`: all extensions of `bindings` over the unbound arguments of the
literal whose grounding is in `state`. -/
def Condition.match_ (c : Condition) (fuel : Nat) (bindings : bindings_t) (state : state_t)
    (symbols : List String) : Except Err (List bindings_t) :=
  let args := c.args.filter (fun s => (bindings_find bindings s).isNone)
  let used := used_symbols bindings
  stack_loop (c.match_body state symbols args used) fuel [(bindings, 0)] []

/-! ## Action and Env -/

/-- `class Action`: a lifted action schema. -/
structure Action where
  name : String
  args : List String
  preconditions : List Condition
  effects : List Condition
deriving DecidableEq, Repr

/-- The loop `for (Condition condition : this->effects) effects.insert(condition.ground(binding))`
of `Action::ground`, started on the cleared set. -/
def ground_effects (binding : bindings_t) : List Condition → state_t → Except Err state_t
  | [], effects => .ok effects
  | condition :: rest, effects =>
    match condition.ground binding with
    | .error e => .error e
    | .ok g => ground_effects binding rest (set_insert effects g)

/-- `Action::ground`: the ground action and, through the reference parameter, the grounded
effect set. -/
def Action.ground (a : Action) (binding : bindings_t) : Except Err (GroundedAction × state_t) :=
  match ground_args binding a.args with
  | .error e => .error e
  | .ok arg_values =>
    match ground_effects binding a.effects [] with
    | .error e => .error e
    | .ok effects => .ok (⟨a.name, arg_values⟩, effects)

/-- `class Env`; each container is listed in its iteration order. -/
structure Env where
  initial_conditions : List GroundedCondition
  goal_conditions : List GroundedCondition
  actions : List Action
  symbols : List String
deriving Repr

/-- `Action::operator==`: the name and the number of parameters. -/
def Action.operator_eq (lhs rhs : Action) : Bool :=
  if lhs.name != rhs.name || lhs.args.length != rhs.args.length then false else true

/-- `ActionHasher` and `std::hash<Action>`: the string hash of the name. -/
def Action.hash (strHash : String → Nat) (ac : Action) : Nat :=
  strHash ac.name

/-- `Env::add_action`: `insert` into `unordered_set<Action, ActionHasher, ActionComparator>`,
which has no effect when a schema equal under `Action::operator==` is stored. -/
def Env.add_action (env : Env) (action : Action) : Env :=
  if env.actions.any (fun a => a.operator_eq action) then env
  else { env with actions := env.actions ++ [action] }

/-! ## get_actions -/

/-- `bindings_base` of `get_actions`: every symbol bound to itself. -/
def bindings_base (symbols : List String) : bindings_t :=
  symbols.foldl (fun b sym => bindings_insert b sym sym) []

/-- The body of the `while` loop of `get_actions` for one schema; `conditions` is the
vector of its preconditions.  (`conditions[index]` is read only for `index` below the
size of the vector; the model answers an index outside of it, which no run reaches, with
`out_of_range`.) -/
def get_actions_body (fuel : Nat) (state : state_t) (symbols : List String) (action : Action)
    (conditions : List Condition) (item : bindings_t × Nat) :
    Except Err (List (GroundedAction × state_t) × List (bindings_t × Nat)) :=
  let partial_ := item.1
  let index := item.2
  if index = conditions.length then
    match action.ground partial_ with
    | .error e => .error e
    | .ok grounded => .ok ([grounded], [])
  else
    match conditions.get? index with
    | none => .error .out_of_range
    | some condition =>
      match condition.match_ fuel partial_ state symbols with
      | .error e => .error e
      | .ok new_bindings =>
        let new_index := index + 1
        .ok ([], new_bindings.map (fun new_binding => (new_binding, new_index)))

/-- The loop `for (Action action : env->get_actions())` of `get_actions`, appending to
`all_actions`. -/
def get_actions_from (fuel : Nat) (state : state_t) (symbols : List String) :
    List Action → List (GroundedAction × state_t) → Except Err (List (GroundedAction × state_t))
  | [], all_actions => .ok all_actions
  | action :: rest, all_actions =>
    match stack_loop (get_actions_body fuel state symbols action action.preconditions) fuel
        [(bindings_base symbols, 0)] all_actions with
    | .error e => .error e
    | .ok all_actions => get_actions_from fuel state symbols rest all_actions

/-- `get_actions(state, env)`: every applicable ground action with its grounded effect
set.  (The map `conditions_by_name` the source fills first is never read.) -/
def get_actions (fuel : Nat) (state : state_t) (env : Env) :
    Except Err (List (GroundedAction × state_t)) :=
  get_actions_from fuel state env.symbols env.actions []

/-! ## Hash maps keyed by states -/

/-- `unordered_map::find`, returning the mapped value (`none` for `end()`); `key_eq` is the
key equality of the container, applied to the searched key and a stored key. -/
def umap_find {κ β : Type} (key_eq : κ → κ → Bool) : List (κ × β) → κ → Option β
  | [], _ => none
  | (k, v) :: rest, key => if key_eq key k then some v else umap_find key_eq rest key

/-- The assignment `m[key] = v`: overwrites the value of an equal key, else adds an entry. -/
def umap_set {κ β : Type} (key_eq : κ → κ → Bool) : List (κ × β) → κ → β → List (κ × β)
  | [], key, v => [(key, v)]
  | (k, w) :: rest, key, v =>
    if key_eq key k then (k, v) :: rest else (k, w) :: umap_set key_eq rest key v

/-- Reading `m[key]` on an `unordered_map<state_t, int>`: a missing key is first inserted
with the value `0`. -/
def umap_index {κ : Type} (key_eq : κ → κ → Bool) (m : List (κ × Int)) (key : κ) :
    Int × List (κ × Int) :=
  match umap_find key_eq m key with
  | some v => (v, m)
  | none => (0, m ++ [(key, 0)])

/-- Key equality of `unordered_map<pair<state_t, size_t>, int>`: `std::pair::operator==`. -/
def augmented_eq (a b : state_t × Nat) : Bool :=
  state_eq a.1 b.1 && a.2 == b.2

/-- The type of the static caches `heuristics_multi` and `heuristics_naive`. -/
abbrev heuristics_t := List ((state_t × Nat) × Int)

/-! ## Heuristic -/

/-- `class GraphPlanLayer`: the state it was built over and its fact set. -/
structure GraphPlanLayer where
  prev_conditions : state_t
  conditions : state_t
deriving DecidableEq, Repr

/-- `GraphPlanLayer(const state_t *prev_conditions)`: the no-op loop inserts every literal
of the previous state. -/
def GraphPlanLayer.new (prev_conditions : state_t) : GraphPlanLayer :=
  ⟨prev_conditions, prev_conditions.foldl set_insert []⟩

/-- `GraphPlanLayer::add_actions`: inserts every literal of every effect set returned by
`get_actions` on the previous state. -/
def GraphPlanLayer.add_actions (layer : GraphPlanLayer) (fuel : Nat) (env : Env) :
    Except Err GraphPlanLayer :=
  match get_actions fuel layer.prev_conditions env with
  | .error e => .error e
  | .ok grounded_actions =>
    .ok ⟨layer.prev_conditions,
      grounded_actions.foldl (fun conditions grounded => grounded.2.foldl set_insert conditions)
        layer.conditions⟩

/-- `get_heuristic_multi(start, goal, env)`, with the static cache `heuristics_multi`
passed explicitly.  `fuel0` is the fuel handed to `get_actions`, the `Nat` argument bounds
the depth of the recursion. -/
def get_heuristic_multi (strHash : String → Nat) (fuel0 : Nat) (goal : state_t) (env : Env) :
    Nat → heuristics_t → state_t → Except Err (Int × heuristics_t)
  | fuel, heuristics_multi, start =>
    let augmented := (start, hash_state strHash start)
    if (umap_find augmented_eq heuristics_multi augmented).isNone then
      let isgoal := goal.all (fun condition => decide (condition ∈ start))
      if isgoal then
        .ok (0, umap_set augmented_eq heuristics_multi augmented 0)
      else
        match fuel with
        | 0 => .error .out_of_fuel
        | fuel + 1 =>
          match (GraphPlanLayer.new start).add_actions fuel0 env with
          | .error e => .error e
          | .ok layer =>
            match get_heuristic_multi strHash fuel0 goal env fuel heuristics_multi
                layer.conditions with
            | .error e => .error e
            | .ok (r, heuristics_multi) =>
              .ok (r + 1, umap_set augmented_eq heuristics_multi augmented (r + 1))
    else
      match umap_find augmented_eq heuristics_multi augmented with
      | some v => .ok (v, heuristics_multi)
      | none => .error .out_of_range

/-- `get_heuristic_naive(start, goal, env)`.  The static caches are passed explicitly; the
function returns its value and the new content of `heuristics_naive`.  It tests
`heuristics_multi` for the key and, when the key is there, reads `heuristics_naive.at`. -/
def get_heuristic_naive (strHash : String → Nat) (heuristics_multi heuristics_naive : heuristics_t)
    (start goal : state_t) : Except Err (Int × heuristics_t) :=
  let augmented := (start, hash_state strHash start)
  if (umap_find augmented_eq heuristics_multi augmented).isNone then
    let res : Int := goal.foldl (fun res condition => if condition ∉ start then res + 1 else res) 0
    .ok (res, umap_set augmented_eq heuristics_naive augmented res)
  else
    match umap_find augmented_eq heuristics_naive augmented with
    | some v => .ok (v, heuristics_naive)
    | none => .error .out_of_range

/-! ## Search nodes and the priority queue -/

/-- `typedef pair<pair<pair<state_t, GroundedAction>, state_t>, pair<int, int>> node_t`:
((parent, incoming action), state), (g, f). -/
abbrev node_t := ((state_t × GroundedAction) × state_t) × (Int × Int)

/-- `operator<(const node_t &lhs, const node_t &rhs)`. -/
def node_lt (lhs rhs : node_t) : Bool :=
  decide (lhs.2.2 > rhs.2.2) || (decide (lhs.2.2 = rhs.2.2) && decide (lhs.2.1 < rhs.2.1))

/-- `priority_queue<node_t>::top` on a non-empty queue `first :: rest`: an element that is
not `operator<` any other one.  `std::priority_queue` leaves the choice among equivalent
elements open; the model takes the one pushed first. -/
def pq_top (first : node_t) : List node_t → node_t
  | [] => first
  | x :: rest => if node_lt first x then pq_top x rest else pq_top first rest

/-- `top()` followed by `pop()`; `none` on the empty queue. -/
def pq_pop : List node_t → Option (node_t × List node_t)
  | [] => none
  | first :: rest => some (pq_top first rest, (first :: rest).erase (pq_top first rest))

/-! ## planner -/

/-- The successor state computed in `planner` (lines 1021-1031): a copy of `state` on which
every literal of the effect set `new_conditions` is applied in iteration order: a positive
literal is inserted, for a negated literal its negation is erased when present. -/
def successor_state (state new_conditions : state_t) : state_t :=
  new_conditions.foldl (fun new_state condition =>
    if condition.truth then set_insert new_state condition
    else
      let negate := condition.negate
      if negate ∈ new_state then set_erase new_state negate else new_state) state

/-- The loop `for (pair<GroundedAction, state_t> grounded : grounded_actions)` of `planner`:
pushes one node per ground action. -/
def planner_expand (strHash : String → Nat) (heuristics_multi : heuristics_t) (goal state : state_t)
    (cost : List (state_t × Int)) :
    List (GroundedAction × state_t) → List node_t → heuristics_t →
      Except Err (List node_t × heuristics_t)
  | [], queue, heuristics_naive => .ok (queue, heuristics_naive)
  | grounded :: rest, queue, heuristics_naive =>
    let new_state := successor_state state grounded.2
    match get_heuristic_naive strHash heuristics_multi heuristics_naive new_state goal with
    | .error e => .error e
    | .ok (heuristic, heuristics_naive) =>
      match umap_find state_eq cost state with
      | none => .error .out_of_range
      | some c =>
        let new_node : node_t := (((state, grounded.1), new_state), (c, c + heuristic + 1))
        planner_expand strHash heuristics_multi goal state cost rest (queue ++ [new_node])
          heuristics_naive

/-- The loop `while (!(state == start))` of `planner`: walks `parents` back to `start`,
pushing each incoming action to the front of the plan. -/
def reconstruct (parents : List (state_t × (state_t × GroundedAction))) (start : state_t) :
    Nat → state_t → List GroundedAction → Except Err (List GroundedAction)
  | fuel, state, plan =>
    if state_eq state start then .ok plan
    else
      match fuel with
      | 0 => .error .out_of_fuel
      | fuel + 1 =>
        match umap_find state_eq parents state with
        | none => .error .out_of_range
        | some item => reconstruct parents start fuel item.1 (item.2 :: plan)

/-- The variables of `planner` that live across iterations of its main loop. -/
structure planner_state where
  parents : List (state_t × (state_t × GroundedAction))
  cost : List (state_t × Int)
  queue : List node_t
  heuristics_naive : heuristics_t
  count : Nat
deriving DecidableEq, Repr

/-- What a run of `planner` leaves: the returned `plan`, the dequeued state on which the
goal test succeeded (`none` when the queue ran empty), and the final variables. -/
structure planner_result where
  plan : List GroundedAction
  found : Option state_t
  final : planner_state
deriving DecidableEq, Repr

/-- The main loop `while (queue.size())` of `planner`.  `fuel0` is the fuel handed to the
inner loops, the `Nat` argument the fuel of this loop. -/
def planner_loop (strHash : String → Nat) (fuel0 : Nat) (heuristics_multi : heuristics_t)
    (env : Env) (start goal : state_t) : Nat → planner_state → Except Err planner_result
  | fuel, st =>
    match pq_pop st.queue with
    | none => .ok ⟨[], none, st⟩
    | some (node, queue) =>
      match fuel with
      | 0 => .error .out_of_fuel
      | fuel + 1 =>
        let parent := node.1.1.1
        let last_action := node.1.1.2
        let state := node.1.2
        let count := st.count + 1
        if (umap_find state_eq st.parents state).isSome then
          planner_loop strHash fuel0 heuristics_multi env start goal fuel
            ⟨st.parents, st.cost, queue, st.heuristics_naive, count⟩
        else
          let parents := umap_set state_eq st.parents state (parent, last_action)
          let cost_parent := umap_index state_eq st.cost parent
          let cost := umap_set state_eq cost_parent.2 state (cost_parent.1 + 1)
          match get_heuristic_naive strHash heuristics_multi st.heuristics_naive state goal with
          | .error e => .error e
          | .ok (h, heuristics_naive) =>
            if h = 0 then
              match reconstruct parents start fuel0 state [] with
              | .error e => .error e
              | .ok plan => .ok ⟨plan, some state, ⟨parents, cost, queue, heuristics_naive, count⟩⟩
            else
              match get_actions fuel0 state env with
              | .error e => .error e
              | .ok grounded_actions =>
                match planner_expand strHash heuristics_multi goal state cost grounded_actions
                    queue heuristics_naive with
                | .error e => .error e
                | .ok (queue, heuristics_naive) =>
                  planner_loop strHash fuel0 heuristics_multi env start goal fuel
                    ⟨parents, cost, queue, heuristics_naive, count⟩

/-- The state `start` that `planner` builds from the initial conditions. -/
def start_state (env : Env) : state_t :=
  env.initial_conditions.foldl set_insert []

/-- The state `goal` that `planner` builds from the goal conditions. -/
def goal_state (env : Env) : state_t :=
  env.goal_conditions.foldl set_insert []

/-- A run of `planner(env)` from given contents of the two static heuristic caches. -/
def planner_run (strHash : String → Nat) (fuel : Nat) (heuristics_multi heuristics_naive : heuristics_t)
    (env : Env) : Except Err planner_result :=
  let start := start_state env
  let goal := goal_state env
  let start_node : node_t := (((start, GroundedAction.default), start), (0, 0))
  let cost : List (state_t × Int) := umap_set state_eq [] start (-1)
  planner_loop strHash fuel heuristics_multi env start goal fuel
    ⟨[], cost, [start_node], heuristics_naive, 0⟩

/-- `planner(env)`: the returned plan.  In the program `heuristics_multi` is empty whenever
`planner` runs, because `get_heuristic_multi` is never called. -/
def planner (strHash : String → Nat) (fuel : Nat) (heuristics_naive : heuristics_t) (env : Env) :
    Except Err (List GroundedAction) :=
  match planner_run strHash fuel [] heuristics_naive env with
  | .error e => .error e
  | .ok r => .ok r.plan

/-! ## Auxiliary definitions used by the statements -/

deriving instance DecidableEq for Except

/-- A literal as the problem-file reader builds it: the predicate does not contain `(` and
does not start with `!`, and no argument contains `,`. -/
def plain_literal (g : GroundedCondition) : Prop :=
  '(' ∉ g.predicate.data ∧ g.predicate.data.head? ≠ some '!' ∧
    ∀ a ∈ g.arg_values, ',' ∉ a.data

/-- `Derives body x o`: running the worklist loop on the item `x` appends the result `o`,
either directly or through an item that `x` pushes. -/
inductive Derives {ι ο : Type} (body : ι → Except Err (List ο × List ι)) : ι → ο → Prop where
  | emit {x : ι} {o : ο} {results : List ο} {pushed : List ι} :
      body x = .ok (results, pushed) → o ∈ results → Derives body x o
  | push {x y : ι} {o : ο} {results : List ο} {pushed : List ι} :
      body x = .ok (results, pushed) → y ∈ pushed → Derives body y o → Derives body x o

/-- The binding `b2` extends `b1`: every key of `b1` is bound to the same value in `b2`. -/
def bindings_le (b1 b2 : bindings_t) : Prop :=
  ∀ s v, bindings_find b1 s = some v → bindings_find b2 s = some v

/-- The binding `b` agrees with the assignment `τ` on all its keys. -/
def agrees (b : bindings_t) (τ : String → String) : Prop :=
  ∀ s v, bindings_find b s = some v → τ s = v

/-- The lifted literal `c` with every argument replaced through the assignment `τ`, its
truth flag kept. -/
def Condition.instantiate (c : Condition) (τ : String → String) : GroundedCondition :=
  ⟨c.predicate, c.args.map τ, c.truth⟩

/-- The assignment read off a binding: bound names go to their value, other names to
themselves. -/
def assignment_of (b : bindings_t) (s : String) : String :=
  (bindings_find b s).getD s

/-- The invariant of the items of the loop of `Condition::match` started on `b0`: the index
is within the unbound arguments, the item extends `b0`, the unbound arguments before the
index are bound, and every entry that is not one of `b0` binds an unbound argument to an
unused symbol. -/
def match_inv (b0 : bindings_t) (symbols args used : List String) (item : bindings_t × Nat) :
    Prop :=
  item.2 ≤ args.length ∧ bindings_le b0 item.1 ∧
    (∀ s ∈ args.take item.2, (bindings_find item.1 s).isSome = true) ∧
    (∀ s v, bindings_find item.1 s = some v →
      bindings_find b0 s = some v ∨ (v ∈ symbols ∧ v ∉ used ∧ s ∈ args))

/-- What every binding returned by `Condition::match` satisfies. -/
def match_post (c : Condition) (state : state_t) (b0 : bindings_t)
    (symbols args used : List String) (b : bindings_t) : Prop :=
  bindings_le b0 b ∧ (∃ g, c.ground b = .ok g ∧ g ∈ state) ∧
    (∀ s v, bindings_find b s = some v →
      bindings_find b0 s = some v ∨ (v ∈ symbols ∧ v ∉ used ∧ s ∈ args))

/-- The invariant of the items of the loop of `get_actions` for the preconditions
`conditions`: the item extends the base binding, binds names to symbols only, and grounds
every precondition before the index to a member of the state. -/
def get_actions_inv (state : state_t) (symbols : List String) (conditions : List Condition)
    (item : bindings_t × Nat) : Prop :=
  item.2 ≤ conditions.length ∧ bindings_le (bindings_base symbols) item.1 ∧
    (∀ c ∈ conditions.take item.2, ∃ g, c.ground item.1 = .ok g ∧ g ∈ state) ∧
    (∀ s v, bindings_find item.1 s = some v → v ∈ symbols)

/-- What every pair returned by `get_actions` satisfies: it is the grounding of a schema of
the environment under a binding that extends the base binding, binds names to symbols, and
grounds every precondition to a member of the state. -/
def get_actions_post (state : state_t) (symbols : List String) (actions : List Action)
    (pair : GroundedAction × state_t) : Prop :=
  ∃ a ∈ actions, ∃ b : bindings_t, bindings_le (bindings_base symbols) b ∧
    (∀ c ∈ a.preconditions, ∃ g, c.ground b = .ok g ∧ g ∈ state) ∧
    (∀ s v, bindings_find b s = some v → v ∈ symbols) ∧ a.ground b = .ok pair

/-- A schema is well-formed over `symbols`: each of its parameters and each argument of each
of its effects is a symbol or occurs as an argument of one of its preconditions. -/
def Action.wf (symbols : List String) (a : Action) : Prop :=
  (∀ x ∈ a.args, x ∈ symbols ∨ ∃ c ∈ a.preconditions, x ∈ c.args) ∧
    (∀ e ∈ a.effects, ∀ x ∈ e.args, x ∈ symbols ∨ ∃ c ∈ a.preconditions, x ∈ c.args)

/-- Every schema of the environment is well-formed. -/
def Env.wf (env : Env) : Prop :=
  ∀ a ∈ env.actions, a.wf env.symbols

/-- A bound on the number of bindings that matching one precondition of `a` returns, and on
the fuel it takes. -/
def match_fuel (symbols : List String) (a : Action) : Nat :=
  (symbols.length + 1) ^ (a.preconditions.map (fun c => c.args.length)).sum

/-- Fuel that suffices for the loop of `get_actions` on the schema `a`. -/
def action_fuel (symbols : List String) (a : Action) : Nat :=
  (match_fuel symbols a + 1) ^ (a.preconditions.length + 1)

/-- Fuel that suffices for `get_actions` in every state. -/
def get_actions_fuel (env : Env) : Nat :=
  (env.actions.map (action_fuel env.symbols)).sum

/-- The invariant used for the completeness of `get_actions`: the item has the loop
invariant, agrees with the assignment `τ`, has pairwise different keys, and binds only
symbols and precondition arguments. -/
def complete_inv (state : state_t) (symbols : List String) (conditions : List Condition)
    (τ : String → String) (item : bindings_t × Nat) : Prop :=
  get_actions_inv state symbols conditions item ∧ agrees item.1 τ ∧
    (item.1.map Prod.fst).Nodup ∧
    (∀ s v, bindings_find item.1 s = some v → s ∈ symbols ∨ ∃ c ∈ conditions, s ∈ c.args)

/-- The pair that `get_actions` returns for the schema `a` under the assignment `τ`. -/
def Action.instantiate (a : Action) (τ : String → String) : GroundedAction × state_t :=
  (⟨a.name, a.args.map τ⟩, (a.effects.map (fun e => e.instantiate τ)).foldl set_insert [])

/-- Scenario S1 of the specification: blocks-world stack. -/
def scenario_S1 : Env where
  symbols := ["A", "B", "Table"]
  initial_conditions := [⟨"On", ["A", "Table"], true⟩, ⟨"On", ["B", "Table"], true⟩,
    ⟨"Clear", ["A"], true⟩, ⟨"Clear", ["B"], true⟩]
  goal_conditions := [⟨"On", ["A", "B"], true⟩]
  actions := [⟨"Stack", ["x", "y"],
    [⟨"Clear", ["x"], true⟩, ⟨"Clear", ["y"], true⟩, ⟨"On", ["x", "Table"], true⟩],
    [⟨"On", ["x", "y"], true⟩, ⟨"Clear", ["y"], false⟩, ⟨"On", ["x", "Table"], false⟩]⟩]

/-- The assignment `x := A`, `y := B` of scenario S1. -/
def assignment_S1 (s : String) : String :=
  if s = "x" then "A" else if s = "y" then "B" else s

/-- An environment with a schema `Bad(x)` whose parameter is neither a symbol nor an
argument of a precondition, next to the well-formed schema `Good(A)`. -/
def env_bad_schema : Env where
  symbols := ["A"]
  initial_conditions := [⟨"P", ["A"], true⟩]
  goal_conditions := [⟨"Q", ["A"], true⟩]
  actions := [⟨"Bad", ["x"], [], [⟨"Z", ["x"], true⟩]⟩,
    ⟨"Good", ["A"], [⟨"P", ["A"], true⟩], [⟨"Q", ["A"], true⟩]⟩]

/-- Scenario S5 of the specification with the fact `Adj(A,A)` in the state: one symbol,
the schema `Move(x,y)` with precondition `Adj(x,y)`. -/
def env_self_adjacent : Env where
  symbols := ["A"]
  initial_conditions := [⟨"Adj", ["A", "A"], true⟩]
  goal_conditions := [⟨"Visited", ["A"], true⟩]
  actions := [⟨"Move", ["x", "y"], [⟨"Adj", ["x", "y"], true⟩],
    [⟨"Visited", ["x"], true⟩, ⟨"Visited", ["y"], true⟩]⟩]

/-- `returns_actions env S r`: the call `get_actions(S, env)` returns the vector `r`. -/
def returns_actions (env : Env) (S : state_t) (r : List (GroundedAction × state_t)) : Prop :=
  ∃ fuel, get_actions fuel S env = .ok r

/-- `PlanFrom env S plan T`: there are states `S = S_0, S_1, ..., S_k = T` such that each
action of `plan` is one of the ground actions that `get_actions` returns in the state
before it, and each state is the successor of the state before it under that action's
effect set. -/
inductive PlanFrom (env : Env) : state_t → List GroundedAction → state_t → Prop where
  | nil (S : state_t) : PlanFrom env S [] S
  | cons {S T : state_t} {r : List (GroundedAction × state_t)} {a : GroundedAction}
      {E : state_t} {rest : List GroundedAction} :
      returns_actions env S r → (a, E) ∈ r → PlanFrom env (successor_state S E) rest T →
      PlanFrom env S (a :: rest) T

/-- The entries of `parents` other than the one of `start` record a step of the search:
the key is the successor of the recorded parent under the recorded action, and the parent
is itself a key. -/
def parents_step (env : Env) (start : state_t)
    (parents : List (state_t × (state_t × GroundedAction)))
    (entry : state_t × (state_t × GroundedAction)) : Prop :=
  entry.1 = start ∨
    ∃ r E, returns_actions env entry.2.1 r ∧ (entry.2.2, E) ∈ r ∧
      entry.1 = successor_state entry.2.1 E ∧ ∃ v, (entry.2.1, v) ∈ parents

/-- The invariant of `parents`: the first key is `start`, no key equals (`operator==`) an
earlier key, and every entry records a step from a key entered before it. -/
def parents_inv (env : Env) (start : state_t)
    (parents : List (state_t × (state_t × GroundedAction))) : Prop :=
  (∀ e ∈ parents.head?, e.1 = start) ∧
    parents.Pairwise (fun e1 e2 => state_eq e2.1 e1.1 = false) ∧
    ∀ before e after, parents = before ++ e :: after → parents_step env start before e

/-- The invariant of the queue: every node is the start node or records a step from a key
of `parents`. -/
def queue_inv (env : Env) (start : state_t)
    (parents : List (state_t × (state_t × GroundedAction))) (queue : List node_t) : Prop :=
  ∀ node ∈ queue, node.1 = ((start, GroundedAction.default), start) ∨
    ∃ r E, returns_actions env node.1.1.1 r ∧ (node.1.1.2, E) ∈ r ∧
      node.1.2 = successor_state node.1.1.1 E ∧ ∃ v, (node.1.1.1, v) ∈ parents

/-- All lists of length `n` over `symbols`. -/
def tuples (symbols : List String) : Nat → List (List String)
  | 0 => [[]]
  | n + 1 => symbols.flatMap (fun s => (tuples symbols n).map (fun t => s :: t))

/-- Every ground literal that a state of the search can contain: the literals of the start
state and the effects of the schemas with their arguments replaced by symbols. -/
def literal_universe (env : Env) : List GroundedCondition :=
  start_state env ++ env.actions.flatMap (fun a => a.effects.flatMap (fun e =>
    (tuples env.symbols e.args.length).map (fun t => ⟨e.predicate, t, e.truth⟩)))

/-- A bound on the number of different states of the search. -/
def state_bound (env : Env) : Nat :=
  2 ^ (literal_universe env).length

/-- The state `S` is in the closed set (equal, under `operator==`, to a key of `parents`)
or waits in the queue. -/
def known (parents : List (state_t × (state_t × GroundedAction))) (queue : List node_t)
    (S : state_t) : Prop :=
  (umap_find state_eq parents S).isSome = true ∨ ∃ node ∈ queue, node.1.2 = S

/-- The invariant of the main loop of `planner` behind its completeness: the states are
duplicate-free sets of literals of the universe, no key of `parents` contains the goal,
every successor of a key is known, and so is `start`. -/
def search_inv (env : Env) (st : planner_state) : Prop :=
  parents_inv env (start_state env) st.parents ∧
  queue_inv env (start_state env) st.parents st.queue ∧
  (∀ e ∈ st.parents, e.1.Nodup ∧ (∀ g ∈ e.1, g ∈ literal_universe env) ∧
    ¬ (∀ g ∈ goal_state env, g ∈ e.1)) ∧
  (∀ node ∈ st.queue, node.1.2.Nodup ∧ ∀ g ∈ node.1.2, g ∈ literal_universe env) ∧
  (∀ e ∈ st.parents, ∀ r, returns_actions env e.1 r → ∀ p ∈ r,
    known st.parents st.queue (successor_state e.1 p.2)) ∧
  known st.parents st.queue (start_state env)

/-- An environment in which the goal `G1(A), G2(A)` is reachable by `Step1`, `Step2`, while
the state reached by `Trap` makes the schema `Bad(x)`, whose parameter `x` occurs in no
precondition, applicable. -/
def env_trap : Env where
  symbols := ["A"]
  initial_conditions := [⟨"P", ["A"], true⟩]
  goal_conditions := [⟨"G1", ["A"], true⟩, ⟨"G2", ["A"], true⟩]
  actions := [⟨"Step1", ["A"], [⟨"P", ["A"], true⟩], [⟨"M", ["A"], true⟩]⟩,
    ⟨"Step2", ["A"], [⟨"M", ["A"], true⟩], [⟨"G1", ["A"], true⟩, ⟨"G2", ["A"], true⟩]⟩,
    ⟨"Trap", ["A"], [⟨"P", ["A"], true⟩], [⟨"G2", ["A"], true⟩]⟩,
    ⟨"Bad", ["x"], [⟨"G2", ["A"], true⟩], [⟨"Z", ["x"], true⟩]⟩]

/-- An environment whose state holds the negated literal `!P(A)`, with the schema `Flip(x)`
of precondition `!P(x)` and effect `P(x)`. -/
def env_flip : Env where
  symbols := ["A"]
  initial_conditions := [⟨"P", ["A"], false⟩]
  goal_conditions := [⟨"P", ["A"], true⟩]
  actions := [⟨"Flip", ["x"], [⟨"P", ["x"], false⟩], [⟨"P", ["x"], true⟩]⟩]

/-- Scenario S2 of the specification: the initial state contains the goal. -/
def scenario_S2 : Env where
  symbols := ["A", "B"]
  initial_conditions := [⟨"P", ["A"], true⟩, ⟨"Q", ["B"], true⟩]
  goal_conditions := [⟨"Q", ["B"], true⟩]
  actions := [⟨"ToQ", ["x"], [⟨"P", ["x"], true⟩], [⟨"Q", ["x"], true⟩, ⟨"P", ["x"], false⟩]⟩]

/-- Scenario S3 of the specification: no schema, goal `Q(A)` not in the initial state. -/
def scenario_S3 : Env where
  symbols := ["A"]
  initial_conditions := [⟨"P", ["A"], true⟩]
  goal_conditions := [⟨"Q", ["A"], true⟩]
  actions := []

/-- Scenario S4 of the specification: the two-step problem `ToQ`, `ToR`. -/
def scenario_S4 : Env where
  symbols := ["A", "B"]
  initial_conditions := [⟨"P", ["A"], true⟩]
  goal_conditions := [⟨"R", ["A"], true⟩]
  actions := [⟨"ToQ", ["x"], [⟨"P", ["x"], true⟩], [⟨"Q", ["x"], true⟩, ⟨"P", ["x"], false⟩]⟩,
    ⟨"ToR", ["x"], [⟨"Q", ["x"], true⟩], [⟨"R", ["x"], true⟩, ⟨"Q", ["x"], false⟩]⟩]

/-- The node that `planner` pushes for the ground action `grounded` when it expands
`state` with recorded cost `c`. -/
def new_node (goal state : state_t) (c : Int) (grounded : GroundedAction × state_t) : node_t :=
  (((state, grounded.1), successor_state state grounded.2),
    (c, c + (goal.foldl (fun (res : Int) condition =>
      if condition ∉ successor_state state grounded.2 then res + 1 else res) 0) + 1))

/-- What a run of `planner` leaves, without the content of `heuristics_naive`. -/
def planner_result.observable (r : planner_result) :
    List GroundedAction × Option state_t × List (state_t × (state_t × GroundedAction)) ×
      List (state_t × Int) × List node_t × Nat :=
  (r.plan, r.found, r.final.parents, r.final.cost, r.final.queue, r.final.count)

/-- The outcome of a run of `planner` (result or exception), without the content of
`heuristics_naive`. -/
def observable_outcome (r : Except Err planner_result) :
    Except Err (List GroundedAction × Option state_t ×
      List (state_t × (state_t × GroundedAction)) × List (state_t × Int) × List node_t × Nat) :=
  match r with
  | .error e => .error e
  | .ok out => .ok out.observable

/-- The environment of `env_order_b` with the two preconditions of `Act(x,y)` listed as
`P(x,y)`, `Q(x)`. -/
def env_order_a : Env where
  symbols := ["A"]
  initial_conditions := [⟨"P", ["A", "A"], true⟩, ⟨"Q", ["A"], true⟩]
  goal_conditions := [⟨"Z", ["A", "A"], true⟩]
  actions := [⟨"Act", ["x", "y"], [⟨"P", ["x", "y"], true⟩, ⟨"Q", ["x"], true⟩],
    [⟨"Z", ["x", "y"], true⟩]⟩]

/-- The environment of `env_order_a` with the two preconditions of `Act(x,y)` listed as
`Q(x)`, `P(x,y)`. -/
def env_order_b : Env where
  symbols := ["A"]
  initial_conditions := [⟨"P", ["A", "A"], true⟩, ⟨"Q", ["A"], true⟩]
  goal_conditions := [⟨"Z", ["A", "A"], true⟩]
  actions := [⟨"Act", ["x", "y"], [⟨"Q", ["x"], true⟩, ⟨"P", ["x", "y"], true⟩],
    [⟨"Z", ["x", "y"], true⟩]⟩]

/-- `relaxed_reaches fuel0 env goal S k`: the `k`-th relaxed layer over `S` is the first
one that contains every literal of `goal` (`fuel0` is the fuel of `get_actions`). -/
inductive relaxed_reaches (fuel0 : Nat) (env : Env) (goal : state_t) : state_t → Nat → Prop where
  | here {S : state_t} : (∀ g ∈ goal, g ∈ S) → relaxed_reaches fuel0 env goal S 0
  | next {S : state_t} {layer : GraphPlanLayer} {k : Nat} :
      (¬ ∀ g ∈ goal, g ∈ S) → (GraphPlanLayer.new S).add_actions fuel0 env = .ok layer →
      relaxed_reaches fuel0 env goal layer.conditions k → relaxed_reaches fuel0 env goal S (k + 1)

/-- One iteration of the loop `while (queue.size())` of `planner`, the body of
`planner_loop`: the result when the loop ends in this iteration (the queue is empty, or
the dequeued state passes the goal test), else the variables for the next iteration. -/
def planner_step (strHash : String → Nat) (fuel0 : Nat) (heuristics_multi : heuristics_t)
    (env : Env) (start goal : state_t) (st : planner_state) :
    Except Err (planner_result ⊕ planner_state) :=
  match pq_pop st.queue with
  | none => .ok (.inl ⟨[], none, st⟩)
  | some (node, queue) =>
    let parent := node.1.1.1
    let last_action := node.1.1.2
    let state := node.1.2
    let count := st.count + 1
    if (umap_find state_eq st.parents state).isSome then
      .ok (.inr ⟨st.parents, st.cost, queue, st.heuristics_naive, count⟩)
    else
      let parents := umap_set state_eq st.parents state (parent, last_action)
      let cost_parent := umap_index state_eq st.cost parent
      let cost := umap_set state_eq cost_parent.2 state (cost_parent.1 + 1)
      match get_heuristic_naive strHash heuristics_multi st.heuristics_naive state goal with
      | .error e => .error e
      | .ok (h, heuristics_naive) =>
        if h = 0 then
          match reconstruct parents start fuel0 state [] with
          | .error e => .error e
          | .ok plan =>
            .ok (.inl ⟨plan, some state, ⟨parents, cost, queue, heuristics_naive, count⟩⟩)
        else
          match get_actions fuel0 state env with
          | .error e => .error e
          | .ok grounded_actions =>
            match planner_expand strHash heuristics_multi goal state cost grounded_actions
                queue heuristics_naive with
            | .error e => .error e
            | .ok (queue, heuristics_naive) =>
              .ok (.inr ⟨parents, cost, queue, heuristics_naive, count⟩)

/-- The variables of `planner` before its loop, with `hn0` the content of
`heuristics_naive`. -/
def planner_init (env : Env) (hn0 : heuristics_t) : planner_state :=
  ⟨[], umap_set state_eq [] (start_state env) (-1),
    [(((start_state env, GroundedAction.default), start_state env), (0, 0))], hn0, 0⟩

/-- `planner_reaches strHash fuel0 env hn0 st`: the variables of `planner` are `st` at the
head of some iteration of its loop, in a run on `env` with an empty `heuristics_multi`. -/
inductive planner_reaches (strHash : String → Nat) (fuel0 : Nat) (env : Env) (hn0 : heuristics_t) :
    planner_state → Prop where
  | init : planner_reaches strHash fuel0 env hn0 (planner_init env hn0)
  | step {st st2 : planner_state} : planner_reaches strHash fuel0 env hn0 st →
      planner_step strHash fuel0 [] env (start_state env) (goal_state env) st = .ok (.inr st2) →
      planner_reaches strHash fuel0 env hn0 st2

/-- The bookkeeping invariant of the loop of `planner`.  Before the first iteration
`parents` is empty and `cost` holds `start` with `-1`; afterwards `start` is a key of
`parents`, the walk back from every key of `parents` ends at `start` and `cost` holds its
length, every key of `cost` is a key of `parents`, and every node of the queue has a key of
`parents` as its parent, the cost of the parent as `g`, and `g` plus the number of goal
literals absent from its state plus one as `f`. -/
def cost_inv (start goal : state_t) (st : planner_state) : Prop :=
  (st.parents = [] ∧ st.cost = [(start, -1)] ∧
    st.queue = [(((start, GroundedAction.default), start), (0, 0))]) ∨
  ((∃ v, (start, v) ∈ st.parents) ∧
    (∀ e ∈ st.parents, ∃ plan,
      reconstruct st.parents start st.parents.length e.1 [] = .ok plan ∧
      umap_find state_eq st.cost e.1 = some (plan.length : Int)) ∧
    (∀ e ∈ st.cost, ∃ v, (e.1, v) ∈ st.parents) ∧
    (∀ node ∈ st.queue, (∃ v, (node.1.1.1, v) ∈ st.parents) ∧
      umap_find state_eq st.cost node.1.1.1 = some node.2.1 ∧
      node.2.2 = node.2.1 + (goal.foldl (fun (res : Int) condition =>
        if condition ∉ node.1.2 then res + 1 else res) 0) + 1))

/-- `Visits body x y`: the worklist loop started on the item `x` pops the item `y`, unless
it stops before on an exception. -/
inductive Visits {ι ο : Type} (body : ι → Except Err (List ο × List ι)) : ι → ι → Prop where
  | self (x : ι) : Visits body x x
  | push {x y z : ι} {results : List ο} {pushed : List ι} :
      body x = .ok (results, pushed) → y ∈ pushed → Visits body y z → Visits body x z

/-- An environment with a positive initial state and the schema `Neg(x)`, whose
precondition `!Q(x)` is negated, next to the schema `Go(x)`. -/
def env_negated_precondition : Env where
  symbols := ["A"]
  initial_conditions := [⟨"P", ["A"], true⟩]
  goal_conditions := [⟨"Q", ["A"], true⟩]
  actions := [⟨"Go", ["x"], [⟨"P", ["x"], true⟩], [⟨"Q", ["x"], true⟩]⟩,
    ⟨"Neg", ["x"], [⟨"Q", ["x"], false⟩], [⟨"Q", ["x"], true⟩]⟩]

/-! ## Equality, canonical form and hashing of ground literals -/

theorem args_equal_loop_iff (l r : List String) (h : l.length = r.length) :
    args_equal_loop l r = true ↔ l = r := by
  induction l generalizing r with
  | nil =>
    cases r with
    | nil => simp [args_equal_loop]
    | cons y ys => simp at h
  | cons x xs ih =>
    cases r with
    | nil => simp at h
    | cons y ys =>
      simp only [List.length_cons, Nat.add_right_cancel_iff] at h
      by_cases hxy : x = y
      · subst hxy
        simp [args_equal_loop, ih ys h]
      · simp [args_equal_loop, hxy]

/-- `GroundedCondition::operator==` is structural equality. -/
theorem operator_eq_iff (a b : GroundedCondition) : a.operator_eq b = true ↔ a = b := by
  obtain ⟨p, as, t⟩ := a
  obtain ⟨q, bs, u⟩ := b
  unfold GroundedCondition.operator_eq
  by_cases hp : p = q
  · by_cases hl : as.length = bs.length
    · by_cases ha : as = bs
      · by_cases ht : t = u
        · simp [hp, ha, ht, (args_equal_loop_iff bs bs rfl).2 rfl]
        · simp [hp, ha, ht, (args_equal_loop_iff bs bs rfl).2 rfl]
      · have : args_equal_loop as bs = false := by
          cases h : args_equal_loop as bs
          · rfl
          · exact absurd ((args_equal_loop_iff as bs hl).1 h) ha
        simp [hp, hl, ha, this]
    · have : as ≠ bs := fun h => hl (congrArg List.length h)
      simp [hp, hl, this]
  · simp [hp]

/-- C8: for every ground literal `g`, `g.negate().negate() == g` under
`GroundedCondition::operator==`, and `negate` leaves the predicate and the argument list
unchanged and flips the truth flag. -/
theorem negate_involution (g : GroundedCondition) :
    g.negate.negate.operator_eq g = true ∧ g.negate.predicate = g.predicate ∧
      g.negate.arg_values = g.arg_values ∧ g.negate.truth = !g.truth := by
  refine ⟨(operator_eq_iff _ _).2 ?_, rfl, rfl, rfl⟩
  cases g
  simp [GroundedCondition.negate]

/-- The characters that `toString` writes for the argument list before the last one is cut. -/
theorem foldl_append_data (args : List String) (temp : String) :
    (args.foldl (fun t l => t ++ (l ++ ",")) temp).data =
      temp.data ++ args.flatMap (fun l => l.data ++ [',']) := by
  induction args generalizing temp with
  | nil => simp
  | cons x xs ih =>
    simp only [List.foldl_cons, List.flatMap_cons]
    rw [ih]
    simp [String.data_append]

/-- The canonical form, as a list of characters. -/
theorem toString_data (g : GroundedCondition) :
    g.toString.data =
      (((if g.truth then [] else ['!']) ++ g.predicate.data) ++
        '(' :: g.arg_values.flatMap (fun l => l.data ++ [','])).dropLast ++ [')'] := by
  unfold GroundedCondition.toString substr_drop_last
  simp only [String.data_append, foldl_append_data, List.dropLast_eq_take]
  cases g.truth <;> simp

theorem append_cons_inj_of_not_mem {c : Char} :
    ∀ {p q r s : List Char}, c ∉ p → c ∉ q → p ++ c :: r = q ++ c :: s → p = q ∧ r = s
  | [], [], _, _, _, _, h => by simpa using h
  | [], y :: q, r, s, _, hq, h => by
    simp only [List.nil_append, List.cons_append, List.cons.injEq] at h
    exact absurd h.1 (fun e => hq (by simp [e]))
  | x :: p, [], r, s, hp, _, h => by
    simp only [List.nil_append, List.cons_append, List.cons.injEq] at h
    exact absurd h.1 (fun e => hp (by simp [e]))
  | x :: p, y :: q, r, s, hp, hq, h => by
    simp only [List.cons_append, List.cons.injEq] at h
    have hp' : c ∉ p := fun e => hp (List.mem_cons_of_mem _ e)
    have hq' : c ∉ q := fun e => hq (List.mem_cons_of_mem _ e)
    obtain ⟨h1, h2⟩ := append_cons_inj_of_not_mem hp' hq' h.2
    exact ⟨by rw [h.1, h1], h2⟩

theorem args_body_injective :
    ∀ {l r : List String}, (∀ a ∈ l, ',' ∉ a.data) → (∀ a ∈ r, ',' ∉ a.data) →
      l.flatMap (fun a => a.data ++ [',']) = r.flatMap (fun a => a.data ++ [',']) → l = r
  | [], [], _, _, _ => rfl
  | [], y :: ys, _, _, h => by simp at h
  | x :: xs, [], _, _, h => by simp at h
  | x :: xs, y :: ys, hl, hr, h => by
    simp only [List.flatMap_cons, List.append_assoc, List.singleton_append] at h
    obtain ⟨h1, h2⟩ := append_cons_inj_of_not_mem (hl x (by simp)) (hr y (by simp)) h
    have hxs := args_body_injective (fun a ha => hl a (List.mem_cons_of_mem _ ha))
      (fun a ha => hr a (List.mem_cons_of_mem _ ha)) h2
    have hxy : x = y := String.ext h1
    rw [hxy, hxs]

theorem args_body_getLast (l : List String) (h : l ≠ []) :
    ∃ body, l.flatMap (fun a => a.data ++ [',']) = body ++ [','] := by
  induction l with
  | nil => exact absurd rfl h
  | cons x xs ih =>
    by_cases hxs : xs = []
    · subst hxs
      exact ⟨x.data, by simp⟩
    · obtain ⟨body, hb⟩ := ih hxs
      exact ⟨x.data ++ ',' :: body, by simp [List.flatMap_cons, hb]⟩

theorem full_eq_of_dropLast_eq (P Q : List Char) (as bs : List String) (hP : '(' ∉ P)
    (hQ : '(' ∉ Q)
    (h : (P ++ '(' :: as.flatMap (fun l => l.data ++ [','])).dropLast =
      (Q ++ '(' :: bs.flatMap (fun l => l.data ++ [','])).dropLast) :
    P ++ '(' :: as.flatMap (fun l => l.data ++ [',']) =
      Q ++ '(' :: bs.flatMap (fun l => l.data ++ [',']) := by
  have assoc : ∀ (X body : List Char), X ++ '(' :: (body ++ [',']) = (X ++ '(' :: body) ++ [','] := by
    intro X body
    simp
  by_cases has : as = []
  · by_cases hbs : bs = []
    · subst has hbs
      simp only [List.flatMap_nil, List.dropLast_concat] at h ⊢
      rw [h]
    · exfalso
      subst has
      obtain ⟨body, hbody⟩ := args_body_getLast bs hbs
      rw [hbody, assoc] at h
      simp only [List.flatMap_nil, List.dropLast_concat] at h
      apply hP
      rw [h]
      simp
  · by_cases hbs : bs = []
    · exfalso
      subst hbs
      obtain ⟨body, hbody⟩ := args_body_getLast as has
      rw [hbody, assoc] at h
      simp only [List.flatMap_nil, List.dropLast_concat] at h
      apply hQ
      rw [← h]
      simp
    · obtain ⟨body, hbody⟩ := args_body_getLast as has
      obtain ⟨body', hbody'⟩ := args_body_getLast bs hbs
      rw [hbody, hbody', assoc, assoc] at h ⊢
      simp only [List.dropLast_concat] at h
      rw [h]

/-- On plain literals the canonical form determines the literal. -/
theorem toString_injective_of_plain (a b : GroundedCondition) (ha : plain_literal a)
    (hb : plain_literal b) (h : a.toString = b.toString) : a = b := by
  obtain ⟨p, as, t⟩ := a
  obtain ⟨q, bs, u⟩ := b
  obtain ⟨hap, hah, haa⟩ := ha
  obtain ⟨hbp, hbh, hba⟩ := hb
  simp only at hap hah haa hbp hbh hba
  have hd := congrArg String.data h
  rw [toString_data, toString_data] at hd
  simp only at hd
  have hd' := List.append_inj_left' hd rfl
  have hpa : '(' ∉ (if t = true then [] else ['!']) ++ p.data := by
    cases t <;> simp [hap]
  have hpb : '(' ∉ (if u = true then [] else ['!']) ++ q.data := by
    cases u <;> simp [hbp]
  have key := full_eq_of_dropLast_eq _ _ as bs hpa hpb hd'
  obtain ⟨k1, k2⟩ := append_cons_inj_of_not_mem hpa hpb key
  have hargs : as = bs := args_body_injective haa hba k2
  have hpt : p = q ∧ t = u := by
    cases t <;> cases u
    · simp only [Bool.false_eq_true, ↓reduceIte, List.singleton_append, List.cons.injEq,
        true_and] at k1
      exact ⟨String.ext k1, rfl⟩
    · exfalso
      simp only [Bool.false_eq_true, ↓reduceIte, List.singleton_append, List.nil_append] at k1
      apply hbh
      rw [← k1]
      rfl
    · exfalso
      simp only [Bool.false_eq_true, ↓reduceIte, List.singleton_append, List.nil_append] at k1
      apply hah
      rw [k1]
      rfl
    · simp only [↓reduceIte, List.nil_append] at k1
      exact ⟨String.ext k1, rfl⟩
  rw [hpt.1, hpt.2, hargs]

/-- C9, as stated, fails: two different literals with the same canonical form.  The
literal `P` with the single argument `a,b` and the literal `P` with the arguments `a`, `b`
both print as `P(a,b)`, and `operator==` tells them apart. -/
theorem toString_not_injective :
    ¬ ((GroundedCondition.mk "P" ["a,b"] true).operator_eq (GroundedCondition.mk "P" ["a", "b"] true)
          = true ↔
        (GroundedCondition.mk "P" ["a,b"] true).toString =
          (GroundedCondition.mk "P" ["a", "b"] true).toString) := by
  decide

/-- C9 (amended): literals that are equal under `GroundedCondition::operator==` have the
same canonical string and hence the same hash; conversely, plain literals (predicate
without `(` and not starting with `!`, arguments without `,`) with the same canonical
string are equal under `operator==`; a literal and its negation are never equal. -/
theorem equality_and_canonical_form (strHash : String → Nat) (a b : GroundedCondition) :
    (a.operator_eq b = true → a.toString = b.toString) ∧
    (plain_literal a → plain_literal b → a.toString = b.toString → a.operator_eq b = true) ∧
    a.operator_eq a.negate = false ∧
    (a.operator_eq b = true → a.hash strHash = b.hash strHash) := by
  refine ⟨fun h => ?_, fun ha hb h => ?_, ?_, fun h => ?_⟩
  · rw [(operator_eq_iff a b).1 h]
  · exact (operator_eq_iff a b).2 (toString_injective_of_plain a b ha hb h)
  · cases hh : a.operator_eq a.negate
    · rfl
    · have := congrArg GroundedCondition.truth ((operator_eq_iff _ _).1 hh)
      simp [GroundedCondition.negate] at this
  · rw [(operator_eq_iff a b).1 h]

/-- C9 witness: the literal `On(A,B)` built twice. -/
theorem equality_and_canonical_form_witness :
    plain_literal ⟨"On", ["A", "B"], true⟩ ∧
    (GroundedCondition.mk "On" ["A", "B"] true).toString = "On(A,B)" ∧
    ((GroundedCondition.mk "On" ["A", "B"] true).operator_eq ⟨"On", ["A", "B"], true⟩ = true →
      (GroundedCondition.mk "On" ["A", "B"] true).toString =
        (GroundedCondition.mk "On" ["A", "B"] true).toString) ∧
    (GroundedCondition.mk "On" ["A", "B"] true).operator_eq ⟨"On", ["A", "B"], true⟩ = true :=
  ⟨by simp [plain_literal], by decide,
    (equality_and_canonical_form (fun _ => 0) ⟨"On", ["A", "B"], true⟩ ⟨"On", ["A", "B"], true⟩).1,
    (equality_and_canonical_form (fun _ => 0) ⟨"On", ["A", "B"], true⟩
      ⟨"On", ["A", "B"], true⟩).2.1 (by simp [plain_literal]) (by simp [plain_literal]) rfl⟩

/-! ## States: hashing and equality -/

theorem foldl_xor_eq (f : GroundedCondition → Nat) (s : state_t) (n : Nat) :
    s.foldl (fun temp c => temp ^^^ f c) n = n ^^^ (s.map f).foldr (fun h acc => h ^^^ acc) 0 := by
  induction s generalizing n with
  | nil => simp
  | cons x xs ih =>
    simp only [List.foldl_cons, List.map_cons, List.foldr_cons]
    rw [ih, Nat.xor_assoc]

theorem hash_state_perm (strHash : String → Nat) {s1 s2 : state_t} (h : s1.Perm s2) :
    hash_state strHash s1 = hash_state strHash s2 := by
  unfold hash_state
  rw [h.length_eq]
  exact h.foldl_eq' (fun x _ y _ z => by
    simp only [Nat.xor_assoc, Nat.xor_comm (GroundedCondition.hash strHash x)]) _

/-- For a duplicate-free first argument, `operator==` on states holds exactly when the two
lists are permutations of each other. -/
theorem state_eq_iff_perm {s1 s2 : state_t} (h1 : s1.Nodup) :
    state_eq s1 s2 = true ↔ s1.Perm s2 := by
  unfold state_eq
  constructor
  · intro h
    by_cases hl : s1.length = s2.length
    · simp only [hl, bne_self_eq_false, Bool.false_eq_true, ↓reduceIte, List.all_eq_true,
        decide_eq_true_eq] at h
      exact (List.subperm_of_subset h1 h).perm_of_length_le (le_of_eq hl.symm)
    · simp [hl] at h
  · intro h
    have hl := h.length_eq
    simp only [hl, bne_self_eq_false, Bool.false_eq_true, ↓reduceIte, List.all_eq_true,
      decide_eq_true_eq]
    exact fun x hx => h.subset hx

/-- C10: `hash<state_t>` of a state is its cardinality XOR-ed with the XOR of the hashes of
its literals; two enumerations of the same set of literals (permutations of each other)
have the same hash; and two states (duplicate-free) that are equal under `operator==`
have equal hashes. -/
theorem hash_state_permutation_invariant (strHash : String → Nat) (s1 s2 : state_t) :
    hash_state strHash s1 =
        s1.length ^^^ (s1.map (GroundedCondition.hash strHash)).foldr (fun h acc => h ^^^ acc) 0 ∧
      (s1.Perm s2 → hash_state strHash s1 = hash_state strHash s2) ∧
      (s1.Nodup → state_eq s1 s2 = true → hash_state strHash s1 = hash_state strHash s2) :=
  ⟨foldl_xor_eq _ _ _, hash_state_perm strHash,
    fun hn he => hash_state_perm strHash ((state_eq_iff_perm hn).1 he)⟩

/-- C10 witness: the state `{P(A), Q(A)}` built by the two insertion orders. -/
theorem hash_state_permutation_invariant_witness :
    ([⟨"P", ["A"], true⟩, ⟨"Q", ["A"], true⟩] : state_t).Perm
        [⟨"Q", ["A"], true⟩, ⟨"P", ["A"], true⟩] ∧
      state_eq [⟨"P", ["A"], true⟩, ⟨"Q", ["A"], true⟩]
        [⟨"Q", ["A"], true⟩, ⟨"P", ["A"], true⟩] = true ∧
      hash_state String.length [⟨"P", ["A"], true⟩, ⟨"Q", ["A"], true⟩] =
        hash_state String.length [⟨"Q", ["A"], true⟩, ⟨"P", ["A"], true⟩] :=
  ⟨List.Perm.swap _ _ _, by decide,
    (hash_state_permutation_invariant String.length [⟨"P", ["A"], true⟩, ⟨"Q", ["A"], true⟩]
      [⟨"Q", ["A"], true⟩, ⟨"P", ["A"], true⟩]).2.1 (List.Perm.swap _ _ _)⟩

/-! ## Successor generation -/

theorem mem_set_insert {α : Type} [DecidableEq α] (s : List α) (x l : α) :
    l ∈ set_insert s x ↔ l ∈ s ∨ l = x := by
  unfold set_insert
  by_cases h : x ∈ s
  · simp only [h, ↓reduceIte]
    constructor
    · exact Or.inl
    · rintro (h1 | h1)
      · exact h1
      · rw [h1]; exact h
  · simp [h]

theorem mem_set_erase {α : Type} [DecidableEq α] (s : List α) (x l : α) :
    l ∈ set_erase s x ↔ l ∈ s ∧ l ≠ x := by
  simp [set_erase]

theorem nodup_set_insert {α : Type} [DecidableEq α] (s : List α) (x : α) (h : s.Nodup) :
    (set_insert s x).Nodup := by
  unfold set_insert
  by_cases hx : x ∈ s
  · simpa [hx] using h
  · simp only [hx, ↓reduceIte]
    exact List.Nodup.append h (List.nodup_singleton x) (by simpa using hx)

theorem nodup_set_erase {α : Type} [DecidableEq α] (s : List α) (x : α) (h : s.Nodup) :
    (set_erase s x).Nodup :=
  h.filter _

/-- One step of the effect loop of `planner`. -/
theorem successor_state_cons (S : state_t) (e : GroundedCondition) (E : state_t) :
    successor_state S (e :: E) =
      successor_state (if e.truth then set_insert S e
        else if e.negate ∈ S then set_erase S e.negate else S) E := rfl

theorem mem_successor_step (S : state_t) (e l : GroundedCondition) :
    l ∈ (if e.truth then set_insert S e
        else if e.negate ∈ S then set_erase S e.negate else S) ↔
      (e.truth = true ∧ (l ∈ S ∨ l = e)) ∨ (e.truth = false ∧ l ∈ S ∧ l ≠ e.negate) := by
  cases ht : e.truth
  · by_cases hm : e.negate ∈ S
    · simp [hm, mem_set_erase]
    · simp only [Bool.false_eq_true, ↓reduceIte, hm, false_and, ne_eq, true_and, false_or]
      constructor
      · intro h
        exact ⟨h, fun e' => hm (e' ▸ h)⟩
      · exact fun h => h.1
  · simp [mem_set_insert]

theorem negate_negate (g : GroundedCondition) : g.negate.negate = g := by
  cases g
  simp [GroundedCondition.negate]

theorem negate_truth (g : GroundedCondition) : g.negate.truth = !g.truth := rfl

theorem eq_negate_iff (l e : GroundedCondition) : l = e.negate ↔ l.negate = e := by
  constructor
  · intro h
    rw [h, negate_negate]
  · intro h
    rw [← h, negate_negate]

/-- Membership in the successor state, for an effect set without a positive literal
together with its negation. -/
theorem mem_successor_state (E : state_t) :
    ∀ (S : state_t), (∀ e ∈ E, e.truth = true → e.negate ∉ E) → ∀ l,
      (l ∈ successor_state S E ↔
        (l ∈ S ∨ (l ∈ E ∧ l.truth = true)) ∧ ¬ (l.truth = true ∧ l.negate ∈ E)) := by
  induction E with
  | nil =>
    intro S _ l
    simp [successor_state]
  | cons e E ih =>
    intro S hE l
    have hE' : ∀ x ∈ E, x.truth = true → x.negate ∉ E := fun x hx ht hn =>
      hE x (List.mem_cons_of_mem _ hx) ht (List.mem_cons_of_mem _ hn)
    rw [successor_state_cons, ih _ hE' l, mem_successor_step]
    cases het : e.truth
    · -- a negated effect: its positive form is erased
      have hne : l.truth = true → l ≠ e := fun hl h => by
        rw [h, het] at hl
        exact Bool.noConfusion hl
      have hkey : l = e.negate → ¬ (l ∈ E ∧ l.truth = true) := fun h hl =>
        hE l (List.mem_cons_of_mem _ hl.1) hl.2
          (by rw [(eq_negate_iff l e).1 h]; exact List.mem_cons_self _ _)
      simp only [Bool.false_eq_true, false_and, true_and, false_or, List.mem_cons, not_and]
      constructor
      · rintro ⟨h1, h2⟩
        refine ⟨?_, fun hl => ?_⟩
        · rcases h1 with ⟨h1, _⟩ | h1
          · exact Or.inl h1
          · exact Or.inr ⟨Or.inr h1.1, h1.2⟩
        · rintro (h3 | h3)
          · rcases h1 with ⟨_, h1⟩ | h1
            · exact h1 ((eq_negate_iff l e).2 h3)
            · exact hkey ((eq_negate_iff l e).2 h3) h1
          · exact h2 hl h3
      · rintro ⟨h1, h2⟩
        refine ⟨?_, fun hl h3 => h2 hl (Or.inr h3)⟩
        rcases h1 with h1 | ⟨h1 | h1, hl⟩
        · by_cases hx : l = e.negate
          · exfalso
            have hl : l.truth = true := by rw [hx, negate_truth, het]; rfl
            exact h2 hl (Or.inl ((eq_negate_iff l e).1 hx))
          · exact Or.inl ⟨h1, hx⟩
        · exact absurd h1 (hne hl)
        · exact Or.inr ⟨h1, hl⟩
    · -- a positive effect: it is inserted
      have hne : l.truth = true → l.negate ≠ e := fun hl h => by
        have := congrArg GroundedCondition.truth h
        rw [negate_truth, hl, het] at this
        exact Bool.noConfusion this
      simp only [true_and, Bool.true_eq_false, false_and, or_false, List.mem_cons, not_and]
      constructor
      · rintro ⟨h1, h2⟩
        refine ⟨?_, fun hl => ?_⟩
        · rcases h1 with (h1 | h1) | h1
          · exact Or.inl h1
          · exact Or.inr ⟨Or.inl h1, by rw [h1, het]⟩
          · exact Or.inr ⟨Or.inr h1.1, h1.2⟩
        · rintro (h3 | h3)
          · exact hne hl h3
          · exact h2 hl h3
      · rintro ⟨h1, h2⟩
        refine ⟨?_, fun hl h3 => h2 hl (Or.inr h3)⟩
        rcases h1 with h1 | ⟨h1 | h1, hl⟩
        · exact Or.inl (Or.inl h1)
        · exact Or.inl (Or.inr h1)
        · exact Or.inr ⟨h1, hl⟩

/-- C6: for an effect set `E` that contains no positive literal together with its
negation, a literal `l` is in the successor of `S` iff (`l ∈ S` or `l` is a positive
literal of `E`) and not (`l` is positive and `negate(l) ∈ E`); a negated literal of `E` is
in the successor only if it was in `S`; and traversing `E` in another order gives a
successor with the same literals. -/
theorem successor_generation (S E : state_t) (hE : ∀ e ∈ E, e.truth = true → e.negate ∉ E) :
    (∀ l, l ∈ successor_state S E ↔
        (l ∈ S ∨ (l ∈ E ∧ l.truth = true)) ∧ ¬ (l.truth = true ∧ l.negate ∈ E)) ∧
    (∀ l ∈ E, l.truth = false → (l ∈ successor_state S E ↔ l ∈ S)) ∧
    (∀ E2 : state_t, E.Perm E2 → ∀ l, l ∈ successor_state S E2 ↔ l ∈ successor_state S E) := by
  refine ⟨mem_successor_state E S hE, fun l _ hl => ?_, fun E2 hp l => ?_⟩
  · rw [mem_successor_state E S hE l]
    simp [hl]
  · have hE2 : ∀ e ∈ E2, e.truth = true → e.negate ∉ E2 := fun e he ht hn =>
      hE e (hp.symm.subset he) ht (hp.symm.subset hn)
    rw [mem_successor_state E S hE l, mem_successor_state E2 S hE2 l]
    simp only [hp.mem_iff]

/-- C6 witness: the effect set of `Stack(A,B)` applied to the initial state of the
blocks-world scenario. -/
theorem successor_generation_witness :
    (∀ e ∈ ([⟨"On", ["A", "B"], true⟩, ⟨"Clear", ["B"], false⟩, ⟨"On", ["A", "Table"], false⟩] :
        state_t), e.truth = true → e.negate ∉
        ([⟨"On", ["A", "B"], true⟩, ⟨"Clear", ["B"], false⟩, ⟨"On", ["A", "Table"], false⟩] :
          state_t)) ∧
    successor_state
        [⟨"On", ["A", "Table"], true⟩, ⟨"On", ["B", "Table"], true⟩, ⟨"Clear", ["A"], true⟩,
          ⟨"Clear", ["B"], true⟩]
        [⟨"On", ["A", "B"], true⟩, ⟨"Clear", ["B"], false⟩, ⟨"On", ["A", "Table"], false⟩] =
      [⟨"On", ["B", "Table"], true⟩, ⟨"Clear", ["A"], true⟩, ⟨"On", ["A", "B"], true⟩] ∧
    (∀ l, l ∈ successor_state
        [⟨"On", ["A", "Table"], true⟩, ⟨"On", ["B", "Table"], true⟩, ⟨"Clear", ["A"], true⟩,
          ⟨"Clear", ["B"], true⟩]
        [⟨"On", ["A", "B"], true⟩, ⟨"Clear", ["B"], false⟩, ⟨"On", ["A", "Table"], false⟩] ↔
      (l ∈ ([⟨"On", ["A", "Table"], true⟩, ⟨"On", ["B", "Table"], true⟩, ⟨"Clear", ["A"], true⟩,
          ⟨"Clear", ["B"], true⟩] : state_t) ∨
        (l ∈ ([⟨"On", ["A", "B"], true⟩, ⟨"Clear", ["B"], false⟩,
          ⟨"On", ["A", "Table"], false⟩] : state_t) ∧ l.truth = true)) ∧
      ¬ (l.truth = true ∧ l.negate ∈ ([⟨"On", ["A", "B"], true⟩, ⟨"Clear", ["B"], false⟩,
          ⟨"On", ["A", "Table"], false⟩] : state_t))) :=
  ⟨by decide, by decide,
    (successor_generation _ _ (by decide)).1⟩

/-! ## The worklist loop -/

/-- Partial correctness of the worklist loop: an invariant of the items and a property of
the results. -/
theorem stack_loop_sound {ι ο : Type} (body : ι → Except Err (List ο × List ι))
    (I : ι → Prop) (P : ο → Prop)
    (hbody : ∀ x results pushed, I x → body x = .ok (results, pushed) →
      (∀ o ∈ results, P o) ∧ (∀ y ∈ pushed, I y)) :
    ∀ (fuel : Nat) (stack : List ι) (out res : List ο), (∀ x ∈ stack, I x) → (∀ o ∈ out, P o) →
      stack_loop body fuel stack out = .ok res → ∀ o ∈ res, P o := by
  intro fuel
  induction fuel with
  | zero =>
    intro stack out res _ hout h
    cases stack with
    | nil =>
      simp only [stack_loop, Except.ok.injEq] at h
      subst h
      exact hout
    | cons x xs => simp [stack_loop] at h
  | succ n ih =>
    intro stack out res hstack hout h
    cases stack with
    | nil =>
      simp only [stack_loop, Except.ok.injEq] at h
      subst h
      exact hout
    | cons x xs =>
      simp only [stack_loop] at h
      cases hb : body x with
      | error e => simp [hb] at h
      | ok rp =>
        obtain ⟨results, pushed⟩ := rp
        simp only [hb] at h
        obtain ⟨h1, h2⟩ := hbody x results pushed (hstack x (List.mem_cons_self _ _)) hb
        refine ih _ _ _ ?_ ?_ h
        · intro y hy
          rcases List.mem_append.1 hy with hy | hy
          · exact h2 y (List.mem_reverse.1 hy)
          · exact hstack y (List.mem_cons_of_mem _ hy)
        · intro o ho
          rcases List.mem_append.1 ho with ho | ho
          · exact hout o ho
          · exact h1 o ho

/-- The results already appended stay, and every result derivable from an item of the
stack is appended. -/
theorem stack_loop_complete {ι ο : Type} (body : ι → Except Err (List ο × List ι)) :
    ∀ (fuel : Nat) (stack : List ι) (out res : List ο),
      stack_loop body fuel stack out = .ok res →
        (∀ o ∈ out, o ∈ res) ∧ ∀ x ∈ stack, ∀ o, Derives body x o → o ∈ res := by
  intro fuel
  induction fuel with
  | zero =>
    intro stack out res h
    cases stack with
    | nil =>
      simp only [stack_loop, Except.ok.injEq] at h
      subst h
      exact ⟨fun o ho => ho, fun x hx => absurd hx (List.not_mem_nil x)⟩
    | cons x xs => simp [stack_loop] at h
  | succ n ih =>
    intro stack out res h
    cases stack with
    | nil =>
      simp only [stack_loop, Except.ok.injEq] at h
      subst h
      exact ⟨fun o ho => ho, fun x hx => absurd hx (List.not_mem_nil x)⟩
    | cons x xs =>
      simp only [stack_loop] at h
      cases hb : body x with
      | error e => simp [hb] at h
      | ok rp =>
        obtain ⟨results, pushed⟩ := rp
        simp only [hb] at h
        obtain ⟨h1, h2⟩ := ih _ _ _ h
        refine ⟨fun o ho => h1 o (List.mem_append_left _ ho), ?_⟩
        intro y hy o hd
        rcases List.mem_cons.1 hy with hy | hy
        · subst hy
          cases hd with
          | emit hb2 ho =>
            rw [hb] at hb2
            simp only [Except.ok.injEq, Prod.mk.injEq] at hb2
            obtain ⟨e1, _⟩ := hb2
            subst e1
            exact h1 o (List.mem_append_right _ ho)
          | push hb2 hz hd2 =>
            rw [hb] at hb2
            simp only [Except.ok.injEq, Prod.mk.injEq] at hb2
            obtain ⟨_, e2⟩ := hb2
            subst e2
            exact h2 _ (List.mem_append_left _ (List.mem_reverse.2 hz)) o hd2
        · exact h2 y (List.mem_append_right _ hy) o hd

/-- More fuel does not change a result; the body may itself take fuel. -/
theorem stack_loop_mono {ι ο : Type} (body body2 : ι → Except Err (List ο × List ι))
    (hb : ∀ x, body x ≠ .error .out_of_fuel → body2 x = body x) :
    ∀ (fuel : Nat) (stack : List ι) (out : List ο),
      stack_loop body fuel stack out ≠ .error .out_of_fuel →
        ∀ k, stack_loop body2 (fuel + k) stack out = stack_loop body fuel stack out := by
  intro fuel
  induction fuel with
  | zero =>
    intro stack out h k
    cases stack with
    | nil => cases k <;> simp [stack_loop]
    | cons x xs => simp [stack_loop] at h
  | succ n ih =>
    intro stack out h k
    cases stack with
    | nil => simp [stack_loop]
    | cons x xs =>
      have e : n + 1 + k = (n + k) + 1 := by omega
      rw [e]
      simp only [stack_loop] at h ⊢
      cases hbx : body x with
      | error err =>
        rw [hbx] at h
        simp only at h
        have : body2 x = .error err := by
          rw [hb x (by rw [hbx]; intro he; apply h; cases he; rfl), hbx]
        simp [this]
      | ok rp =>
        obtain ⟨results, pushed⟩ := rp
        rw [hbx] at h
        simp only at h
        have : body2 x = .ok (results, pushed) := by
          rw [hb x (by rw [hbx]; simp), hbx]
        simp only [this]
        exact ih _ _ h k

/-- The fuel that an item of rank `r` needs when every body pushes at most `w` items. -/
theorem fuel_bound_step (w r : Nat) : 1 + w * (w + 1) ^ r ≤ (w + 1) ^ (r + 1) := by
  have h1 : 1 ≤ (w + 1) ^ r := Nat.one_le_pow _ _ (by omega)
  calc 1 + w * (w + 1) ^ r ≤ (w + 1) ^ r + w * (w + 1) ^ r := by omega
    _ = (w + 1) ^ (r + 1) := by ring

theorem sum_map_le_of_forall_lt (w r : Nat) {ι : Type} (rank : ι → Nat) (pushed : List ι)
    (hlen : pushed.length ≤ w) (hr : ∀ y ∈ pushed, rank y < r) (b : Nat) (hb : 1 ≤ b) :
    (pushed.map (fun y => b ^ rank y)).sum + 1 ≤ 1 + w * b ^ (r - 1) := by
  have h : (pushed.map (fun y => b ^ rank y)).sum ≤ pushed.length * b ^ (r - 1) := by
    clear hlen
    induction pushed with
    | nil => simp
    | cons y ys ih =>
      simp only [List.map_cons, List.sum_cons, List.length_cons]
      have h1 : b ^ rank y ≤ b ^ (r - 1) :=
        Nat.pow_le_pow_right hb (by have := hr y (List.mem_cons_self _ _); omega)
      have h2 := ih (fun z hz => hr z (List.mem_cons_of_mem _ hz))
      calc b ^ rank y + (ys.map (fun y => b ^ rank y)).sum
          ≤ b ^ (r - 1) + ys.length * b ^ (r - 1) := Nat.add_le_add h1 h2
        _ = (ys.length + 1) * b ^ (r - 1) := by ring
  have h2 : pushed.length * b ^ (r - 1) ≤ w * b ^ (r - 1) := Nat.mul_le_mul_right _ hlen
  omega

/-- Termination of the worklist loop: when every body pushes at most `w` items, each of
smaller rank, the loop does not run out of fuel `Σ (w+1)^rank`. -/
theorem stack_loop_terminates {ι ο : Type} (body : ι → Except Err (List ο × List ι))
    (I : ι → Prop) (rank : ι → Nat) (w : Nat)
    (hbody : ∀ x results pushed, I x → body x = .ok (results, pushed) →
      pushed.length ≤ w ∧ ∀ y ∈ pushed, I y ∧ rank y < rank x)
    (hfuel : ∀ x, I x → body x ≠ .error .out_of_fuel) :
    ∀ (fuel : Nat) (stack : List ι) (out : List ο), (∀ x ∈ stack, I x) →
      (stack.map (fun x => (w + 1) ^ rank x)).sum ≤ fuel →
        stack_loop body fuel stack out ≠ .error .out_of_fuel := by
  intro fuel
  induction fuel with
  | zero =>
    intro stack out _ hsum
    cases stack with
    | nil => simp [stack_loop]
    | cons x xs =>
      exfalso
      simp only [List.map_cons, List.sum_cons] at hsum
      have : 1 ≤ (w + 1) ^ rank x := Nat.one_le_pow _ _ (by omega)
      omega
  | succ n ih =>
    intro stack out hI hsum
    cases stack with
    | nil => simp [stack_loop]
    | cons x xs =>
      simp only [stack_loop]
      cases hb : body x with
      | error e =>
        simp only
        intro he
        cases he
        exact hfuel x (hI x (List.mem_cons_self _ _)) hb
      | ok rp =>
        obtain ⟨results, pushed⟩ := rp
        simp only
        obtain ⟨hlen, hp⟩ := hbody x results pushed (hI x (List.mem_cons_self _ _)) hb
        apply ih
        · intro y hy
          rcases List.mem_append.1 hy with hy | hy
          · exact (hp y (List.mem_reverse.1 hy)).1
          · exact hI y (List.mem_cons_of_mem _ hy)
        · simp only [List.map_cons, List.sum_cons] at hsum
          simp only [List.map_append, List.map_reverse, List.sum_append, List.sum_reverse]
          have h1 := sum_map_le_of_forall_lt w (rank x) rank pushed hlen (fun y hy => (hp y hy).2)
            (w + 1) (by omega)
          by_cases hr : rank x = 0
          · have hnil : pushed = [] := by
              cases pushed with
              | nil => rfl
              | cons y ys => exact absurd (hp y (List.mem_cons_self _ _)).2 (by omega)
            subst hnil
            simp only [List.map_nil, List.sum_nil, Nat.zero_add]
            have : 1 ≤ (w + 1) ^ rank x := Nat.one_le_pow _ _ (by omega)
            omega
          · have h2 := fuel_bound_step w (rank x - 1)
            have e : rank x - 1 + 1 = rank x := by omega
            rw [e] at h2
            omega

/-- The number of results of the worklist loop, when every body appends at most one result
and pushes at most `w` items, each of smaller rank. -/
theorem stack_loop_length {ι ο : Type} (body : ι → Except Err (List ο × List ι))
    (I : ι → Prop) (rank : ι → Nat) (w : Nat)
    (hbody : ∀ x results pushed, I x → body x = .ok (results, pushed) →
      results.length ≤ 1 ∧ pushed.length ≤ w ∧ ∀ y ∈ pushed, I y ∧ rank y < rank x) :
    ∀ (fuel : Nat) (stack : List ι) (out res : List ο), (∀ x ∈ stack, I x) →
      stack_loop body fuel stack out = .ok res →
        res.length ≤ out.length + (stack.map (fun x => (w + 1) ^ rank x)).sum := by
  intro fuel
  induction fuel with
  | zero =>
    intro stack out res _ h
    cases stack with
    | nil =>
      simp only [stack_loop, Except.ok.injEq] at h
      subst h
      simp
    | cons x xs => simp [stack_loop] at h
  | succ n ih =>
    intro stack out res hI h
    cases stack with
    | nil =>
      simp only [stack_loop, Except.ok.injEq] at h
      subst h
      simp
    | cons x xs =>
      simp only [stack_loop] at h
      cases hb : body x with
      | error e => simp [hb] at h
      | ok rp =>
        obtain ⟨results, pushed⟩ := rp
        simp only [hb] at h
        obtain ⟨hres, hlen, hp⟩ := hbody x results pushed (hI x (List.mem_cons_self _ _)) hb
        have hI2 : ∀ y ∈ pushed.reverse ++ xs, I y := by
          intro y hy
          rcases List.mem_append.1 hy with hy | hy
          · exact (hp y (List.mem_reverse.1 hy)).1
          · exact hI y (List.mem_cons_of_mem _ hy)
        have h0 := ih _ _ _ hI2 h
        simp only [List.map_append, List.map_reverse, List.sum_append, List.sum_reverse,
          List.length_append, List.map_cons, List.sum_cons] at h0 ⊢
        have h1 := sum_map_le_of_forall_lt w (rank x) rank pushed hlen (fun y hy => (hp y hy).2)
          (w + 1) (by omega)
        by_cases hr : rank x = 0
        · have hnil : pushed = [] := by
            cases pushed with
            | nil => rfl
            | cons y ys => exact absurd (hp y (List.mem_cons_self _ _)).2 (by omega)
          subst hnil
          simp only [List.map_nil, List.sum_nil, Nat.zero_add] at h0
          have : 1 ≤ (w + 1) ^ rank x := Nat.one_le_pow _ _ (by omega)
          omega
        · have h2 := fuel_bound_step w (rank x - 1)
          have e : rank x - 1 + 1 = rank x := by omega
          rw [e] at h2
          omega

/-! ## Bindings -/

theorem bindings_find_append (b : bindings_t) (k v s : String) :
    bindings_find (b ++ [(k, v)]) s =
      match bindings_find b s with
      | some x => some x
      | none => if k = s then some v else none := by
  induction b with
  | nil => simp [bindings_find]
  | cons e rest ih =>
    obtain ⟨k2, v2⟩ := e
    by_cases h : k2 = s
    · simp [bindings_find, h]
    · simp [bindings_find, h, ih]

theorem bindings_find_insert (b : bindings_t) (k v s : String) :
    bindings_find (bindings_insert b k v) s =
      match bindings_find b s with
      | some x => some x
      | none => if k = s then some v else none := by
  unfold bindings_insert
  cases hk : bindings_find b k with
  | some x =>
    simp only
    cases hs : bindings_find b s with
    | some y => rfl
    | none =>
      have : k ≠ s := fun e => by rw [e, hs] at hk; exact Option.noConfusion hk
      simp [this]
  | none => exact bindings_find_append b k v s

theorem bindings_le_refl (b : bindings_t) : bindings_le b b := fun _ _ h => h

theorem bindings_le_trans {b1 b2 b3 : bindings_t} (h1 : bindings_le b1 b2)
    (h2 : bindings_le b2 b3) : bindings_le b1 b3 := fun s v h => h2 s v (h1 s v h)

theorem bindings_le_insert (b : bindings_t) (k v : String) :
    bindings_le b (bindings_insert b k v) := by
  intro s x h
  rw [bindings_find_insert, h]

theorem bindings_insert_bound (b : bindings_t) (k v : String) :
    (bindings_find (bindings_insert b k v) k).isSome = true := by
  rw [bindings_find_insert]
  cases bindings_find b k <;> simp

/-- `ground_args` succeeds exactly when every argument is bound, and then lists the bound
values. -/
theorem ground_args_ok_iff (b : bindings_t) (args vs : List String) :
    ground_args b args = .ok vs ↔
      (∀ s ∈ args, (bindings_find b s).isSome = true) ∧ vs = args.map (assignment_of b) := by
  induction args generalizing vs with
  | nil =>
    simp only [ground_args, Except.ok.injEq, List.not_mem_nil, false_implies, implies_true,
      List.map_nil, true_and]
    exact eq_comm
  | cons x xs ih =>
    simp only [ground_args, bindings_at]
    cases hx : bindings_find b x with
    | none =>
      simp only [List.mem_cons, forall_eq_or_imp, hx, Option.isSome_none, Bool.false_eq_true,
        false_and, iff_false]
      intro h
      exact Except.noConfusion h
    | some v =>
      simp only
      cases hr : ground_args b xs with
      | error e =>
        simp only [List.mem_cons, forall_eq_or_imp, hx, Option.isSome_some, true_and,
          List.map_cons]
        constructor
        · intro h
          exact Except.noConfusion h
        · rintro ⟨h1, _⟩
          have := (ih (xs.map (assignment_of b))).2 ⟨h1, rfl⟩
          rw [hr] at this
          exact Except.noConfusion this
      | ok ws =>
        obtain ⟨h1, h2⟩ := (ih ws).1 hr
        simp only [Except.ok.injEq, List.mem_cons, forall_eq_or_imp, hx, Option.isSome_some,
          true_and, List.map_cons]
        constructor
        · intro h
          refine ⟨h1, ?_⟩
          rw [← h, h2]
          simp [assignment_of, hx]
        · rintro ⟨_, h⟩
          rw [h, h2]
          simp [assignment_of, hx]

theorem ground_args_error (b : bindings_t) (args : List String) (e : Err)
    (h : ground_args b args = .error e) : e = .out_of_range := by
  induction args with
  | nil => simp [ground_args] at h
  | cons x xs ih =>
    simp only [ground_args, bindings_at] at h
    cases hx : bindings_find b x with
    | none =>
      simp only [hx, Except.error.injEq] at h
      exact h.symm
    | some v =>
      simp only [hx] at h
      cases hr : ground_args b xs with
      | error e2 =>
        simp only [hr, Except.error.injEq] at h
        subst h
        exact ih hr
      | ok ws => simp [hr] at h

theorem ground_args_total (b : bindings_t) (args : List String)
    (h : ∀ s ∈ args, (bindings_find b s).isSome = true) :
    ground_args b args = .ok (args.map (assignment_of b)) :=
  (ground_args_ok_iff b args _).2 ⟨h, rfl⟩

theorem assignment_of_le {b1 b2 : bindings_t} (h : bindings_le b1 b2) (s : String)
    (hs : (bindings_find b1 s).isSome = true) : assignment_of b2 s = assignment_of b1 s := by
  cases h1 : bindings_find b1 s with
  | none => simp [h1] at hs
  | some v => simp [assignment_of, h1, h s v h1]

theorem ground_args_le {b1 b2 : bindings_t} (h : bindings_le b1 b2) (args vs : List String)
    (h1 : ground_args b1 args = .ok vs) : ground_args b2 args = .ok vs := by
  obtain ⟨ha, hv⟩ := (ground_args_ok_iff b1 args vs).1 h1
  refine (ground_args_ok_iff b2 args vs).2 ⟨fun s hs => ?_, ?_⟩
  · cases h1s : bindings_find b1 s with
    | none => have := ha s hs; simp [h1s] at this
    | some v => simp [h s v h1s]
  · rw [hv]
    exact List.map_congr_left (fun s hs => (assignment_of_le h s (ha s hs)).symm)

theorem condition_ground_ok_iff (c : Condition) (b : bindings_t) (g : GroundedCondition) :
    c.ground b = .ok g ↔
      (∀ s ∈ c.args, (bindings_find b s).isSome = true) ∧ g = c.instantiate (assignment_of b) := by
  unfold Condition.ground
  cases hr : ground_args b c.args with
  | error e =>
    simp only
    constructor
    · intro h
      exact Except.noConfusion h
    · rintro ⟨h1, _⟩
      have := ground_args_total b c.args h1
      rw [hr] at this
      exact Except.noConfusion this
  | ok vs =>
    obtain ⟨h1, h2⟩ := (ground_args_ok_iff b c.args vs).1 hr
    simp only [Except.ok.injEq]
    constructor
    · intro h
      exact ⟨h1, by rw [← h, h2]; rfl⟩
    · rintro ⟨_, h⟩
      rw [h, h2]
      rfl

theorem condition_ground_le {b1 b2 : bindings_t} (h : bindings_le b1 b2) (c : Condition)
    (g : GroundedCondition) (h1 : c.ground b1 = .ok g) : c.ground b2 = .ok g := by
  unfold Condition.ground at h1 ⊢
  cases hr : ground_args b1 c.args with
  | error e => simp [hr] at h1
  | ok vs =>
    rw [ground_args_le h c.args vs hr]
    simpa [hr] using h1

theorem instantiate_congr (c : Condition) (τ1 τ2 : String → String)
    (h : ∀ s ∈ c.args, τ1 s = τ2 s) : c.instantiate τ1 = c.instantiate τ2 := by
  unfold Condition.instantiate
  rw [List.map_congr_left h]

/-! ## Condition::match -/

theorem match_body_complete_index (c : Condition) (state : state_t) (symbols args used : List String)
    (b : bindings_t) :
    c.match_body state symbols args used (b, args.length) =
      match c.ground b with
      | .error e => .error e
      | .ok condition => if condition ∈ state then .ok ([b], []) else .ok ([], []) := by
  simp [Condition.match_body]

theorem match_body_other_index (c : Condition) (state : state_t) (symbols args used : List String)
    (b : bindings_t) (index : Nat) (h : index ≠ args.length) :
    c.match_body state symbols args used (b, index) =
      .ok ([], (symbols.filter (fun sym => decide (sym ∉ used))).map
        (fun sym => (bindings_insert b (args.getD index "") sym, index + 1))) := by
  simp [Condition.match_body, h]

theorem mem_take_succ (args : List String) (index : Nat) (h : index < args.length) (s : String)
    (hs : s ∈ args.take (index + 1)) : s ∈ args.take index ∨ s = args.getD index "" := by
  rw [List.take_succ] at hs
  rcases List.mem_append.1 hs with hs | hs
  · exact Or.inl hs
  · right
    rw [List.getD_eq_getElem?_getD]
    rw [List.getElem?_eq_getElem h] at hs ⊢
    simpa using hs

theorem getD_mem (args : List String) (index : Nat) (h : index < args.length) :
    args.getD index "" ∈ args := by
  rw [List.getD_eq_getElem?_getD, List.getElem?_eq_getElem h]
  exact List.getElem_mem h

/-- The loop of `Condition::match` keeps `match_inv` and appends only bindings with
`match_post`. -/
theorem match_body_inv (c : Condition) (state : state_t) (b0 : bindings_t)
    (symbols args used : List String) :
    ∀ x results pushed, match_inv b0 symbols args used x →
      c.match_body state symbols args used x = .ok (results, pushed) →
        (∀ o ∈ results, match_post c state b0 symbols args used o) ∧
          (∀ y ∈ pushed, match_inv b0 symbols args used y) := by
  rintro ⟨b, index⟩ results pushed ⟨h1, h2, h3, h4⟩ hb
  simp only at h1 h2 h3 h4
  by_cases hi : index = args.length
  · subst hi
    rw [match_body_complete_index] at hb
    cases hg : c.ground b with
    | error e => simp [hg] at hb
    | ok g =>
      simp only [hg] at hb
      by_cases hm : g ∈ state
      · simp only [hm, ↓reduceIte, Except.ok.injEq, Prod.mk.injEq] at hb
        obtain ⟨e1, e2⟩ := hb
        subst e1 e2
        refine ⟨fun o ho => ?_, fun y hy => absurd hy (List.not_mem_nil y)⟩
        rw [List.mem_singleton] at ho
        subst ho
        exact ⟨h2, ⟨g, hg, hm⟩, h4⟩
      · simp only [hm, ↓reduceIte, Except.ok.injEq, Prod.mk.injEq] at hb
        obtain ⟨e1, e2⟩ := hb
        subst e1 e2
        exact ⟨fun o ho => absurd ho (List.not_mem_nil o),
          fun y hy => absurd hy (List.not_mem_nil y)⟩
  · rw [match_body_other_index _ _ _ _ _ _ _ hi] at hb
    simp only [Except.ok.injEq, Prod.mk.injEq] at hb
    obtain ⟨e1, e2⟩ := hb
    subst e1 e2
    have hlt : index < args.length := lt_of_le_of_ne h1 hi
    refine ⟨fun o ho => absurd ho (List.not_mem_nil o), fun y hy => ?_⟩
    obtain ⟨sym, hsym, rfl⟩ := List.mem_map.1 hy
    simp only [List.mem_filter, decide_eq_true_eq] at hsym
    refine ⟨hlt, bindings_le_trans h2 (bindings_le_insert _ _ _), fun s hs => ?_, fun s v hv => ?_⟩
    · simp only at hs ⊢
      rcases mem_take_succ args index hlt s hs with hs | hs
      · cases hf : bindings_find b s with
        | none => have := h3 s hs; simp [hf] at this
        | some v => simp [bindings_le_insert b _ sym s v hf]
      · rw [hs]
        exact bindings_insert_bound _ _ _
    · simp only at hv
      rw [bindings_find_insert] at hv
      cases hf : bindings_find b s with
      | some x =>
        simp only [hf, Option.some.injEq] at hv
        subst hv
        exact h4 s x hf
      | none =>
        simp only [hf] at hv
        by_cases hk : args.getD index "" = s
        · rw [if_pos hk] at hv
          injection hv with hv
          subst hv
          exact Or.inr ⟨hsym.1, hsym.2, hk ▸ getD_mem args index hlt⟩
        · rw [if_neg hk] at hv
          exact Option.noConfusion hv

theorem match_inv_init (b0 : bindings_t) (symbols args used : List String) :
    match_inv b0 symbols args used (b0, 0) :=
  ⟨Nat.zero_le _, bindings_le_refl b0, fun s hs => by simp at hs, fun _ _ h => Or.inl h⟩

/-- Every binding returned by `Condition::match` extends the given one by unused symbols on
the unbound arguments and grounds the literal to a member of the state. -/
theorem match_sound (c : Condition) (fuel : Nat) (b0 : bindings_t) (state : state_t)
    (symbols : List String) (res : List bindings_t)
    (h : c.match_ fuel b0 state symbols = .ok res) :
    ∀ b ∈ res, match_post c state b0 symbols
      (c.args.filter (fun s => (bindings_find b0 s).isNone)) (used_symbols b0) b := by
  unfold Condition.match_ at h
  exact stack_loop_sound _ _ _ (match_body_inv c state b0 symbols _ _) fuel _ _ _
    (fun x hx => by
      rw [List.mem_singleton] at hx
      subst hx
      exact match_inv_init _ _ _ _)
    (fun o ho => absurd ho (List.not_mem_nil o)) h

/-- On an item with `match_inv`, every argument of the literal is bound once the index has
reached the number of unbound arguments. -/
theorem match_all_bound (c : Condition) (b0 b : bindings_t) (symbols used : List String)
    (h : match_inv b0 symbols (c.args.filter (fun s => (bindings_find b0 s).isNone)) used
      (b, (c.args.filter (fun s => (bindings_find b0 s).isNone)).length)) :
    ∀ s ∈ c.args, (bindings_find b s).isSome = true := by
  obtain ⟨_, h2, h3, _⟩ := h
  simp only [List.take_length] at h3
  intro s hs
  cases hf : bindings_find b0 s with
  | some v => simp [h2 s v hf]
  | none => exact h3 s (List.mem_filter.2 ⟨hs, by simp [hf]⟩)

/-- The body of the loop of `Condition::match` never fails on an item with `match_inv`. -/
theorem match_body_ok (c : Condition) (state : state_t) (b0 : bindings_t)
    (symbols used : List String) (x : bindings_t × Nat)
    (h : match_inv b0 symbols (c.args.filter (fun s => (bindings_find b0 s).isNone)) used x) :
    ∃ r, c.match_body state symbols
      (c.args.filter (fun s => (bindings_find b0 s).isNone)) used x = .ok r := by
  obtain ⟨b, index⟩ := x
  by_cases hi : index = (c.args.filter (fun s => (bindings_find b0 s).isNone)).length
  · subst hi
    rw [match_body_complete_index]
    have hg := (condition_ground_ok_iff c b _).2 ⟨match_all_bound c b0 b symbols used h, rfl⟩
    rw [hg]
    simp only
    by_cases hm : c.instantiate (assignment_of b) ∈ state
    · exact ⟨([b], []), by simp [hm]⟩
    · exact ⟨([], []), by simp [hm]⟩
  · rw [match_body_other_index _ _ _ _ _ _ _ hi]
    exact ⟨_, rfl⟩

theorem match_body_rank (c : Condition) (state : state_t) (b0 : bindings_t)
    (symbols args used : List String) :
    ∀ x results pushed, match_inv b0 symbols args used x →
      c.match_body state symbols args used x = .ok (results, pushed) →
        results.length ≤ 1 ∧ pushed.length ≤ symbols.length ∧
          ∀ y ∈ pushed, match_inv b0 symbols args used y ∧
            args.length - y.2 < args.length - x.2 := by
  intro x results pushed hI hb
  have hinv := (match_body_inv c state b0 symbols args used x results pushed hI hb).2
  obtain ⟨b, index⟩ := x
  by_cases hi : index = args.length
  · subst hi
    rw [match_body_complete_index] at hb
    cases hg : c.ground b with
    | error e => simp [hg] at hb
    | ok g =>
      simp only [hg] at hb
      by_cases hm : g ∈ state
      · simp only [hm, ↓reduceIte, Except.ok.injEq, Prod.mk.injEq] at hb
        obtain ⟨e1, e2⟩ := hb
        subst e1 e2
        exact ⟨by simp, by simp, fun y hy => absurd hy (List.not_mem_nil y)⟩
      · simp only [hm, ↓reduceIte, Except.ok.injEq, Prod.mk.injEq] at hb
        obtain ⟨e1, e2⟩ := hb
        subst e1 e2
        exact ⟨by simp, by simp, fun y hy => absurd hy (List.not_mem_nil y)⟩
  · rw [match_body_other_index _ _ _ _ _ _ _ hi] at hb
    simp only [Except.ok.injEq, Prod.mk.injEq] at hb
    obtain ⟨e1, e2⟩ := hb
    subst e1 e2
    have hlt : index < args.length := lt_of_le_of_ne hI.1 hi
    refine ⟨by simp, ?_, fun y hy => ⟨hinv y hy, ?_⟩⟩
    · rw [List.length_map]
      exact List.length_filter_le _ _
    · obtain ⟨sym, _, rfl⟩ := List.mem_map.1 hy
      simp only
      omega

/-- `Condition::match` does not run out of fuel `(|symbols| + 1) ^ |args|`, and it never
throws. -/
theorem match_total (c : Condition) (fuel : Nat) (b0 : bindings_t) (state : state_t)
    (symbols : List String) (hfuel : (symbols.length + 1) ^ c.args.length ≤ fuel) :
    ∃ res, c.match_ fuel b0 state symbols = .ok res := by
  have hlen : (c.args.filter (fun s => (bindings_find b0 s).isNone)).length ≤ c.args.length :=
    List.length_filter_le _ _
  have hI : ∀ x ∈ [(b0, 0)], match_inv b0 symbols
      (c.args.filter (fun s => (bindings_find b0 s).isNone)) (used_symbols b0) x := by
    intro x hx
    rw [List.mem_singleton] at hx
    subst hx
    exact match_inv_init _ _ _ _
  have hnf : c.match_ fuel b0 state symbols ≠ .error .out_of_fuel := by
    unfold Condition.match_
    refine stack_loop_terminates _ (match_inv b0 symbols
      (c.args.filter (fun s => (bindings_find b0 s).isNone)) (used_symbols b0)) (fun x => (c.args.filter
      (fun s => (bindings_find b0 s).isNone)).length - x.2) symbols.length
      (fun x results pushed hx hb => (match_body_rank c state b0 symbols _ _ x results pushed hx hb).2)
      (fun x hx he => ?_) fuel _ _ hI ?_
    · obtain ⟨r, hr⟩ := match_body_ok c state b0 symbols _ x hx
      rw [hr] at he
      exact Except.noConfusion he
    · simp only [List.map_cons, List.map_nil, List.sum_cons, List.sum_nil, Nat.sub_zero,
        Nat.add_zero]
      exact le_trans (Nat.pow_le_pow_right (by omega) hlen) hfuel
  cases hr : c.match_ fuel b0 state symbols with
  | ok res => exact ⟨res, rfl⟩
  | error e =>
    exfalso
    cases e with
    | out_of_fuel => exact hnf hr
    | out_of_range =>
      -- no body fails, so the loop cannot end in an exception
      unfold Condition.match_ at hr
      have key : ∀ (n : Nat) (stack : List (bindings_t × Nat)) (out : List bindings_t),
          (∀ x ∈ stack, match_inv b0 symbols
            (c.args.filter (fun s => (bindings_find b0 s).isNone)) (used_symbols b0) x) →
          stack_loop (c.match_body state symbols
            (c.args.filter (fun s => (bindings_find b0 s).isNone)) (used_symbols b0)) n stack out
            ≠ .error .out_of_range := by
        intro n
        induction n with
        | zero =>
          intro stack out _
          cases stack <;> simp [stack_loop]
        | succ n ih =>
          intro stack out hst
          cases stack with
          | nil => simp [stack_loop]
          | cons x xs =>
            obtain ⟨⟨results, pushed⟩, hr2⟩ :=
              match_body_ok c state b0 symbols (used_symbols b0) x (hst x (List.mem_cons_self _ _))
            simp only [stack_loop, hr2]
            apply ih
            intro y hy
            rcases List.mem_append.1 hy with hy | hy
            · exact (match_body_inv c state b0 symbols _ _ x results pushed
                (hst x (List.mem_cons_self _ _)) hr2).2 y (List.mem_reverse.1 hy)
            · exact hst y (List.mem_cons_of_mem _ hy)
      exact key fuel _ _ hI hr

theorem agrees_insert (b : bindings_t) (τ : String → String) (k : String) (h : agrees b τ) :
    agrees (bindings_insert b k (τ k)) τ := by
  intro s v hv
  rw [bindings_find_insert] at hv
  cases hf : bindings_find b s with
  | some x =>
    simp only [hf, Option.some.injEq] at hv
    subst hv
    exact h s x hf
  | none =>
    simp only [hf] at hv
    by_cases hk : k = s
    · rw [if_pos hk] at hv
      injection hv with hv
      rw [← hv, hk]
    · rw [if_neg hk] at hv
      exact Option.noConfusion hv

theorem instantiate_of_agrees (c : Condition) (b : bindings_t) (τ : String → String)
    (h : agrees b τ) (hb : ∀ s ∈ c.args, (bindings_find b s).isSome = true) :
    c.instantiate (assignment_of b) = c.instantiate τ := by
  apply instantiate_congr
  intro s hs
  cases hf : bindings_find b s with
  | none => have := hb s hs; simp [hf] at this
  | some v => simp [assignment_of, hf, h s v hf]

/-- From an item that agrees with the assignment `τ`, the loop of `Condition::match` reaches
a result that agrees with `τ`, when `τ` sends the unbound arguments to unused symbols and
the literal instantiated by `τ` is in the state. -/
theorem match_derives (c : Condition) (state : state_t) (b0 : bindings_t) (symbols : List String)
    (τ : String → String)
    (hτ : ∀ s ∈ c.args.filter (fun s => (bindings_find b0 s).isNone),
      τ s ∈ symbols ∧ τ s ∉ used_symbols b0)
    (hstate : c.instantiate τ ∈ state) :
    ∀ (k : Nat) (b : bindings_t) (index : Nat),
      (c.args.filter (fun s => (bindings_find b0 s).isNone)).length - index = k →
      match_inv b0 symbols (c.args.filter (fun s => (bindings_find b0 s).isNone))
        (used_symbols b0) (b, index) →
      agrees b τ →
      ∃ r, agrees r τ ∧ Derives (c.match_body state symbols
        (c.args.filter (fun s => (bindings_find b0 s).isNone)) (used_symbols b0)) (b, index) r := by
  intro k
  induction k with
  | zero =>
    intro b index hk hI hag
    have hi : index = (c.args.filter (fun s => (bindings_find b0 s).isNone)).length :=
      le_antisymm hI.1 (by omega)
    subst hi
    have hbound := match_all_bound c b0 b symbols _ hI
    have hg := (condition_ground_ok_iff c b _).2 ⟨hbound, rfl⟩
    rw [instantiate_of_agrees c b τ hag hbound] at hg
    have hb : c.match_body state symbols (c.args.filter (fun s => (bindings_find b0 s).isNone))
        (used_symbols b0) (b, (c.args.filter (fun s => (bindings_find b0 s).isNone)).length) =
        .ok ([b], []) := by
      rw [match_body_complete_index, hg]
      simp [hstate]
    exact ⟨b, hag, Derives.emit hb (List.mem_singleton.2 rfl)⟩
  | succ k ih =>
    intro b index hk hI hag
    have hi : index ≠ (c.args.filter (fun s => (bindings_find b0 s).isNone)).length := by omega
    have hlt : index < (c.args.filter (fun s => (bindings_find b0 s).isNone)).length := by omega
    have hb := match_body_other_index c state symbols
      (c.args.filter (fun s => (bindings_find b0 s).isNone)) (used_symbols b0) b index hi
    have hmem := hτ _ (getD_mem _ index hlt)
    have hy : (bindings_insert b ((c.args.filter (fun s => (bindings_find b0 s).isNone)).getD index "")
        (τ ((c.args.filter (fun s => (bindings_find b0 s).isNone)).getD index "")), index + 1) ∈
        (symbols.filter (fun sym => decide (sym ∉ used_symbols b0))).map
          (fun sym => (bindings_insert b
            ((c.args.filter (fun s => (bindings_find b0 s).isNone)).getD index "") sym, index + 1)) :=
      List.mem_map.2 ⟨_, List.mem_filter.2 ⟨hmem.1, by simpa using hmem.2⟩, rfl⟩
    have hI2 := (match_body_inv c state b0 symbols _ _ _ _ _ hI hb).2 _ hy
    obtain ⟨r, hr1, hr2⟩ := ih _ (index + 1) (by omega) hI2 (agrees_insert b τ _ hag)
    exact ⟨r, hr1, Derives.push hb hy hr2⟩

/-- Completeness of `Condition::match`: a returned binding agrees with any assignment that
agrees with the given binding, sends the unbound arguments to unused symbols and
instantiates the literal to a member of the state. -/
theorem match_complete (c : Condition) (fuel : Nat) (b0 : bindings_t) (state : state_t)
    (symbols : List String) (res : List bindings_t) (τ : String → String)
    (h : c.match_ fuel b0 state symbols = .ok res) (hag : agrees b0 τ)
    (hτ : ∀ s ∈ c.args.filter (fun s => (bindings_find b0 s).isNone),
      τ s ∈ symbols ∧ τ s ∉ used_symbols b0)
    (hstate : c.instantiate τ ∈ state) :
    ∃ r ∈ res, agrees r τ := by
  obtain ⟨r, hr1, hr2⟩ := match_derives c state b0 symbols τ hτ hstate _ b0 0 rfl
    (match_inv_init _ _ _ _) hag
  unfold Condition.match_ at h
  exact ⟨r, (stack_loop_complete _ fuel _ _ _ h).2 _ (List.mem_singleton.2 rfl) r hr2, hr1⟩

/-- More fuel does not change the result of `Condition::match`. -/
theorem match_mono (c : Condition) (fuel k : Nat) (b0 : bindings_t) (state : state_t)
    (symbols : List String) (h : c.match_ fuel b0 state symbols ≠ .error .out_of_fuel) :
    c.match_ (fuel + k) b0 state symbols = c.match_ fuel b0 state symbols := by
  unfold Condition.match_ at h ⊢
  exact stack_loop_mono _ _ (fun _ _ => rfl) fuel _ _ h k

/-- `Condition::match` reads the state only through membership tests. -/
theorem match_congr (c : Condition) (fuel : Nat) (b0 : bindings_t) (s1 s2 : state_t)
    (symbols : List String) (h : ∀ g, g ∈ s1 ↔ g ∈ s2) :
    c.match_ fuel b0 s1 symbols = c.match_ fuel b0 s2 symbols := by
  unfold Condition.match_
  have : ∀ args used, c.match_body s1 symbols args used = c.match_body s2 symbols args used := by
    intro args used
    funext x
    unfold Condition.match_body
    by_cases hi : x.2 = args.length
    · simp only [hi, ↓reduceIte]
      cases c.ground x.1 with
      | error e => rfl
      | ok g =>
        simp only
        by_cases hm : g ∈ s1
        · simp [hm, (h g).1 hm]
        · have hm2 : g ∉ s2 := fun h2 => hm ((h g).2 h2)
          simp [hm, hm2]
    · simp [hi]
  simp only [this]

/-- `Condition::match` returns at most `(|symbols| + 1) ^ |args|` bindings. -/
theorem match_length (c : Condition) (fuel : Nat) (b0 : bindings_t) (state : state_t)
    (symbols : List String) (res : List bindings_t)
    (h : c.match_ fuel b0 state symbols = .ok res) :
    res.length ≤ (symbols.length + 1) ^ c.args.length := by
  have hlen : (c.args.filter (fun s => (bindings_find b0 s).isNone)).length ≤ c.args.length :=
    List.length_filter_le _ _
  unfold Condition.match_ at h
  have := stack_loop_length _ (match_inv b0 symbols
      (c.args.filter (fun s => (bindings_find b0 s).isNone)) (used_symbols b0))
    (fun x => (c.args.filter (fun s => (bindings_find b0 s).isNone)).length - x.2) symbols.length
    (match_body_rank c state b0 symbols _ _) fuel _ _ _
    (fun x hx => by
      rw [List.mem_singleton] at hx
      subst hx
      exact match_inv_init _ _ _ _) h
  simp only [List.length_nil, List.map_cons, List.map_nil, List.sum_cons, List.sum_nil,
    Nat.sub_zero, Nat.add_zero, Nat.zero_add] at this
  exact le_trans this (Nat.pow_le_pow_right (by omega) hlen)

/-! ## get_actions: soundness -/

theorem bindings_base_find_aux (symbols : List String) :
    ∀ (acc : bindings_t) (s : String),
      bindings_find (symbols.foldl (fun b sym => bindings_insert b sym sym) acc) s =
        match bindings_find acc s with
        | some x => some x
        | none => if s ∈ symbols then some s else none := by
  induction symbols with
  | nil =>
    intro acc s
    cases h : bindings_find acc s <;> simp [h]
  | cons x xs ih =>
    intro acc s
    rw [List.foldl_cons, ih, bindings_find_insert]
    cases hf : bindings_find acc s with
    | some v => rfl
    | none =>
      simp only
      by_cases hx : x = s
      · simp [hx]
      · have hx2 : ¬ s = x := fun e => hx e.symm
        simp [hx, hx2]

/-- The base binding binds exactly the symbols, each to itself. -/
theorem bindings_base_find (symbols : List String) (s : String) :
    bindings_find (bindings_base symbols) s = if s ∈ symbols then some s else none := by
  unfold bindings_base
  rw [bindings_base_find_aux]
  rfl

theorem get_actions_body_complete_index (fuel : Nat) (state : state_t) (symbols : List String)
    (a : Action) (conditions : List Condition) (b : bindings_t) :
    get_actions_body fuel state symbols a conditions (b, conditions.length) =
      match a.ground b with
      | .error e => .error e
      | .ok grounded => .ok ([grounded], []) := by
  simp only [get_actions_body, ↓reduceIte]

theorem get_actions_body_other_index (fuel : Nat) (state : state_t) (symbols : List String)
    (a : Action) (conditions : List Condition) (b : bindings_t) (index : Nat)
    (h : index < conditions.length) :
    get_actions_body fuel state symbols a conditions (b, index) =
      match (conditions[index]).match_ fuel b state symbols with
      | .error e => .error e
      | .ok new_bindings => .ok ([], new_bindings.map (fun nb => (nb, index + 1))) := by
  have hne : index ≠ conditions.length := Nat.ne_of_lt h
  simp only [get_actions_body, hne, ↓reduceIte, List.get?_eq_getElem?,
    List.getElem?_eq_getElem h]

theorem mem_take_succ_cond (conditions : List Condition) (index : Nat)
    (h : index < conditions.length) (c : Condition) (hc : c ∈ conditions.take (index + 1)) :
    c ∈ conditions.take index ∨ c = conditions[index] := by
  rw [List.take_succ] at hc
  rcases List.mem_append.1 hc with hc | hc
  · exact Or.inl hc
  · right
    rw [List.getElem?_eq_getElem h] at hc
    simpa using hc

theorem get_actions_body_inv (fuel : Nat) (state : state_t) (symbols : List String)
    (actions : List Action) (a : Action) (ha : a ∈ actions) :
    ∀ x results pushed, get_actions_inv state symbols a.preconditions x →
      get_actions_body fuel state symbols a a.preconditions x = .ok (results, pushed) →
        (∀ o ∈ results, get_actions_post state symbols actions o) ∧
          (∀ y ∈ pushed, get_actions_inv state symbols a.preconditions y) := by
  rintro ⟨b, index⟩ results pushed ⟨h1, h2, h3, h4⟩ hb
  simp only at h1 h2 h3 h4
  by_cases hi : index = a.preconditions.length
  · subst hi
    rw [get_actions_body_complete_index] at hb
    cases hg : a.ground b with
    | error e => simp [hg] at hb
    | ok grounded =>
      simp only [hg, Except.ok.injEq, Prod.mk.injEq] at hb
      obtain ⟨e1, e2⟩ := hb
      subst e1 e2
      refine ⟨fun o ho => ?_, fun y hy => absurd hy (List.not_mem_nil y)⟩
      rw [List.mem_singleton] at ho
      subst ho
      rw [List.take_length] at h3
      exact ⟨a, ha, b, h2, h3, h4, hg⟩
  · have hlt : index < a.preconditions.length := lt_of_le_of_ne h1 hi
    rw [get_actions_body_other_index _ _ _ _ _ _ _ hlt] at hb
    cases hm : (a.preconditions[index]).match_ fuel b state symbols with
    | error e => simp [hm] at hb
    | ok nbs =>
      simp only [hm, Except.ok.injEq, Prod.mk.injEq] at hb
      obtain ⟨e1, e2⟩ := hb
      subst e1 e2
      refine ⟨fun o ho => absurd ho (List.not_mem_nil o), fun y hy => ?_⟩
      obtain ⟨nb, hnb, rfl⟩ := List.mem_map.1 hy
      obtain ⟨p1, p2, p3⟩ := match_sound _ fuel b state symbols nbs hm nb hnb
      refine ⟨hlt, bindings_le_trans h2 p1, fun c hc => ?_, fun s v hv => ?_⟩
      · simp only at hc ⊢
        rcases mem_take_succ_cond _ index hlt c hc with hc | hc
        · obtain ⟨g, hg1, hg2⟩ := h3 c hc
          exact ⟨g, condition_ground_le p1 c g hg1, hg2⟩
        · rw [hc]
          exact p2
      · rcases p3 s v hv with hv | hv
        · exact h4 s v hv
        · exact hv.1

theorem get_actions_inv_init (state : state_t) (symbols : List String)
    (conditions : List Condition) :
    get_actions_inv state symbols conditions (bindings_base symbols, 0) := by
  refine ⟨Nat.zero_le _, bindings_le_refl _, fun c hc => by simp at hc, fun s v hv => ?_⟩
  rw [bindings_base_find] at hv
  by_cases hs : s ∈ symbols
  · rw [if_pos hs] at hv
    injection hv with hv
    rw [← hv]
    exact hs
  · rw [if_neg hs] at hv
    exact Option.noConfusion hv

theorem get_actions_from_sound (fuel : Nat) (state : state_t) (symbols : List String)
    (actions : List Action) :
    ∀ (rest : List Action) (out res : List (GroundedAction × state_t)),
      (∀ a ∈ rest, a ∈ actions) → (∀ o ∈ out, get_actions_post state symbols actions o) →
      get_actions_from fuel state symbols rest out = .ok res →
        ∀ o ∈ res, get_actions_post state symbols actions o := by
  intro rest
  induction rest with
  | nil =>
    intro out res _ hout h
    simp only [get_actions_from, Except.ok.injEq] at h
    subst h
    exact hout
  | cons a rest ih =>
    intro out res hsub hout h
    simp only [get_actions_from] at h
    cases hl : stack_loop (get_actions_body fuel state symbols a a.preconditions) fuel
        [(bindings_base symbols, 0)] out with
    | error e => simp [hl] at h
    | ok out2 =>
      simp only [hl] at h
      refine ih out2 res (fun b hb => hsub b (List.mem_cons_of_mem _ hb)) ?_ h
      exact stack_loop_sound _ _ _
        (get_actions_body_inv fuel state symbols actions a (hsub a (List.mem_cons_self _ _)))
        fuel _ _ _
        (fun x hx => by
          rw [List.mem_singleton] at hx
          subst hx
          exact get_actions_inv_init _ _ _)
        hout hl

/-- Every pair returned by `get_actions` has `get_actions_post`. -/
theorem get_actions_sound (fuel : Nat) (state : state_t) (env : Env)
    (res : List (GroundedAction × state_t)) (h : get_actions fuel state env = .ok res) :
    ∀ o ∈ res, get_actions_post state env.symbols env.actions o :=
  get_actions_from_sound fuel state env.symbols env.actions env.actions [] res
    (fun _ ha => ha) (fun o ho => absurd ho (List.not_mem_nil o)) h

theorem foldl_set_insert_mem {α : Type} [DecidableEq α] (l : List α) :
    ∀ (acc : List α) (x : α), x ∈ l.foldl set_insert acc ↔ x ∈ acc ∨ x ∈ l := by
  induction l with
  | nil => intro acc x; simp
  | cons y ys ih =>
    intro acc x
    rw [List.foldl_cons, ih, mem_set_insert, List.mem_cons]
    tauto

theorem foldl_set_insert_nodup {α : Type} [DecidableEq α] (l : List α) :
    ∀ (acc : List α), acc.Nodup → (l.foldl set_insert acc).Nodup := by
  induction l with
  | nil => intro acc h; exact h
  | cons y ys ih =>
    intro acc h
    rw [List.foldl_cons]
    exact ih _ (nodup_set_insert acc y h)

/-- `ground_effects` succeeds exactly when every effect argument is bound, and then yields
the grounded effects inserted one by one. -/
theorem ground_effects_ok_iff (b : bindings_t) (effects : List Condition) :
    ∀ (acc res : state_t), ground_effects b effects acc = .ok res ↔
      (∀ e ∈ effects, ∀ s ∈ e.args, (bindings_find b s).isSome = true) ∧
        res = (effects.map (fun e => e.instantiate (assignment_of b))).foldl set_insert acc := by
  induction effects with
  | nil =>
    intro acc res
    simp only [ground_effects, Except.ok.injEq, List.not_mem_nil, false_implies, implies_true,
      List.map_nil, List.foldl_nil, true_and]
    exact eq_comm
  | cons e es ih =>
    intro acc res
    simp only [ground_effects]
    cases hg : e.ground b with
    | error err =>
      simp only [List.mem_cons, forall_eq_or_imp]
      constructor
      · intro h
        exact Except.noConfusion h
      · rintro ⟨⟨h1, _⟩, _⟩
        have := (condition_ground_ok_iff e b _).2 ⟨h1, rfl⟩
        rw [hg] at this
        exact Except.noConfusion this
    | ok g =>
      obtain ⟨h1, h2⟩ := (condition_ground_ok_iff e b g).1 hg
      simp only [ih, List.mem_cons, forall_eq_or_imp, List.map_cons, List.foldl_cons, h2]
      constructor
      · rintro ⟨h3, h4⟩
        exact ⟨⟨h1, h3⟩, h4⟩
      · rintro ⟨⟨_, h3⟩, h4⟩
        exact ⟨h3, h4⟩

/-- `Action::ground` succeeds exactly when every parameter and every effect argument is
bound; its value is the instantiated schema. -/
theorem action_ground_ok_iff (a : Action) (b : bindings_t) (pair : GroundedAction × state_t) :
    a.ground b = .ok pair ↔
      (∀ s ∈ a.args, (bindings_find b s).isSome = true) ∧
      (∀ e ∈ a.effects, ∀ s ∈ e.args, (bindings_find b s).isSome = true) ∧
      pair = (⟨a.name, a.args.map (assignment_of b)⟩,
        (a.effects.map (fun e => e.instantiate (assignment_of b))).foldl set_insert []) := by
  unfold Action.ground
  cases hg : ground_args b a.args with
  | error err =>
    simp only
    constructor
    · intro h
      exact Except.noConfusion h
    · rintro ⟨h1, _⟩
      have := ground_args_total b a.args h1
      rw [hg] at this
      exact Except.noConfusion this
  | ok vs =>
    obtain ⟨h1, h2⟩ := (ground_args_ok_iff b a.args vs).1 hg
    simp only
    cases he : ground_effects b a.effects [] with
    | error err =>
      simp only
      constructor
      · intro h
        exact Except.noConfusion h
      · rintro ⟨_, h3, _⟩
        have := (ground_effects_ok_iff b a.effects [] _).2 ⟨h3, rfl⟩
        rw [he] at this
        exact Except.noConfusion this
    | ok effs =>
      obtain ⟨h3, h4⟩ := (ground_effects_ok_iff b a.effects [] effs).1 he
      simp only [Except.ok.injEq]
      constructor
      · intro h
        exact ⟨h1, h3, by rw [← h, h2, h4]⟩
      · rintro ⟨_, _, h⟩
        rw [h, h2, h4]

/-- C3: for every pair (ground action, effect set) that `get_actions(S, env)` returns there
are a schema of `env` and an assignment `β` that is the identity on every symbol of `env`
such that the ground action is the schema's name with its parameters mapped through `β`,
the effect set has exactly the schema's effects instantiated by `β` (truth flags kept) as
members, and every precondition of the schema instantiated by `β`, with its truth flag, is
a member of `S`. -/
theorem grounding_soundness (fuel : Nat) (S : state_t) (env : Env)
    (res : List (GroundedAction × state_t)) (h : get_actions fuel S env = .ok res)
    (pair : GroundedAction × state_t) (hp : pair ∈ res) :
    ∃ a ∈ env.actions, ∃ β : String → String,
      (∀ s ∈ env.symbols, β s = s) ∧
      pair.1 = ⟨a.name, a.args.map β⟩ ∧
      (∀ l, l ∈ pair.2 ↔ ∃ e ∈ a.effects, l = ⟨e.predicate, e.args.map β, e.truth⟩) ∧
      (∀ c ∈ a.preconditions, (⟨c.predicate, c.args.map β, c.truth⟩ : GroundedCondition) ∈ S) := by
  obtain ⟨a, ha, b, hle, hpre, _, hg⟩ := get_actions_sound fuel S env res h pair hp
  obtain ⟨_, _, hpair⟩ := (action_ground_ok_iff a b pair).1 hg
  refine ⟨a, ha, assignment_of b, fun s hs => ?_, by rw [hpair], fun l => ?_, fun c hc => ?_⟩
  · have : bindings_find (bindings_base env.symbols) s = some s := by
      rw [bindings_base_find, if_pos hs]
    simp [assignment_of, hle s s this]
  · rw [hpair]
    simp only [foldl_set_insert_mem, List.not_mem_nil, false_or, List.mem_map]
    constructor
    · rintro ⟨e, he, rfl⟩
      exact ⟨e, he, rfl⟩
    · rintro ⟨e, he, rfl⟩
      exact ⟨e, he, rfl⟩
  · obtain ⟨g, hg1, hg2⟩ := hpre c hc
    obtain ⟨_, hg3⟩ := (condition_ground_ok_iff c b g).1 hg1
    rw [hg3] at hg2
    exact hg2

/-! ## get_actions: fuel and totality -/

theorem get_actions_body_mono (fuel k : Nat) (state : state_t) (symbols : List String)
    (a : Action) (conditions : List Condition) (x : bindings_t × Nat)
    (h : get_actions_body fuel state symbols a conditions x ≠ .error .out_of_fuel) :
    get_actions_body (fuel + k) state symbols a conditions x =
      get_actions_body fuel state symbols a conditions x := by
  unfold get_actions_body at h ⊢
  by_cases hi : x.2 = conditions.length
  · simp only [hi, ↓reduceIte]
  · simp only [hi, ↓reduceIte] at h ⊢
    cases hc : conditions.get? x.2 with
    | none => rfl
    | some c =>
      simp only [hc] at h ⊢
      have hm : c.match_ fuel x.1 state symbols ≠ .error .out_of_fuel := by
        intro he
        rw [he] at h
        exact h rfl
      rw [match_mono c fuel k x.1 state symbols hm]

theorem get_actions_from_mono (fuel k : Nat) (state : state_t) (symbols : List String) :
    ∀ (rest : List Action) (out : List (GroundedAction × state_t)),
      get_actions_from fuel state symbols rest out ≠ .error .out_of_fuel →
        get_actions_from (fuel + k) state symbols rest out =
          get_actions_from fuel state symbols rest out := by
  intro rest
  induction rest with
  | nil => intro out _; rfl
  | cons a rest ih =>
    intro out h
    simp only [get_actions_from] at h ⊢
    have hl : stack_loop (get_actions_body fuel state symbols a a.preconditions) fuel
        [(bindings_base symbols, 0)] out ≠ .error .out_of_fuel := by
      intro he
      rw [he] at h
      exact h rfl
    rw [stack_loop_mono _ (get_actions_body (fuel + k) state symbols a a.preconditions)
      (fun x hx => get_actions_body_mono fuel k state symbols a _ x hx) fuel _ _ hl k]
    cases hr : stack_loop (get_actions_body fuel state symbols a a.preconditions) fuel
        [(bindings_base symbols, 0)] out with
    | error e => rfl
    | ok out2 =>
      simp only [hr] at h ⊢
      exact ih out2 h

/-- More fuel does not change the result of `get_actions`. -/
theorem get_actions_mono (fuel k : Nat) (state : state_t) (env : Env)
    (h : get_actions fuel state env ≠ .error .out_of_fuel) :
    get_actions (fuel + k) state env = get_actions fuel state env :=
  get_actions_from_mono fuel k state env.symbols env.actions [] h

theorem get_actions_body_congr (fuel : Nat) (s1 s2 : state_t) (symbols : List String)
    (a : Action) (conditions : List Condition) (h : ∀ g, g ∈ s1 ↔ g ∈ s2) :
    get_actions_body fuel s1 symbols a conditions = get_actions_body fuel s2 symbols a conditions := by
  funext x
  unfold get_actions_body
  by_cases hi : x.2 = conditions.length
  · simp only [hi, ↓reduceIte]
  · simp only [hi, ↓reduceIte]
    cases hc : conditions.get? x.2 with
    | none => rfl
    | some c =>
      simp only
      rw [match_congr c fuel x.1 s1 s2 symbols h]

/-- `get_actions` reads the state only through membership tests: two states with the same
literals yield the same result. -/
theorem get_actions_congr (fuel : Nat) (s1 s2 : state_t) (env : Env) (h : ∀ g, g ∈ s1 ↔ g ∈ s2) :
    get_actions fuel s1 env = get_actions fuel s2 env := by
  unfold get_actions
  generalize ([] : List (GroundedAction × state_t)) = out
  induction env.actions generalizing out with
  | nil => rfl
  | cons a rest ih =>
    simp only [get_actions_from]
    rw [get_actions_body_congr fuel s1 s2 env.symbols a a.preconditions h]
    cases stack_loop (get_actions_body fuel s2 env.symbols a a.preconditions) fuel
        [(bindings_base env.symbols, 0)] out with
    | error e => rfl
    | ok out2 => exact ih out2

/-- A loop whose body never fails on items with the invariant does not throw. -/
theorem stack_loop_no_throw {ι ο : Type} (body : ι → Except Err (List ο × List ι))
    (I : ι → Prop)
    (hok : ∀ x, I x → ∃ r, body x = .ok r)
    (hinv : ∀ x results pushed, I x → body x = .ok (results, pushed) → ∀ y ∈ pushed, I y) :
    ∀ (fuel : Nat) (stack : List ι) (out : List ο), (∀ x ∈ stack, I x) →
      stack_loop body fuel stack out ≠ .error .out_of_range := by
  intro fuel
  induction fuel with
  | zero =>
    intro stack out _
    cases stack <;> simp [stack_loop]
  | succ n ih =>
    intro stack out hst
    cases stack with
    | nil => simp [stack_loop]
    | cons x xs =>
      obtain ⟨⟨results, pushed⟩, hr⟩ := hok x (hst x (List.mem_cons_self _ _))
      simp only [stack_loop, hr]
      apply ih
      intro y hy
      rcases List.mem_append.1 hy with hy | hy
      · exact hinv x results pushed (hst x (List.mem_cons_self _ _)) hr y (List.mem_reverse.1 hy)
      · exact hst y (List.mem_cons_of_mem _ hy)

theorem args_length_le_sum (conditions : List Condition) (c : Condition) (hc : c ∈ conditions) :
    c.args.length ≤ (conditions.map (fun c => c.args.length)).sum :=
  List.single_le_sum (fun _ _ => Nat.zero_le _) _ (List.mem_map.2 ⟨c, hc, rfl⟩)

theorem match_fuel_le_action_fuel (symbols : List String) (a : Action) :
    match_fuel symbols a ≤ action_fuel symbols a := by
  unfold action_fuel
  calc match_fuel symbols a ≤ match_fuel symbols a + 1 := Nat.le_succ _
    _ = (match_fuel symbols a + 1) ^ 1 := (Nat.pow_one _).symm
    _ ≤ (match_fuel symbols a + 1) ^ (a.preconditions.length + 1) :=
      Nat.pow_le_pow_right (by omega) (by omega)

theorem pow_args_le_match_fuel (symbols : List String) (a : Action) (c : Condition)
    (hc : c ∈ a.preconditions) :
    (symbols.length + 1) ^ c.args.length ≤ match_fuel symbols a :=
  Nat.pow_le_pow_right (by omega) (args_length_le_sum _ c hc)

/-- On a well-formed schema, an item with the invariant whose index is complete binds every
parameter and every effect argument. -/
theorem get_actions_inv_bound (state : state_t) (symbols : List String) (a : Action)
    (hwf : a.wf symbols) (b : bindings_t)
    (h : get_actions_inv state symbols a.preconditions (b, a.preconditions.length)) :
    (∀ s ∈ a.args, (bindings_find b s).isSome = true) ∧
      (∀ e ∈ a.effects, ∀ s ∈ e.args, (bindings_find b s).isSome = true) := by
  obtain ⟨_, h2, h3, _⟩ := h
  simp only [List.take_length] at h3
  have key : ∀ x, (x ∈ symbols ∨ ∃ c ∈ a.preconditions, x ∈ c.args) →
      (bindings_find b x).isSome = true := by
    rintro x (hx | ⟨c, hc, hx⟩)
    · have : bindings_find (bindings_base symbols) x = some x := by
        rw [bindings_base_find, if_pos hx]
      simp [h2 x x this]
    · obtain ⟨g, hg, _⟩ := h3 c hc
      exact ((condition_ground_ok_iff c b g).1 hg).1 x hx
  exact ⟨fun s hs => key s (hwf.1 s hs), fun e he s hs => key s (hwf.2 e he s hs)⟩

theorem get_actions_body_ok (fuel : Nat) (state : state_t) (symbols : List String) (a : Action)
    (hwf : a.wf symbols) (hfuel : match_fuel symbols a ≤ fuel) (x : bindings_t × Nat)
    (h : get_actions_inv state symbols a.preconditions x) :
    ∃ r, get_actions_body fuel state symbols a a.preconditions x = .ok r := by
  obtain ⟨b, index⟩ := x
  by_cases hi : index = a.preconditions.length
  · subst hi
    rw [get_actions_body_complete_index]
    obtain ⟨h1, h2⟩ := get_actions_inv_bound state symbols a hwf b h
    rw [(action_ground_ok_iff a b _).2 ⟨h1, h2, rfl⟩]
    exact ⟨_, rfl⟩
  · have hlt : index < a.preconditions.length := lt_of_le_of_ne h.1 hi
    rw [get_actions_body_other_index _ _ _ _ _ _ _ hlt]
    obtain ⟨res, hres⟩ := match_total (a.preconditions[index]) fuel b state symbols
      (le_trans (pow_args_le_match_fuel symbols a _ (List.getElem_mem hlt)) hfuel)
    rw [hres]
    exact ⟨_, rfl⟩

theorem get_actions_body_rank (fuel : Nat) (state : state_t) (symbols : List String)
    (actions : List Action) (a : Action) (ha : a ∈ actions) :
    ∀ x results pushed, get_actions_inv state symbols a.preconditions x →
      get_actions_body fuel state symbols a a.preconditions x = .ok (results, pushed) →
        pushed.length ≤ match_fuel symbols a ∧
          ∀ y ∈ pushed, get_actions_inv state symbols a.preconditions y ∧
            a.preconditions.length - y.2 < a.preconditions.length - x.2 := by
  intro x results pushed hI hb
  have hinv := (get_actions_body_inv fuel state symbols actions a ha x results pushed hI hb).2
  obtain ⟨b, index⟩ := x
  by_cases hi : index = a.preconditions.length
  · subst hi
    rw [get_actions_body_complete_index] at hb
    cases hg : a.ground b with
    | error e => simp [hg] at hb
    | ok grounded =>
      simp only [hg, Except.ok.injEq, Prod.mk.injEq] at hb
      obtain ⟨_, e2⟩ := hb
      subst e2
      exact ⟨by simp, fun y hy => absurd hy (List.not_mem_nil y)⟩
  · have hlt : index < a.preconditions.length := lt_of_le_of_ne hI.1 hi
    rw [get_actions_body_other_index _ _ _ _ _ _ _ hlt] at hb
    cases hm : (a.preconditions[index]).match_ fuel b state symbols with
    | error e => simp [hm] at hb
    | ok nbs =>
      simp only [hm, Except.ok.injEq, Prod.mk.injEq] at hb
      obtain ⟨_, e2⟩ := hb
      subst e2
      refine ⟨?_, fun y hy => ⟨hinv y hy, ?_⟩⟩
      · rw [List.length_map]
        exact le_trans (match_length _ fuel b state symbols nbs hm)
          (pow_args_le_match_fuel symbols a _ (List.getElem_mem hlt))
      · obtain ⟨nb, _, rfl⟩ := List.mem_map.1 hy
        simp only
        omega

/-- The loop of `get_actions` for one well-formed schema returns, given `action_fuel`. -/
theorem get_actions_loop_total (fuel : Nat) (state : state_t) (symbols : List String)
    (a : Action) (hwf : a.wf symbols) (hfuel : action_fuel symbols a ≤ fuel)
    (out : List (GroundedAction × state_t)) :
    ∃ res, stack_loop (get_actions_body fuel state symbols a a.preconditions) fuel
      [(bindings_base symbols, 0)] out = .ok res := by
  have hmf : match_fuel symbols a ≤ fuel := le_trans (match_fuel_le_action_fuel symbols a) hfuel
  have hI : ∀ x ∈ [(bindings_base symbols, 0)], get_actions_inv state symbols a.preconditions x := by
    intro x hx
    rw [List.mem_singleton] at hx
    subst hx
    exact get_actions_inv_init _ _ _
  have h1 := stack_loop_terminates (get_actions_body fuel state symbols a a.preconditions)
    (get_actions_inv state symbols a.preconditions) (fun x => a.preconditions.length - x.2)
    (match_fuel symbols a)
    (get_actions_body_rank fuel state symbols [a] a (List.mem_singleton.2 rfl))
    (fun x hx he => by
      obtain ⟨r, hr⟩ := get_actions_body_ok fuel state symbols a hwf hmf x hx
      rw [hr] at he
      exact Except.noConfusion he)
    fuel _ out hI (by
      simp only [List.map_cons, List.map_nil, List.sum_cons, List.sum_nil, Nat.sub_zero,
        Nat.add_zero]
      exact le_trans (Nat.pow_le_pow_right (by omega) (Nat.le_succ _)) hfuel)
  have h2 := stack_loop_no_throw (get_actions_body fuel state symbols a a.preconditions)
    (get_actions_inv state symbols a.preconditions)
    (get_actions_body_ok fuel state symbols a hwf hmf)
    (fun x results pushed hx hb =>
      (get_actions_body_inv fuel state symbols [a] a (List.mem_singleton.2 rfl) x results pushed
        hx hb).2)
    fuel _ out hI
  cases hr : stack_loop (get_actions_body fuel state symbols a a.preconditions) fuel
      [(bindings_base symbols, 0)] out with
  | ok res => exact ⟨res, rfl⟩
  | error e =>
    cases e with
    | out_of_fuel => exact absurd hr h1
    | out_of_range => exact absurd hr h2

theorem get_actions_from_total (fuel : Nat) (state : state_t) (symbols : List String) :
    ∀ (rest : List Action) (out : List (GroundedAction × state_t)),
      (∀ a ∈ rest, a.wf symbols) → (rest.map (action_fuel symbols)).sum ≤ fuel →
        ∃ res, get_actions_from fuel state symbols rest out = .ok res := by
  intro rest
  induction rest with
  | nil => intro out _ _; exact ⟨out, rfl⟩
  | cons a rest ih =>
    intro out hwf hfuel
    simp only [List.map_cons, List.sum_cons] at hfuel
    obtain ⟨out2, h2⟩ := get_actions_loop_total fuel state symbols a
      (hwf a (List.mem_cons_self _ _)) (by omega) out
    simp only [get_actions_from, h2]
    exact ih out2 (fun b hb => hwf b (List.mem_cons_of_mem _ hb)) (by omega)

/-- In a well-formed environment `get_actions` returns in every state, given
`get_actions_fuel`. -/
theorem get_actions_total (fuel : Nat) (state : state_t) (env : Env) (hwf : env.wf)
    (hfuel : get_actions_fuel env ≤ fuel) : ∃ res, get_actions fuel state env = .ok res :=
  get_actions_from_total fuel state env.symbols env.actions [] hwf hfuel

/-! ## get_actions: completeness -/

theorem bindings_find_none_iff (b : bindings_t) (k : String) :
    bindings_find b k = none ↔ k ∉ b.map Prod.fst := by
  induction b with
  | nil => simp [bindings_find]
  | cons e rest ih =>
    obtain ⟨k2, v2⟩ := e
    by_cases h : k2 = k
    · simp [bindings_find, h]
    · have h2 : ¬ k = k2 := fun e => h e.symm
      simp [bindings_find, h, h2, ih]

theorem bindings_find_of_mem (b : bindings_t) (k v : String) (hn : (b.map Prod.fst).Nodup)
    (h : (k, v) ∈ b) : bindings_find b k = some v := by
  induction b with
  | nil => simp at h
  | cons e rest ih =>
    obtain ⟨k2, v2⟩ := e
    simp only [List.map_cons, List.nodup_cons] at hn
    rcases List.mem_cons.1 h with h | h
    · injection h with h1 h2
      simp [bindings_find, h1, h2]
    · have hk : k2 ≠ k := by
        intro e
        apply hn.1
        rw [e]
        exact List.mem_map.2 ⟨(k, v), h, rfl⟩
      simp [bindings_find, hk, ih hn.2 h]

theorem bindings_insert_keys_nodup (b : bindings_t) (k v : String)
    (hn : (b.map Prod.fst).Nodup) : ((bindings_insert b k v).map Prod.fst).Nodup := by
  unfold bindings_insert
  cases hf : bindings_find b k with
  | some x => exact hn
  | none =>
    simp only [List.map_append, List.map_cons, List.map_nil]
    exact List.Nodup.append hn (List.nodup_singleton k)
      (by simpa using (bindings_find_none_iff b k).1 hf)

theorem bindings_base_keys_nodup (symbols : List String) :
    ((bindings_base symbols).map Prod.fst).Nodup := by
  unfold bindings_base
  have : ∀ (acc : bindings_t), (acc.map Prod.fst).Nodup →
      ((symbols.foldl (fun b sym => bindings_insert b sym sym) acc).map Prod.fst).Nodup := by
    induction symbols with
    | nil => intro acc h; exact h
    | cons x xs ih =>
      intro acc h
      exact ih _ (bindings_insert_keys_nodup acc x x h)
  exact this [] (by simp)

/-- The bindings returned by `Condition::match` have pairwise different keys. -/
theorem match_keys_nodup (c : Condition) (fuel : Nat) (b0 : bindings_t) (state : state_t)
    (symbols : List String) (res : List bindings_t) (hn : (b0.map Prod.fst).Nodup)
    (h : c.match_ fuel b0 state symbols = .ok res) :
    ∀ b ∈ res, (b.map Prod.fst).Nodup := by
  unfold Condition.match_ at h
  refine stack_loop_sound _ (fun x => (x.1.map Prod.fst).Nodup) (fun b => (b.map Prod.fst).Nodup)
    ?_ fuel _ _ _ (fun x hx => by
      rw [List.mem_singleton] at hx
      subst hx
      exact hn) (fun o ho => absurd ho (List.not_mem_nil o)) h
  rintro ⟨b, index⟩ results pushed hI hb
  simp only at hI
  by_cases hi : index = (c.args.filter (fun s => (bindings_find b0 s).isNone)).length
  · subst hi
    rw [match_body_complete_index] at hb
    cases hg : c.ground b with
    | error e => simp [hg] at hb
    | ok g =>
      simp only [hg] at hb
      by_cases hm : g ∈ state
      · simp only [hm, ↓reduceIte, Except.ok.injEq, Prod.mk.injEq] at hb
        obtain ⟨e1, e2⟩ := hb
        subst e1 e2
        refine ⟨fun o ho => ?_, fun y hy => absurd hy (List.not_mem_nil y)⟩
        rw [List.mem_singleton] at ho
        subst ho
        exact hI
      · simp only [hm, ↓reduceIte, Except.ok.injEq, Prod.mk.injEq] at hb
        obtain ⟨e1, e2⟩ := hb
        subst e1 e2
        exact ⟨fun o ho => absurd ho (List.not_mem_nil o),
          fun y hy => absurd hy (List.not_mem_nil y)⟩
  · rw [match_body_other_index _ _ _ _ _ _ _ hi] at hb
    simp only [Except.ok.injEq, Prod.mk.injEq] at hb
    obtain ⟨e1, e2⟩ := hb
    subst e1 e2
    refine ⟨fun o ho => absurd ho (List.not_mem_nil o), fun y hy => ?_⟩
    obtain ⟨sym, _, rfl⟩ := List.mem_map.1 hy
    exact bindings_insert_keys_nodup _ _ _ hI

theorem mem_used_symbols_aux (v : String) (b : bindings_t) :
    ∀ (acc : List String), v ∈ b.foldl (fun used item =>
      if item.1 ≠ item.2 then set_insert used item.2 else used) acc →
      v ∈ acc ∨ ∃ k, (k, v) ∈ b ∧ k ≠ v := by
  induction b with
  | nil => intro acc h; exact Or.inl h
  | cons e rest ih =>
    intro acc h
    rw [List.foldl_cons] at h
    rcases ih _ h with h1 | ⟨k, h1, h2⟩
    · by_cases he : e.1 ≠ e.2
      · rw [if_pos he, mem_set_insert] at h1
        rcases h1 with h1 | h1
        · exact Or.inl h1
        · refine Or.inr ⟨e.1, ?_, by rw [h1]; exact he⟩
          rw [h1]
          exact List.mem_cons_self _ _
      · rw [if_neg he] at h1
        exact Or.inl h1
    · exact Or.inr ⟨k, List.mem_cons_of_mem _ h1, h2⟩

/-- A used symbol is the value of a non-identity entry. -/
theorem mem_used_symbols (b : bindings_t) (v : String) (h : v ∈ used_symbols b) :
    ∃ k, (k, v) ∈ b ∧ k ≠ v := by
  rcases mem_used_symbols_aux v b [] h with h | h
  · exact absurd h (List.not_mem_nil v)
  · exact h

theorem get_actions_from_preserves (fuel : Nat) (state : state_t) (symbols : List String) :
    ∀ (rest : List Action) (out res : List (GroundedAction × state_t)),
      get_actions_from fuel state symbols rest out = .ok res → ∀ o ∈ out, o ∈ res := by
  intro rest
  induction rest with
  | nil =>
    intro out res h o ho
    simp only [get_actions_from, Except.ok.injEq] at h
    subst h
    exact ho
  | cons a rest ih =>
    intro out res h o ho
    simp only [get_actions_from] at h
    cases hl : stack_loop (get_actions_body fuel state symbols a a.preconditions) fuel
        [(bindings_base symbols, 0)] out with
    | error e => simp [hl] at h
    | ok out2 =>
      simp only [hl] at h
      exact ih out2 res h o ((stack_loop_complete _ fuel _ _ _ hl).1 o ho)

theorem get_actions_from_complete (fuel : Nat) (state : state_t) (symbols : List String)
    (a : Action) (pair : GroundedAction × state_t)
    (hd : Derives (get_actions_body fuel state symbols a a.preconditions)
      (bindings_base symbols, 0) pair) :
    ∀ (rest : List Action) (out res : List (GroundedAction × state_t)), a ∈ rest →
      get_actions_from fuel state symbols rest out = .ok res → pair ∈ res := by
  intro rest
  induction rest with
  | nil => intro out res ha; exact absurd ha (List.not_mem_nil a)
  | cons a2 rest ih =>
    intro out res ha h
    simp only [get_actions_from] at h
    cases hl : stack_loop (get_actions_body fuel state symbols a2 a2.preconditions) fuel
        [(bindings_base symbols, 0)] out with
    | error e => simp [hl] at h
    | ok out2 =>
      simp only [hl] at h
      rcases List.mem_cons.1 ha with ha | ha
      · subst ha
        exact get_actions_from_preserves fuel state symbols rest out2 res h pair
          ((stack_loop_complete _ fuel _ _ _ hl).2 _ (List.mem_singleton.2 rfl) pair hd)
      · exact ih out2 res ha h

/-- From an item with `complete_inv`, the loop of `get_actions` reaches the schema
instantiated by `τ`. -/
theorem get_actions_derives (fuel : Nat) (state : state_t) (symbols : List String) (a : Action)
    (hwf : a.wf symbols) (hfuel : match_fuel symbols a ≤ fuel) (τ : String → String)
    (hsym : ∀ s ∈ symbols, τ s = s)
    (hvar : ∀ c ∈ a.preconditions, ∀ x ∈ c.args, x ∉ symbols → τ x ∈ symbols)
    (hinj : ∀ c1 ∈ a.preconditions, ∀ x ∈ c1.args, ∀ c2 ∈ a.preconditions, ∀ y ∈ c2.args,
      x ∉ symbols → y ∉ symbols → τ x = τ y → x = y)
    (hpre : ∀ c ∈ a.preconditions, c.instantiate τ ∈ state) :
    ∀ (k : Nat) (b : bindings_t) (index : Nat), a.preconditions.length - index = k →
      complete_inv state symbols a.preconditions τ (b, index) →
      Derives (get_actions_body fuel state symbols a a.preconditions) (b, index)
        (a.instantiate τ) := by
  intro k
  induction k with
  | zero =>
    intro b index hk ⟨hI, hag, _, _⟩
    have hi : index = a.preconditions.length := le_antisymm hI.1 (by omega)
    subst hi
    obtain ⟨h1, h2⟩ := get_actions_inv_bound state symbols a hwf b hI
    have hg := (action_ground_ok_iff a b _).2 ⟨h1, h2, rfl⟩
    have e1 : a.args.map (assignment_of b) = a.args.map τ := by
      apply List.map_congr_left
      intro s hs
      cases hf : bindings_find b s with
      | none => have := h1 s hs; simp [hf] at this
      | some v => simp [assignment_of, hf, hag s v hf]
    have e2 : a.effects.map (fun e => e.instantiate (assignment_of b)) =
        a.effects.map (fun e => e.instantiate τ) :=
      List.map_congr_left (fun e he => instantiate_of_agrees e b τ hag (h2 e he))
    rw [e1, e2] at hg
    have hb : get_actions_body fuel state symbols a a.preconditions (b, a.preconditions.length) =
        .ok ([a.instantiate τ], []) := by
      rw [get_actions_body_complete_index, hg]
      rfl
    exact Derives.emit hb (List.mem_singleton.2 rfl)
  | succ k ih =>
    intro b index hk ⟨hI, hag, hnd, hprov⟩
    simp only at hag hnd hprov
    have hlt : index < a.preconditions.length := by omega
    have hcm : a.preconditions[index] ∈ a.preconditions := List.getElem_mem hlt
    obtain ⟨res, hres⟩ := match_total (a.preconditions[index]) fuel b state symbols
      (le_trans (pow_args_le_match_fuel symbols a _ hcm) hfuel)
    have hb : get_actions_body fuel state symbols a a.preconditions (b, index) =
        .ok ([], res.map (fun nb => (nb, index + 1))) := by
      rw [get_actions_body_other_index _ _ _ _ _ _ _ hlt, hres]
    have hτ : ∀ s ∈ (a.preconditions[index]).args.filter (fun s => (bindings_find b s).isNone),
        τ s ∈ symbols ∧ τ s ∉ used_symbols b := by
      intro s hs
      obtain ⟨hs1, hs2⟩ := List.mem_filter.1 hs
      have hsn : bindings_find b s = none := by simpa using hs2
      have hns : s ∉ symbols := by
        intro hmem
        have : bindings_find (bindings_base symbols) s = some s := by
          rw [bindings_base_find, if_pos hmem]
        rw [hI.2.1 s s this] at hsn
        exact Option.noConfusion hsn
      refine ⟨hvar _ hcm s hs1 hns, fun hu => ?_⟩
      obtain ⟨key, hk1, hk2⟩ := mem_used_symbols b _ hu
      have hkf := bindings_find_of_mem b key _ hnd hk1
      have hτk : τ key = τ s := hag key _ hkf
      rcases hprov key _ hkf with hks | ⟨c2, hc2, hkc⟩
      · rw [hsym key hks] at hτk
        exact hk2 hτk
      · by_cases hks : key ∈ symbols
        · rw [hsym key hks] at hτk
          exact hk2 hτk
        · have := hinj c2 hc2 key hkc _ hcm s hs1 hks hns hτk
          rw [this, hsn] at hkf
          exact Option.noConfusion hkf
    obtain ⟨r, hr1, hr2⟩ := match_complete _ fuel b state symbols res τ hres hag hτ (hpre _ hcm)
    have hy : (r, index + 1) ∈ res.map (fun nb => (nb, index + 1)) :=
      List.mem_map.2 ⟨r, hr1, rfl⟩
    have hI2 := (get_actions_body_inv fuel state symbols [a] a (List.mem_singleton.2 rfl) _ _ _
      hI hb).2 _ hy
    obtain ⟨_, _, p3⟩ := match_sound _ fuel b state symbols res hres r hr1
    have hJ : complete_inv state symbols a.preconditions τ (r, index + 1) := by
      refine ⟨hI2, hr2, match_keys_nodup _ fuel b state symbols res hnd hres r hr1, ?_⟩
      intro s v hv
      rcases p3 s v hv with hv | ⟨_, _, hv⟩
      · exact hprov s v hv
      · exact Or.inr ⟨_, hcm, (List.mem_filter.1 hv).1⟩
    exact Derives.push hb hy (ih r (index + 1) (by omega) hJ)

theorem complete_inv_init (state : state_t) (symbols : List String) (conditions : List Condition)
    (τ : String → String) (hsym : ∀ s ∈ symbols, τ s = s) :
    complete_inv state symbols conditions τ (bindings_base symbols, 0) := by
  refine ⟨get_actions_inv_init _ _ _, fun s v hv => ?_, bindings_base_keys_nodup symbols,
    fun s v hv => ?_⟩
  · simp only at hv
    rw [bindings_base_find] at hv
    by_cases hs : s ∈ symbols
    · rw [if_pos hs] at hv
      injection hv with hv
      rw [← hv]
      exact hsym s hs
    · rw [if_neg hs] at hv
      exact Option.noConfusion hv
  · simp only at hv
    rw [bindings_base_find] at hv
    by_cases hs : s ∈ symbols
    · exact Or.inl hs
    · rw [if_neg hs] at hv
      exact Option.noConfusion hv

/-- Completeness of `get_actions` in a well-formed environment. -/
theorem get_actions_complete (fuel : Nat) (S : state_t) (env : Env) (hwf : env.wf)
    (hfuel : get_actions_fuel env ≤ fuel) (a : Action) (ha : a ∈ env.actions)
    (τ : String → String) (hsym : ∀ s ∈ env.symbols, τ s = s)
    (hvar : ∀ c ∈ a.preconditions, ∀ x ∈ c.args, x ∉ env.symbols → τ x ∈ env.symbols)
    (hinj : ∀ c1 ∈ a.preconditions, ∀ x ∈ c1.args, ∀ c2 ∈ a.preconditions, ∀ y ∈ c2.args,
      x ∉ env.symbols → y ∉ env.symbols → τ x = τ y → x = y)
    (hpre : ∀ c ∈ a.preconditions, c.instantiate τ ∈ S) :
    ∃ res, get_actions fuel S env = .ok res ∧ a.instantiate τ ∈ res := by
  obtain ⟨res, hres⟩ := get_actions_total fuel S env hwf hfuel
  refine ⟨res, hres, ?_⟩
  have hmf : match_fuel env.symbols a ≤ fuel := by
    refine le_trans (match_fuel_le_action_fuel env.symbols a) (le_trans ?_ hfuel)
    exact List.single_le_sum (fun _ _ => Nat.zero_le _) _ (List.mem_map.2 ⟨a, ha, rfl⟩)
  have hd := get_actions_derives fuel S env.symbols a (hwf a ha) hmf τ hsym hvar hinj hpre _
    (bindings_base env.symbols) 0 rfl (complete_inv_init S env.symbols a.preconditions τ hsym)
  exact get_actions_from_complete fuel S env.symbols a _ hd env.actions [] res ha hres

/-- C4 as stated fails: in `env_bad_schema` the schema `Good` is well-formed and its only
precondition `P(A)` is in the state, but `get_actions` returns nothing, for any fuel: the
schema `Bad(x)` makes `binding.at("x")` throw. -/
theorem grounding_completeness_needs_wf_env :
    ¬ ((⟨"Good", ["A"], [⟨"P", ["A"], true⟩], [⟨"Q", ["A"], true⟩]⟩ : Action) ∈
          env_bad_schema.actions →
        Action.wf env_bad_schema.symbols ⟨"Good", ["A"], [⟨"P", ["A"], true⟩], [⟨"Q", ["A"], true⟩]⟩ →
        (∀ c ∈ [(⟨"P", ["A"], true⟩ : Condition)], c.instantiate id ∈
          ([⟨"P", ["A"], true⟩] : state_t)) →
        ∃ fuel res, get_actions fuel [⟨"P", ["A"], true⟩] env_bad_schema = .ok res ∧
          ((⟨"Good", ["A"]⟩, [⟨"Q", ["A"], true⟩]) : GroundedAction × state_t) ∈ res) := by
  intro h
  obtain ⟨fuel, res, hres, _⟩ := h (by decide) (by unfold Action.wf; decide) (by decide)
  cases fuel with
  | zero => exact Except.noConfusion hres
  | succ n => exact Except.noConfusion hres

/-- C4 (amended): in an environment all of whose schemas are well-formed (every parameter
and effect argument is a symbol or occurs in a precondition of its schema), for every
state `S`, every schema `a` and every assignment `τ` of the schema's variables to symbols
that is the identity on symbols, injective on the variables, and under which every
instantiated precondition is in `S`, `get_actions(S, env)` returns (for every fuel from
`get_actions_fuel env` on) the ground action `a.name(params mapped by τ)` together with
the set of the effects instantiated by `τ`. -/
theorem grounding_completeness (S : state_t) (env : Env) (hwf : env.wf)
    (a : Action) (ha : a ∈ env.actions)
    (τ : String → String) (hsym : ∀ s ∈ env.symbols, τ s = s)
    (hvar : ∀ c ∈ a.preconditions, ∀ x ∈ c.args, x ∉ env.symbols → τ x ∈ env.symbols)
    (hinj : ∀ c1 ∈ a.preconditions, ∀ x ∈ c1.args, ∀ c2 ∈ a.preconditions, ∀ y ∈ c2.args,
      x ∉ env.symbols → y ∉ env.symbols → τ x = τ y → x = y)
    (hpre : ∀ c ∈ a.preconditions,
      (⟨c.predicate, c.args.map τ, c.truth⟩ : GroundedCondition) ∈ S) :
    ∀ fuel, get_actions_fuel env ≤ fuel →
      ∃ res, get_actions fuel S env = .ok res ∧
        ∃ effects, ((⟨a.name, a.args.map τ⟩, effects) : GroundedAction × state_t) ∈ res ∧
          ∀ l, l ∈ effects ↔ ∃ e ∈ a.effects, l = ⟨e.predicate, e.args.map τ, e.truth⟩ := by
  intro fuel hfuel
  obtain ⟨res, h1, h2⟩ := get_actions_complete fuel S env hwf hfuel a ha τ hsym hvar hinj hpre
  refine ⟨res, h1, _, h2, fun l => ?_⟩
  simp only [foldl_set_insert_mem, List.not_mem_nil, false_or, List.mem_map]
  constructor
  · rintro ⟨e, he, rfl⟩
    exact ⟨e, he, rfl⟩
  · rintro ⟨e, he, rfl⟩
    exact ⟨e, he, rfl⟩

/-! ## planner: auxiliary facts -/

theorem state_eq_refl (s : state_t) : state_eq s s = true := by
  simp [state_eq]

theorem umap_find_append {κ β : Type} (key_eq : κ → κ → Bool) (m : List (κ × β)) (k q : κ)
    (v : β) :
    umap_find key_eq (m ++ [(k, v)]) q =
      match umap_find key_eq m q with
      | some x => some x
      | none => if key_eq q k then some v else none := by
  induction m with
  | nil => simp [umap_find]
  | cons e rest ih =>
    obtain ⟨k2, v2⟩ := e
    by_cases h : key_eq q k2 = true
    · simp [umap_find, h]
    · simp [umap_find, h, ih]

theorem umap_set_of_not_found {κ β : Type} (key_eq : κ → κ → Bool) (m : List (κ × β)) (k : κ)
    (v : β) (h : umap_find key_eq m k = none) : umap_set key_eq m k v = m ++ [(k, v)] := by
  induction m with
  | nil => rfl
  | cons e rest ih =>
    obtain ⟨k2, v2⟩ := e
    by_cases hk : key_eq k k2 = true
    · simp [umap_find, hk] at h
    · simp only [umap_find, hk, Bool.false_eq_true, ↓reduceIte] at h
      simp [umap_set, hk, ih h]

theorem umap_find_set_self {κ β : Type} (key_eq : κ → κ → Bool) (hrefl : ∀ k, key_eq k k = true)
    (m : List (κ × β)) (k : κ) (v : β) :
    umap_find key_eq (umap_set key_eq m k v) k = some v := by
  induction m with
  | nil => simp [umap_set, umap_find, hrefl]
  | cons e rest ih =>
    obtain ⟨k2, v2⟩ := e
    by_cases hk : key_eq k k2 = true
    · simp [umap_set, umap_find, hk]
    · simp [umap_set, umap_find, hk, ih]

theorem umap_find_none_iff {κ β : Type} (key_eq : κ → κ → Bool) (m : List (κ × β)) (q : κ) :
    umap_find key_eq m q = none ↔ ∀ e ∈ m, key_eq q e.1 = false := by
  induction m with
  | nil => simp [umap_find]
  | cons e rest ih =>
    obtain ⟨k2, v2⟩ := e
    by_cases hk : key_eq q k2 = true
    · simp [umap_find, hk]
    · simp [umap_find, hk, ih]

theorem umap_find_some_mem {κ β : Type} (key_eq : κ → κ → Bool) (m : List (κ × β)) (q : κ)
    (v : β) (h : umap_find key_eq m q = some v) : ∃ k, (k, v) ∈ m ∧ key_eq q k = true := by
  induction m with
  | nil => simp [umap_find] at h
  | cons e rest ih =>
    obtain ⟨k2, v2⟩ := e
    by_cases hk : key_eq q k2 = true
    · simp only [umap_find, hk, ↓reduceIte, Option.some.injEq] at h
      subst h
      exact ⟨k2, List.mem_cons_self _ _, hk⟩
    · simp only [umap_find, hk, Bool.false_eq_true, ↓reduceIte] at h
      obtain ⟨k, h1, h2⟩ := ih h
      exact ⟨k, List.mem_cons_of_mem _ h1, h2⟩

/-- In a map without two equal keys, looking up a stored key yields its entry. -/
theorem umap_find_of_mem (m : List (state_t × (state_t × GroundedAction)))
    (hp : m.Pairwise (fun e1 e2 => state_eq e2.1 e1.1 = false)) (k : state_t)
    (v : state_t × GroundedAction) (h : (k, v) ∈ m) : umap_find state_eq m k = some v := by
  induction m with
  | nil => simp at h
  | cons e rest ih =>
    obtain ⟨k2, v2⟩ := e
    rw [List.pairwise_cons] at hp
    rcases List.mem_cons.1 h with h | h
    · injection h with h1 h2
      subst h1 h2
      simp [umap_find, state_eq_refl]
    · have := hp.1 (k, v) h
      simp only at this
      simp [umap_find, this, ih hp.2 h]

/-- With an empty `heuristics_multi`, `get_heuristic_naive` computes the number of goal
literals that are absent from the state. -/
theorem get_heuristic_naive_empty (strHash : String → Nat) (hn : heuristics_t)
    (state goal : state_t) :
    get_heuristic_naive strHash [] hn state goal =
      .ok (goal.foldl (fun (res : Int) condition => if condition ∉ state then res + 1 else res) 0,
        umap_set augmented_eq hn (state, hash_state strHash state)
          (goal.foldl (fun (res : Int) condition => if condition ∉ state then res + 1 else res) 0)) := by
  simp [get_heuristic_naive, umap_find]

theorem count_absent_ge (state : state_t) (goal : List GroundedCondition) :
    ∀ (n : Int), n ≤ goal.foldl (fun (res : Int) condition =>
      if condition ∉ state then res + 1 else res) n := by
  induction goal with
  | nil => intro n; exact le_refl n
  | cons g gs ih =>
    intro n
    rw [List.foldl_cons]
    by_cases hg : g ∉ state
    · rw [if_pos hg]
      exact le_trans (by omega) (ih (n + 1))
    · rw [if_neg hg]
      exact ih n

/-- The naive count is `0` exactly when every goal literal is in the state. -/
theorem count_absent_eq_zero_iff (state : state_t) (goal : List GroundedCondition) :
    goal.foldl (fun (res : Int) condition => if condition ∉ state then res + 1 else res) 0 = 0 ↔
      ∀ g ∈ goal, g ∈ state := by
  induction goal with
  | nil => simp
  | cons g gs ih =>
    rw [List.foldl_cons]
    by_cases hg : g ∉ state
    · rw [if_pos hg]
      have := count_absent_ge state gs (0 + 1)
      constructor
      · intro h
        omega
      · intro h
        exact absurd (h g (List.mem_cons_self _ _)) hg
    · rw [if_neg hg, ih]
      simp only [not_not] at hg
      simp [hg]

theorem pq_top_mem (first : node_t) (rest : List node_t) : pq_top first rest ∈ first :: rest := by
  induction rest generalizing first with
  | nil => simp [pq_top]
  | cons x xs ih =>
    unfold pq_top
    by_cases h : node_lt first x = true
    · simp only [h, ↓reduceIte]
      exact List.mem_cons_of_mem _ (ih x)
    · simp only [h, Bool.false_eq_true, ↓reduceIte]
      rcases List.mem_cons.1 (ih first) with h1 | h1
      · rw [h1]
        exact List.mem_cons_self _ _
      · exact List.mem_cons_of_mem _ (List.mem_cons_of_mem _ h1)

theorem pq_pop_none (queue : List node_t) (h : pq_pop queue = none) : queue = [] := by
  cases queue with
  | nil => rfl
  | cons x xs => simp [pq_pop] at h

/-- `top` and `pop` take one node out of the queue. -/
theorem pq_pop_some (queue rest : List node_t) (node : node_t)
    (h : pq_pop queue = some (node, rest)) :
    node ∈ queue ∧ (∀ x ∈ rest, x ∈ queue) ∧ (∀ x ∈ queue, x = node ∨ x ∈ rest) ∧
      rest.length + 1 = queue.length := by
  cases queue with
  | nil => simp [pq_pop] at h
  | cons x xs =>
    simp only [pq_pop, Option.some.injEq, Prod.mk.injEq] at h
    obtain ⟨h1, h2⟩ := h
    have hm := pq_top_mem x xs
    rw [h1] at hm h2
    refine ⟨hm, fun y hy => ?_, fun y hy => ?_, ?_⟩
    · rw [← h2] at hy
      exact List.mem_of_mem_erase hy
    · by_cases hyn : y = node
      · exact Or.inl hyn
      · right
        rw [← h2]
        exact (List.mem_erase_of_ne hyn).2 hy
    · rw [← h2, List.length_erase_of_mem hm]
      have : 0 < (x :: xs).length := by simp
      omega

/-- With an empty `heuristics_multi` and the cost of `state` recorded, the expansion loop
of `planner` pushes exactly one node per ground action: the step from `state` to its
successor. -/
theorem planner_expand_ok (strHash : String → Nat) (goal state : state_t)
    (cost : List (state_t × Int)) (c : Int) (hc : umap_find state_eq cost state = some c) :
    ∀ (grounded : List (GroundedAction × state_t)) (queue : List node_t) (hn : heuristics_t),
      ∃ queue2 hn2, planner_expand strHash [] goal state cost grounded queue hn = .ok (queue2, hn2) ∧
        (∀ node ∈ queue2, node ∈ queue ∨
          ∃ p ∈ grounded, node.1 = ((state, p.1), successor_state state p.2)) ∧
        (∀ node ∈ queue, node ∈ queue2) ∧
        (∀ p ∈ grounded, ∃ node ∈ queue2, node.1 = ((state, p.1), successor_state state p.2)) := by
  intro grounded
  induction grounded with
  | nil =>
    intro queue hn
    exact ⟨queue, hn, rfl, fun node h => Or.inl h, fun node h => h,
      fun p hp => absurd hp (List.not_mem_nil p)⟩
  | cons p ps ih =>
    intro queue hn
    simp only [planner_expand, get_heuristic_naive_empty, hc]
    obtain ⟨queue2, hn2, h1, h2, h3, h4⟩ := ih (queue ++ [(((state, p.1), successor_state state p.2),
      (c, c + goal.foldl (fun (res : Int) condition =>
        if condition ∉ successor_state state p.2 then res + 1 else res) 0 + 1))])
      (umap_set augmented_eq hn (successor_state state p.2,
        hash_state strHash (successor_state state p.2))
        (goal.foldl (fun (res : Int) condition =>
          if condition ∉ successor_state state p.2 then res + 1 else res) 0))
    refine ⟨queue2, hn2, h1, fun node hnode => ?_, fun node hnode => ?_, fun q hq => ?_⟩
    · rcases h2 node hnode with h | ⟨q, hq, h⟩
      · rcases List.mem_append.1 h with h | h
        · exact Or.inl h
        · rw [List.mem_singleton] at h
          exact Or.inr ⟨p, List.mem_cons_self _ _, by rw [h]⟩
      · exact Or.inr ⟨q, List.mem_cons_of_mem _ hq, h⟩
    · exact h3 node (List.mem_append_left _ hnode)
    · rcases List.mem_cons.1 hq with hq | hq
      · subst hq
        exact ⟨_, h3 _ (List.mem_append_right _ (List.mem_singleton.2 rfl)), rfl⟩
      · exact h4 q hq

theorem planner_loop_none (strHash : String → Nat) (fuel0 : Nat) (hm : heuristics_t) (env : Env)
    (start goal : state_t) (n : Nat) (st : planner_state) (h : pq_pop st.queue = none) :
    planner_loop strHash fuel0 hm env start goal n st = .ok ⟨[], none, st⟩ := by
  cases n <;> simp [planner_loop, h]

theorem planner_loop_zero (strHash : String → Nat) (fuel0 : Nat) (hm : heuristics_t) (env : Env)
    (start goal : state_t) (st : planner_state) (node : node_t) (queue : List node_t)
    (h : pq_pop st.queue = some (node, queue)) :
    planner_loop strHash fuel0 hm env start goal 0 st = .error .out_of_fuel := by
  simp [planner_loop, h]

/-- One iteration of the main loop when the dequeued state is already in `parents`. -/
theorem planner_loop_seen (strHash : String → Nat) (fuel0 : Nat) (hm : heuristics_t) (env : Env)
    (start goal : state_t) (n : Nat) (st : planner_state) (node : node_t) (queue : List node_t)
    (h : pq_pop st.queue = some (node, queue))
    (hs : (umap_find state_eq st.parents node.1.2).isSome = true) :
    planner_loop strHash fuel0 hm env start goal (n + 1) st =
      planner_loop strHash fuel0 hm env start goal n
        ⟨st.parents, st.cost, queue, st.heuristics_naive, st.count + 1⟩ := by
  rw [planner_loop]
  simp only [h, hs, ↓reduceIte]

/-- One iteration of the main loop when the dequeued state is new, with an empty
`heuristics_multi`. -/
theorem planner_loop_new (strHash : String → Nat) (fuel0 : Nat) (env : Env)
    (start goal : state_t) (n : Nat) (st : planner_state) (node : node_t) (queue : List node_t)
    (h : pq_pop st.queue = some (node, queue))
    (hs : umap_find state_eq st.parents node.1.2 = none) :
    planner_loop strHash fuel0 [] env start goal (n + 1) st =
      if goal.foldl (fun (res : Int) condition =>
          if condition ∉ node.1.2 then res + 1 else res) 0 = 0 then
        match reconstruct (st.parents ++ [(node.1.2, (node.1.1.1, node.1.1.2))]) start fuel0
            node.1.2 [] with
        | .error e => .error e
        | .ok plan => .ok ⟨plan, some node.1.2,
            ⟨st.parents ++ [(node.1.2, (node.1.1.1, node.1.1.2))],
              umap_set state_eq (umap_index state_eq st.cost node.1.1.1).2 node.1.2
                ((umap_index state_eq st.cost node.1.1.1).1 + 1), queue,
              umap_set augmented_eq st.heuristics_naive (node.1.2, hash_state strHash node.1.2)
                (goal.foldl (fun (res : Int) condition =>
                  if condition ∉ node.1.2 then res + 1 else res) 0), st.count + 1⟩⟩
      else
        match get_actions fuel0 node.1.2 env with
        | .error e => .error e
        | .ok grounded_actions =>
          match planner_expand strHash [] goal node.1.2
              (umap_set state_eq (umap_index state_eq st.cost node.1.1.1).2 node.1.2
                ((umap_index state_eq st.cost node.1.1.1).1 + 1)) grounded_actions queue
              (umap_set augmented_eq st.heuristics_naive (node.1.2, hash_state strHash node.1.2)
                (goal.foldl (fun (res : Int) condition =>
                  if condition ∉ node.1.2 then res + 1 else res) 0)) with
          | .error e => .error e
          | .ok (queue2, hn2) =>
            planner_loop strHash fuel0 [] env start goal n
              ⟨st.parents ++ [(node.1.2, (node.1.1.1, node.1.1.2))],
                umap_set state_eq (umap_index state_eq st.cost node.1.1.1).2 node.1.2
                  ((umap_index state_eq st.cost node.1.1.1).1 + 1), queue2, hn2, st.count + 1⟩ := by
  rw [planner_loop]
  simp only [h, hs, Option.isSome_none, Bool.false_eq_true, ↓reduceIte,
    get_heuristic_naive_empty, umap_set_of_not_found state_eq st.parents node.1.2 _ hs]

/-! ## planner: soundness -/

theorem queue_inv_mono (env : Env) (start : state_t)
    (parents : List (state_t × (state_t × GroundedAction)))
    (extra : List (state_t × (state_t × GroundedAction))) (queue : List node_t)
    (h : queue_inv env start parents queue) : queue_inv env start (parents ++ extra) queue := by
  intro node hnode
  rcases h node hnode with h | ⟨r, E, h1, h2, h3, v, h4⟩
  · exact Or.inl h
  · exact Or.inr ⟨r, E, h1, h2, h3, v, List.mem_append_left _ h4⟩

theorem append_singleton_eq_append_cons {α : Type} (l before after : List α) (x e : α)
    (h : l ++ [x] = before ++ e :: after) :
    (after = [] ∧ before = l ∧ e = x) ∨ ∃ after2, after = after2 ++ [x] ∧ l = before ++ e :: after2 := by
  rcases List.eq_nil_or_concat after with ha | ⟨after2, y, ha⟩
  · subst ha
    have h1 := List.append_inj_left' h rfl
    have h2 := List.append_inj_right' h rfl
    injection h2 with h2
    exact Or.inl ⟨rfl, h1.symm, h2.symm⟩
  · subst ha
    have h3 : l ++ [x] = (before ++ e :: after2) ++ [y] := by
      rw [h]
      simp
    have h1 := List.append_inj_left' h3 rfl
    have h2 := List.append_inj_right' h3 rfl
    injection h2 with h2
    right
    exact ⟨after2, by rw [h2, List.concat_eq_append], h1⟩

/-- Recording a dequeued node whose state is not yet a key keeps the invariant of
`parents`. -/
theorem parents_inv_append (env : Env) (start : state_t)
    (parents : List (state_t × (state_t × GroundedAction))) (node : node_t)
    (hp : parents_inv env start parents)
    (hnode : node.1 = ((start, GroundedAction.default), start) ∨
      ∃ r E, returns_actions env node.1.1.1 r ∧ (node.1.1.2, E) ∈ r ∧
        node.1.2 = successor_state node.1.1.1 E ∧ ∃ v, (node.1.1.1, v) ∈ parents)
    (hs : umap_find state_eq parents node.1.2 = none) :
    parents_inv env start (parents ++ [(node.1.2, (node.1.1.1, node.1.1.2))]) := by
  obtain ⟨h1, h2, h3⟩ := hp
  refine ⟨?_, ?_, ?_⟩
  · cases parents with
    | nil =>
      intro e he
      simp only [List.nil_append, List.head?_cons, Option.mem_def, Option.some.injEq] at he
      subst he
      rcases hnode with h | ⟨_, _, _, _, _, v, hv⟩
      · simp [h]
      · exact absurd hv (List.not_mem_nil _)
    | cons x xs =>
      intro e he
      exact h1 e (by simpa using he)
  · rw [List.pairwise_append]
    refine ⟨h2, List.pairwise_singleton _ _, ?_⟩
    intro e1 he1 e2 he2
    rw [List.mem_singleton] at he2
    subst he2
    exact (umap_find_none_iff state_eq parents node.1.2).1 hs e1 he1
  · intro before e after hd
    rcases append_singleton_eq_append_cons _ _ _ _ _ hd with ⟨_, hb, he⟩ | ⟨after2, _, hl⟩
    · subst hb he
      rcases hnode with h | ⟨r, E, q1, q2, q3, v, q4⟩
      · exact Or.inl (by simp [h])
      · exact Or.inr ⟨r, E, q1, q2, q3, v, q4⟩
    · exact h3 before e after2 hl

/-- What a finished run of the main loop guarantees, started from a state with the
invariants: the invariants hold at the end, and on success the dequeued goal state is a
key of `parents`, it contains every goal literal, and the plan is the one reconstructed
from it. -/
theorem planner_loop_sound (strHash : String → Nat) (fuel0 : Nat) (env : Env)
    (start goal : state_t) :
    ∀ (n : Nat) (st : planner_state) (out : planner_result),
      parents_inv env start st.parents → queue_inv env start st.parents st.queue →
      planner_loop strHash fuel0 [] env start goal n st = .ok out →
        parents_inv env start out.final.parents ∧
        queue_inv env start out.final.parents out.final.queue ∧
        (out.found = none → out.plan = []) ∧
        (∀ Sg, out.found = some Sg → (∀ g ∈ goal, g ∈ Sg) ∧
          (∃ v, (Sg, v) ∈ out.final.parents) ∧
          reconstruct out.final.parents start fuel0 Sg [] = .ok out.plan) := by
  intro n
  induction n with
  | zero =>
    intro st out hp hq h
    cases hpop : pq_pop st.queue with
    | none =>
      rw [planner_loop_none _ _ _ _ _ _ _ _ hpop] at h
      injection h with h
      subst h
      exact ⟨hp, hq, fun _ => rfl, fun Sg hSg => Option.noConfusion hSg⟩
    | some p =>
      rw [planner_loop_zero _ _ _ _ _ _ _ p.1 p.2 hpop] at h
      exact Except.noConfusion h
  | succ n ih =>
    intro st out hp hq h
    cases hpop : pq_pop st.queue with
    | none =>
      rw [planner_loop_none _ _ _ _ _ _ _ _ hpop] at h
      injection h with h
      subst h
      exact ⟨hp, hq, fun _ => rfl, fun Sg hSg => Option.noConfusion hSg⟩
    | some p =>
      obtain ⟨node, queue⟩ := p
      obtain ⟨hmem, hsub, _, _⟩ := pq_pop_some _ _ _ hpop
      have hq2 : queue_inv env start st.parents queue := fun x hx => hq x (hsub x hx)
      cases hs : umap_find state_eq st.parents node.1.2 with
      | some v =>
        rw [planner_loop_seen _ _ _ _ _ _ _ _ node queue hpop (by simp [hs])] at h
        exact ih ⟨st.parents, st.cost, queue, st.heuristics_naive, st.count + 1⟩ out hp hq2 h
      | none =>
        rw [planner_loop_new _ _ _ _ _ _ _ node queue hpop hs] at h
        have hp2 := parents_inv_append env start st.parents node hp (hq node hmem) hs
        by_cases h0 : goal.foldl (fun (res : Int) condition =>
            if condition ∉ node.1.2 then res + 1 else res) 0 = 0
        · rw [if_pos h0] at h
          cases hr : reconstruct (st.parents ++ [(node.1.2, (node.1.1.1, node.1.1.2))]) start
              fuel0 node.1.2 [] with
          | error e => simp [hr] at h
          | ok plan =>
            simp only [hr, Except.ok.injEq] at h
            subst h
            refine ⟨hp2, queue_inv_mono env start st.parents _ queue hq2,
              fun hnone => Option.noConfusion hnone, fun Sg hSg => ?_⟩
            simp only [Option.some.injEq] at hSg
            subst hSg
            exact ⟨(count_absent_eq_zero_iff _ _).1 h0,
              ⟨_, List.mem_append_right _ (List.mem_singleton.2 rfl)⟩, hr⟩
        · rw [if_neg h0] at h
          cases hga : get_actions fuel0 node.1.2 env with
          | error e => simp [hga] at h
          | ok grounded =>
            simp only [hga] at h
            obtain ⟨queue2, hn2, e1, e2, _, _⟩ := planner_expand_ok strHash goal node.1.2
              (umap_set state_eq (umap_index state_eq st.cost node.1.1.1).2 node.1.2
                ((umap_index state_eq st.cost node.1.1.1).1 + 1))
              ((umap_index state_eq st.cost node.1.1.1).1 + 1)
              (umap_find_set_self state_eq state_eq_refl _ _ _) grounded queue
              (umap_set augmented_eq st.heuristics_naive (node.1.2, hash_state strHash node.1.2)
                (goal.foldl (fun (res : Int) condition =>
                  if condition ∉ node.1.2 then res + 1 else res) 0))
            simp only [e1] at h
            refine ih _ out hp2 ?_ h
            intro x hx
            rcases e2 x hx with hx | ⟨p, hp3, hx⟩
            · exact queue_inv_mono env start st.parents _ queue hq2 x hx
            · refine Or.inr ⟨grounded, p.2, ⟨fuel0, ?_⟩, ?_, ?_, ?_⟩
              · rw [hx]
                exact hga
              · rw [hx]
                exact hp3
              · rw [hx]
              · rw [hx]
                exact ⟨_, List.mem_append_right _ (List.mem_singleton.2 rfl)⟩

/-- The walk back through `parents` yields a plan from `start`. -/
theorem reconstruct_sound (env : Env) (start Sg : state_t)
    (parents : List (state_t × (state_t × GroundedAction)))
    (hp : parents_inv env start parents) :
    ∀ (n : Nat) (state : state_t) (acc plan : List GroundedAction),
      (∃ v, (state, v) ∈ parents) → PlanFrom env state acc Sg →
      reconstruct parents start n state acc = .ok plan → PlanFrom env start plan Sg := by
  obtain ⟨h1, h2, h3⟩ := hp
  have hstart : ∀ state, (∃ v, (state, v) ∈ parents) → state_eq state start = true →
      state = start := by
    rintro state ⟨v, hv⟩ he
    cases parents with
    | nil => exact absurd hv (List.not_mem_nil _)
    | cons x xs =>
      have hx : x.1 = start := h1 x (by simp)
      rcases List.mem_cons.1 hv with hv | hv
      · rw [← hv] at hx
        exact hx
      · rw [List.pairwise_cons] at h2
        have := h2.1 _ hv
        simp only [hx, he] at this
        exact Bool.noConfusion this
  intro n
  induction n with
  | zero =>
    intro state acc plan hk hpl h
    unfold reconstruct at h
    by_cases he : state_eq state start = true
    · simp only [he, ↓reduceIte, Except.ok.injEq] at h
      subst h
      rw [← hstart state hk he]
      exact hpl
    · simp [he] at h
  | succ n ih =>
    intro state acc plan hk hpl h
    unfold reconstruct at h
    by_cases he : state_eq state start = true
    · simp only [he, ↓reduceIte, Except.ok.injEq] at h
      subst h
      rw [← hstart state hk he]
      exact hpl
    · simp only [he, Bool.false_eq_true, ↓reduceIte] at h
      obtain ⟨v, hv⟩ := hk
      rw [umap_find_of_mem parents h2 state v hv] at h
      simp only at h
      obtain ⟨before, after, hd⟩ := List.append_of_mem hv
      rcases h3 before _ after hd with hst | ⟨r, E, q1, q2, q3, w, q4⟩
      · simp only at hst
        rw [hst, state_eq_refl] at he
        exact absurd rfl he
      · simp only at q1 q2 q3 q4
        refine ih v.1 (v.2 :: acc) plan ⟨w, ?_⟩ ?_ h
        · rw [hd]
          exact List.mem_append_left _ q4
        · rw [q3] at hpl
          exact PlanFrom.cons q1 q2 hpl

theorem parents_inv_nil (env : Env) (start : state_t) : parents_inv env start [] := by
  refine ⟨fun e he => by simp at he, List.Pairwise.nil, fun before e after h => ?_⟩
  exact absurd (congrArg List.length h) (by simp; omega)

theorem queue_inv_start (env : Env) (start : state_t) (g f : Int) :
    queue_inv env start [] [(((start, GroundedAction.default), start), (g, f))] := by
  intro node hnode
  rw [List.mem_singleton] at hnode
  subst hnode
  exact Or.inl rfl

theorem mem_goal_state (env : Env) (g : GroundedCondition) :
    g ∈ goal_state env ↔ g ∈ env.goal_conditions := by
  simp [goal_state, foldl_set_insert_mem]

theorem mem_start_state (env : Env) (g : GroundedCondition) :
    g ∈ start_state env ↔ g ∈ env.initial_conditions := by
  simp [start_state, foldl_set_insert_mem]

/-- What a finished run of `planner` guarantees. -/
theorem planner_run_sound (strHash : String → Nat) (fuel : Nat) (hn : heuristics_t) (env : Env)
    (out : planner_result) (h : planner_run strHash fuel [] hn env = .ok out) :
    (∀ Sg, out.found = some Sg →
      PlanFrom env (start_state env) out.plan Sg ∧ ∀ g ∈ env.goal_conditions, g ∈ Sg) ∧
    (out.found = none → out.plan = []) := by
  unfold planner_run at h
  obtain ⟨h1, _, h2, h3⟩ := planner_loop_sound strHash fuel env (start_state env) (goal_state env)
    fuel _ out (parents_inv_nil env _) (queue_inv_start env _ 0 0) h
  refine ⟨fun Sg hSg => ?_, h2⟩
  obtain ⟨q1, q2, q3⟩ := h3 Sg hSg
  exact ⟨reconstruct_sound env (start_state env) Sg out.final.parents h1 fuel Sg [] out.plan q2
    (PlanFrom.nil Sg) q3, fun g hg => q1 g ((mem_goal_state env g).2 hg)⟩

/-- C1: whenever a run of `planner` (started, as in the program, with an empty
`heuristics_multi`) finds a goal state `Sg`, the returned plan `a_1..a_k` leads from the
initial state to `Sg` (there are states `S_0 = start, ..., S_k = Sg`, each `a_i` is
returned by `get_actions` in `S_{i-1}` and `S_i` is the successor of `S_{i-1}` under its
effect set) and every goal literal is in `Sg`; a non-empty plan is returned only when a
goal state was found. -/
theorem plan_soundness (strHash : String → Nat) (fuel : Nat) (hn : heuristics_t) (env : Env)
    (out : planner_result) (h : planner_run strHash fuel [] hn env = .ok out) :
    (∀ Sg, out.found = some Sg →
      PlanFrom env (start_state env) out.plan Sg ∧ ∀ g ∈ env.goal_conditions, g ∈ Sg) ∧
    (out.plan ≠ [] → ∃ Sg, out.found = some Sg ∧
      PlanFrom env (start_state env) out.plan Sg ∧ ∀ g ∈ env.goal_conditions, g ∈ Sg) ∧
    (∀ g, g ∈ start_state env ↔ g ∈ env.initial_conditions) := by
  obtain ⟨h1, h2⟩ := planner_run_sound strHash fuel hn env out h
  refine ⟨h1, fun hne => ?_, mem_start_state env⟩
  cases hf : out.found with
  | none => exact absurd (h2 hf) hne
  | some Sg => exact ⟨Sg, rfl, h1 Sg hf⟩

/-- C1 witness: the blocks-world scenario S1, where `planner` returns `Stack(A,B)`. -/
theorem plan_soundness_witness :
    ∃ out, planner_run (fun _ => 0) 100 [] [] scenario_S1 = .ok out ∧
      out.plan = [⟨"Stack", ["A", "B"]⟩] ∧
      ∃ Sg, out.found = some Sg ∧
        PlanFrom scenario_S1 (start_state scenario_S1) out.plan Sg ∧
        ∀ g ∈ scenario_S1.goal_conditions, g ∈ Sg :=
  ⟨_, rfl, rfl, (plan_soundness (fun _ => 0) 100 [] scenario_S1 _ rfl).2.1 (by decide)⟩

/-- C3 witness: `Stack(A,B)` returned by `get_actions` in the initial state of scenario
S1. -/
theorem grounding_soundness_witness :
    ∃ res, get_actions 100 scenario_S1.initial_conditions scenario_S1 = .ok res ∧
      ((⟨"Stack", ["A", "B"]⟩, [⟨"On", ["A", "B"], true⟩, ⟨"Clear", ["B"], false⟩,
        ⟨"On", ["A", "Table"], false⟩]) : GroundedAction × state_t) ∈ res ∧
      ∃ a ∈ scenario_S1.actions, ∃ β : String → String,
        (∀ s ∈ scenario_S1.symbols, β s = s) ∧
        (⟨"Stack", ["A", "B"]⟩ : GroundedAction) = ⟨a.name, a.args.map β⟩ ∧
        (∀ l, l ∈ ([⟨"On", ["A", "B"], true⟩, ⟨"Clear", ["B"], false⟩,
            ⟨"On", ["A", "Table"], false⟩] : state_t) ↔
          ∃ e ∈ a.effects, l = ⟨e.predicate, e.args.map β, e.truth⟩) ∧
        (∀ c ∈ a.preconditions, (⟨c.predicate, c.args.map β, c.truth⟩ : GroundedCondition) ∈
          scenario_S1.initial_conditions) :=
  ⟨_, rfl, by decide,
    grounding_soundness 100 scenario_S1.initial_conditions scenario_S1 _ rfl
      (⟨"Stack", ["A", "B"]⟩, [⟨"On", ["A", "B"], true⟩, ⟨"Clear", ["B"], false⟩,
        ⟨"On", ["A", "Table"], false⟩]) (by decide)⟩

/-- C4 witness: scenario S1 with the assignment `x := A`, `y := B`. -/
theorem grounding_completeness_witness :
    scenario_S1.wf ∧
    ∃ res, get_actions (get_actions_fuel scenario_S1) scenario_S1.initial_conditions scenario_S1 =
        .ok res ∧
      ∃ effects, ((⟨"Stack", ["x", "y"].map assignment_S1⟩, effects) :
          GroundedAction × state_t) ∈ res ∧
        ∀ l, l ∈ effects ↔ ∃ e ∈ ([⟨"On", ["x", "y"], true⟩, ⟨"Clear", ["y"], false⟩,
          ⟨"On", ["x", "Table"], false⟩] : List Condition),
            l = ⟨e.predicate, e.args.map assignment_S1, e.truth⟩ :=
  ⟨by unfold Env.wf Action.wf; decide,
    grounding_completeness scenario_S1.initial_conditions scenario_S1
      (by unfold Env.wf Action.wf; decide)
      ⟨"Stack", ["x", "y"],
        [⟨"Clear", ["x"], true⟩, ⟨"Clear", ["y"], true⟩, ⟨"On", ["x", "Table"], true⟩],
        [⟨"On", ["x", "y"], true⟩, ⟨"Clear", ["y"], false⟩, ⟨"On", ["x", "Table"], false⟩]⟩
      (by decide) assignment_S1 (by decide) (by decide) (by decide) (by decide)
      (get_actions_fuel scenario_S1) (le_refl _)⟩

/-- C5: on the state `{Adj(A,A)}` with the single symbol `A`, `get_actions` returns the
ground action `Move(A,A)` of the schema `Move(x,y)`: the two distinct parameters `x` and
`y`, both unbound in the one precondition `Adj(x,y)`, are bound to the same symbol. -/
theorem unique_names_violated :
    get_actions 3 env_self_adjacent.initial_conditions env_self_adjacent =
      .ok [(⟨"Move", ["A", "A"]⟩, [⟨"Visited", ["A"], true⟩])] := by
  decide

/-! ## planner: the states of the search -/

theorem mem_tuples (symbols : List String) :
    ∀ (t : List String), (∀ s ∈ t, s ∈ symbols) → t ∈ tuples symbols t.length := by
  intro t
  induction t with
  | nil => intro _; simp [tuples]
  | cons x xs ih =>
    intro h
    simp only [List.length_cons, tuples, List.mem_flatMap, List.mem_map]
    exact ⟨x, h x (List.mem_cons_self _ _), xs,
      ih (fun s hs => h s (List.mem_cons_of_mem _ hs)), rfl⟩

/-- The effect literals returned by `get_actions` are literals of the universe. -/
theorem effects_in_universe (fuel : Nat) (S : state_t) (env : Env)
    (res : List (GroundedAction × state_t)) (h : get_actions fuel S env = .ok res)
    (p : GroundedAction × state_t) (hp : p ∈ res) : ∀ l ∈ p.2, l ∈ literal_universe env := by
  obtain ⟨a, ha, b, _, _, hval, hg⟩ := get_actions_sound fuel S env res h p hp
  obtain ⟨_, hbound, hpair⟩ := (action_ground_ok_iff a b p).1 hg
  intro l hl
  rw [hpair] at hl
  simp only [foldl_set_insert_mem, List.not_mem_nil, false_or, List.mem_map] at hl
  obtain ⟨e, he, rfl⟩ := hl
  unfold literal_universe
  refine List.mem_append_right _ (List.mem_flatMap.2 ⟨a, ha, List.mem_flatMap.2 ⟨e, he, ?_⟩⟩)
  refine List.mem_map.2 ⟨e.args.map (assignment_of b), ?_, rfl⟩
  have := mem_tuples env.symbols (e.args.map (assignment_of b)) (by
    intro s hs
    obtain ⟨x, hx, rfl⟩ := List.mem_map.1 hs
    cases hf : bindings_find b x with
    | none => have := hbound e he x hx; simp [hf] at this
    | some v =>
      simp only [assignment_of, hf, Option.getD_some]
      exact hval x v hf)
  simpa using this

theorem successor_state_subset (E : state_t) :
    ∀ (S : state_t) (l : GroundedCondition), l ∈ successor_state S E → l ∈ S ∨ l ∈ E := by
  induction E with
  | nil => intro S l h; exact Or.inl h
  | cons e E ih =>
    intro S l h
    rw [successor_state_cons] at h
    rcases ih _ l h with h | h
    · rw [mem_successor_step] at h
      rcases h with ⟨_, h | h⟩ | ⟨_, h, _⟩
      · exact Or.inl h
      · exact Or.inr (by rw [h]; exact List.mem_cons_self _ _)
      · exact Or.inl h
    · exact Or.inr (List.mem_cons_of_mem _ h)

theorem successor_state_nodup (E : state_t) :
    ∀ (S : state_t), S.Nodup → (successor_state S E).Nodup := by
  induction E with
  | nil => intro S h; exact h
  | cons e E ih =>
    intro S h
    rw [successor_state_cons]
    apply ih
    by_cases ht : e.truth = true
    · rw [if_pos ht]
      exact nodup_set_insert S e h
    · rw [if_neg ht]
      by_cases hm : e.negate ∈ S
      · rw [if_pos hm]
        exact nodup_set_erase S _ h
      · rw [if_neg hm]
        exact h

/-- The successor depends on the state only through its literals. -/
theorem successor_state_congr (E : state_t) :
    ∀ (S1 S2 : state_t), (∀ g, g ∈ S1 ↔ g ∈ S2) →
      ∀ g, g ∈ successor_state S1 E ↔ g ∈ successor_state S2 E := by
  induction E with
  | nil => intro S1 S2 h; exact h
  | cons e E ih =>
    intro S1 S2 h
    rw [successor_state_cons, successor_state_cons]
    apply ih
    intro g
    rw [mem_successor_step, mem_successor_step, h g]

theorem start_state_nodup (env : Env) : (start_state env).Nodup :=
  foldl_set_insert_nodup _ [] List.nodup_nil

theorem state_eq_mem_iff {s1 s2 : state_t} (h1 : s1.Nodup) (h : state_eq s1 s2 = true) :
    ∀ g, g ∈ s1 ↔ g ∈ s2 :=
  fun _ => ((state_eq_iff_perm h1).1 h).mem_iff

/-- `get_actions` returns one vector whatever the fuel. -/
theorem returns_actions_unique (env : Env) (S : state_t) (r1 r2 : List (GroundedAction × state_t))
    (h1 : returns_actions env S r1) (h2 : returns_actions env S r2) : r1 = r2 := by
  obtain ⟨f1, h1⟩ := h1
  obtain ⟨f2, h2⟩ := h2
  have key : ∀ (f g : Nat) (x y : List (GroundedAction × state_t)), f ≤ g →
      get_actions f S env = .ok x → get_actions g S env = .ok y → x = y := by
    intro f g x y hfg hx hy
    have := get_actions_mono f (g - f) S env (by rw [hx]; exact fun e => Except.noConfusion e)
    rw [Nat.add_sub_cancel' hfg, hx, hy] at this
    injection this with this
    exact this.symm
  rcases Nat.le_total f1 f2 with h | h
  · exact key f1 f2 r1 r2 h h1 h2
  · exact (key f2 f1 r2 r1 h h2 h1).symm

theorem returns_actions_congr (env : Env) (S1 S2 : state_t) (r : List (GroundedAction × state_t))
    (h : ∀ g, g ∈ S1 ↔ g ∈ S2) (h1 : returns_actions env S1 r) : returns_actions env S2 r := by
  obtain ⟨f, hf⟩ := h1
  exact ⟨f, by rw [← get_actions_congr f S1 S2 env h]; exact hf⟩

/-- A list of pairwise different duplicate-free subsets of `L` has at most `2 ^ |L|`
members. -/
theorem length_le_of_pairwise_subsets (L : List GroundedCondition)
    (keys : List state_t)
    (hp : keys.Pairwise (fun k1 k2 => state_eq k2 k1 = false))
    (hk : ∀ k ∈ keys, k.Nodup ∧ ∀ g ∈ k, g ∈ L) : keys.length ≤ 2 ^ L.length := by
  have hnd : (keys.map (fun k => k.toFinset)).Nodup := by
    unfold List.Nodup
    rw [List.pairwise_map]
    refine List.Pairwise.imp_of_mem ?_ hp
    intro x y hx hy hr hxy
    have hsame : ∀ g, g ∈ y ↔ g ∈ x := by
      intro g
      rw [← List.mem_toFinset, ← List.mem_toFinset, hxy]
    have hperm : y.Perm x := (List.perm_ext_iff_of_nodup (hk y hy).1 (hk x hx).1).2 hsame
    rw [(state_eq_iff_perm (hk y hy).1).2 hperm] at hr
    exact Bool.noConfusion hr
  have hsub : (keys.map (fun k => k.toFinset)).toFinset ⊆ L.toFinset.powerset := by
    intro F hF
    rw [List.mem_toFinset, List.mem_map] at hF
    obtain ⟨k, hkm, rfl⟩ := hF
    rw [Finset.mem_powerset]
    intro g hg
    rw [List.mem_toFinset] at hg ⊢
    exact (hk k hkm).2 g hg
  calc keys.length = (keys.map (fun k => k.toFinset)).length := (List.length_map _ _).symm
    _ = (keys.map (fun k => k.toFinset)).toFinset.card := (List.toFinset_card_of_nodup hnd).symm
    _ ≤ L.toFinset.powerset.card := Finset.card_le_card hsub
    _ = 2 ^ L.toFinset.card := Finset.card_powerset _
    _ ≤ 2 ^ L.length := Nat.pow_le_pow_right (by omega) (List.toFinset_card_le L)

/-! ## planner: completeness -/

theorem parents_length_le (env : Env) (st : planner_state) (h : search_inv env st) :
    st.parents.length ≤ state_bound env := by
  obtain ⟨⟨_, hp, _⟩, _, hk, _⟩ := h
  have := length_le_of_pairwise_subsets (literal_universe env) (st.parents.map (fun e => e.1))
    (by rw [List.pairwise_map]; exact hp)
    (by
      intro k hk2
      obtain ⟨e, he, rfl⟩ := List.mem_map.1 hk2
      exact ⟨(hk e he).1, (hk e he).2.1⟩)
  rw [List.length_map] at this
  exact this

theorem umap_find_isSome_append (m : List (state_t × (state_t × GroundedAction)))
    (e : state_t × (state_t × GroundedAction)) (X : state_t)
    (h : (umap_find state_eq m X).isSome = true) :
    (umap_find state_eq (m ++ [e]) X).isSome = true := by
  obtain ⟨k, v⟩ := e
  rw [umap_find_append]
  cases hf : umap_find state_eq m X with
  | none => simp [hf] at h
  | some x => rfl

theorem umap_find_isSome_append_self (m : List (state_t × (state_t × GroundedAction)))
    (k : state_t) (v : state_t × GroundedAction) :
    (umap_find state_eq (m ++ [(k, v)]) k).isSome = true := by
  rw [umap_find_append]
  cases hf : umap_find state_eq m k with
  | none => simp [state_eq_refl]
  | some x => rfl

/-- Dequeuing a node whose state is (or becomes) a key keeps every known state known. -/
theorem known_of_pop (parents parents2 : List (state_t × (state_t × GroundedAction)))
    (queue rest queue2 : List node_t) (node : node_t)
    (h1 : ∀ x ∈ queue, x = node ∨ x ∈ rest)
    (h2 : (umap_find state_eq parents2 node.1.2).isSome = true)
    (h3 : ∀ X, (umap_find state_eq parents X).isSome = true →
      (umap_find state_eq parents2 X).isSome = true)
    (h4 : ∀ x ∈ rest, x ∈ queue2) (X : state_t) (h : known parents queue X) :
    known parents2 queue2 X := by
  rcases h with h | ⟨x, hx, rfl⟩
  · exact Or.inl (h3 X h)
  · rcases h1 x hx with hx | hx
    · subst hx
      exact Or.inl h2
    · exact Or.inr ⟨x, h4 x hx, rfl⟩

/-- The invariant after discarding a node whose state is already a key. -/
theorem search_inv_seen (env : Env) (st : planner_state) (node : node_t) (rest : List node_t)
    (h : search_inv env st) (hpop : pq_pop st.queue = some (node, rest))
    (hs : (umap_find state_eq st.parents node.1.2).isSome = true) :
    search_inv env ⟨st.parents, st.cost, rest, st.heuristics_naive, st.count + 1⟩ := by
  obtain ⟨k0, kq, k1, k2, k3, k4⟩ := h
  obtain ⟨_, hsub, hcases, _⟩ := pq_pop_some _ _ _ hpop
  refine ⟨k0, fun x hx => kq x (hsub x hx), k1, fun x hx => k2 x (hsub x hx), ?_, ?_⟩
  · intro e he r hr p hp
    exact known_of_pop st.parents st.parents st.queue rest rest node hcases hs (fun _ hX => hX)
      (fun _ hx => hx) _ (k3 e he r hr p hp)
  · exact known_of_pop st.parents st.parents st.queue rest rest node hcases hs (fun _ hX => hX)
      (fun _ hx => hx) _ k4

/-- The invariant after recording and expanding a node whose state is new and does not
contain the goal. -/
theorem search_inv_new (env : Env) (st : planner_state) (node : node_t)
    (rest queue2 : List node_t) (cost2 : List (state_t × Int)) (hn2 : heuristics_t)
    (count2 : Nat) (r : List (GroundedAction × state_t))
    (h : search_inv env st) (hpop : pq_pop st.queue = some (node, rest))
    (hs : umap_find state_eq st.parents node.1.2 = none)
    (hgoal : ¬ ∀ g ∈ goal_state env, g ∈ node.1.2)
    (hr : returns_actions env node.1.2 r)
    (e2 : ∀ x ∈ queue2, x ∈ rest ∨ ∃ p ∈ r, x.1 = ((node.1.2, p.1), successor_state node.1.2 p.2))
    (e3 : ∀ x ∈ rest, x ∈ queue2)
    (e4 : ∀ p ∈ r, ∃ x ∈ queue2, x.1 = ((node.1.2, p.1), successor_state node.1.2 p.2)) :
    search_inv env ⟨st.parents ++ [(node.1.2, (node.1.1.1, node.1.1.2))], cost2, queue2, hn2,
      count2⟩ := by
  obtain ⟨k0, kq, k1, k2, k3, k4⟩ := h
  obtain ⟨hmem, hsub, hcases, _⟩ := pq_pop_some _ _ _ hpop
  have hnew : ∃ v, (node.1.2, v) ∈ st.parents ++ [(node.1.2, (node.1.1.1, node.1.1.2))] :=
    ⟨_, List.mem_append_right _ (List.mem_singleton.2 rfl)⟩
  have hknown : ∀ X, known st.parents st.queue X →
      known (st.parents ++ [(node.1.2, (node.1.1.1, node.1.1.2))]) queue2 X := fun X hX =>
    known_of_pop st.parents _ st.queue rest queue2 node hcases
      (umap_find_isSome_append_self _ _ _) (fun Y hY => umap_find_isSome_append _ _ Y hY) e3 X hX
  obtain ⟨fuel, hfuel⟩ := hr
  refine ⟨parents_inv_append env _ st.parents node k0 (kq node hmem) hs, ?_, ?_, ?_, ?_, hknown _ k4⟩
  · intro x hx
    rcases e2 x hx with hx | ⟨p, hp, hx⟩
    · exact queue_inv_mono env _ st.parents _ rest (fun y hy => kq y (hsub y hy)) x hx
    · refine Or.inr ⟨r, p.2, ⟨fuel, ?_⟩, ?_, ?_, ?_⟩
      · rw [hx]
        exact hfuel
      · rw [hx]
        exact hp
      · rw [hx]
      · rw [hx]
        exact hnew
  · intro e he
    rcases List.mem_append.1 he with he | he
    · exact k1 e he
    · rw [List.mem_singleton] at he
      subst he
      exact ⟨(k2 node hmem).1, (k2 node hmem).2, hgoal⟩
  · intro x hx
    rcases e2 x hx with hx | ⟨p, hp, hx⟩
    · exact k2 x (hsub x hx)
    · have hst : x.1.2 = successor_state node.1.2 p.2 := by rw [hx]
      rw [hst]
      refine ⟨successor_state_nodup _ _ (k2 node hmem).1, fun g hg => ?_⟩
      rcases successor_state_subset _ _ g hg with hg | hg
      · exact (k2 node hmem).2 g hg
      · exact effects_in_universe fuel node.1.2 env r hfuel p hp g hg
  · intro e he r2 hr2 p hp
    rcases List.mem_append.1 he with he | he
    · exact hknown _ (k3 e he r2 hr2 p hp)
    · rw [List.mem_singleton] at he
      subst he
      have : r2 = r := returns_actions_unique env node.1.2 r2 r hr2 ⟨fuel, hfuel⟩
      subst this
      obtain ⟨x, hx1, hx2⟩ := e4 p hp
      exact Or.inr ⟨x, hx1, by rw [hx2]⟩

/-- With an empty queue, every state that a plan reaches from a state of the closed set is
in the closed set. -/
theorem closed_of_queue_empty (env : Env) (st : planner_state) (h : search_inv env st)
    (hq : st.queue = []) (S T : state_t) (plan : List GroundedAction)
    (hplan : PlanFrom env S plan T) :
    (∃ e ∈ st.parents, ∀ g, g ∈ e.1 ↔ g ∈ S) → ∃ e ∈ st.parents, ∀ g, g ∈ e.1 ↔ g ∈ T := by
  obtain ⟨_, _, k1, _, k3, _⟩ := h
  induction hplan with
  | nil S => exact fun h => h
  | @cons S1 T1 r a E rest hr hmem _ ih =>
    rintro ⟨e, he, hsame⟩
    apply ih
    have hr2 : returns_actions env e.1 r :=
      returns_actions_congr env S1 e.1 r (fun g => (hsame g).symm) hr
    rcases k3 e he r hr2 (a, E) hmem with hk | ⟨x, hx, _⟩
    · cases hf : umap_find state_eq st.parents (successor_state e.1 E) with
      | none => simp [hf] at hk
      | some v =>
        obtain ⟨k, hk1, hk2⟩ := umap_find_some_mem state_eq _ _ v hf
        refine ⟨(k, v), hk1, fun g => ?_⟩
        have h1 := state_eq_mem_iff (successor_state_nodup E e.1 (k1 e he).1) hk2 g
        rw [← h1]
        exact successor_state_congr E e.1 S1 hsame g
    · rw [hq] at hx
      exact absurd hx (List.not_mem_nil x)

/-- When a goal state is reachable, the queue of a state with the invariant is not empty. -/
theorem queue_ne_nil_of_reachable (env : Env) (st : planner_state) (h : search_inv env st)
    (hreach : ∃ plan T, PlanFrom env (start_state env) plan T ∧ ∀ g ∈ env.goal_conditions, g ∈ T) :
    st.queue ≠ [] := by
  intro hq
  obtain ⟨plan, T, hplan, hgoal⟩ := hreach
  have hstart : ∃ e ∈ st.parents, ∀ g, g ∈ e.1 ↔ g ∈ start_state env := by
    rcases h.2.2.2.2.2 with hk | ⟨x, hx, _⟩
    · cases hf : umap_find state_eq st.parents (start_state env) with
      | none => simp [hf] at hk
      | some v =>
        obtain ⟨k, hk1, hk2⟩ := umap_find_some_mem state_eq _ _ v hf
        exact ⟨(k, v), hk1, fun g => (state_eq_mem_iff (start_state_nodup env) hk2 g).symm⟩
    · rw [hq] at hx
      exact absurd hx (List.not_mem_nil x)
  obtain ⟨e, he, hsame⟩ := closed_of_queue_empty env st h hq _ T plan hplan hstart
  exact (h.2.2.1 e he).2.2 (fun g hg => (hsame g).2 (hgoal g ((mem_goal_state env g).1 hg)))

/-- The walk back through `parents` from a key returns, given fuel for one step per key
entered before it. -/
theorem reconstruct_total (env : Env) (start : state_t)
    (parents : List (state_t × (state_t × GroundedAction)))
    (hp : parents_inv env start parents) :
    ∀ (k : Nat) (before after : List (state_t × (state_t × GroundedAction)))
      (e : state_t × (state_t × GroundedAction)) (n : Nat) (acc : List GroundedAction),
      parents = before ++ e :: after → before.length ≤ k → k ≤ n →
        ∃ plan, reconstruct parents start n e.1 acc = .ok plan := by
  obtain ⟨h1, h2, h3⟩ := hp
  intro k
  induction k with
  | zero =>
    intro before after e n acc hd hlen _
    have hb : before = [] := List.length_eq_zero.1 (Nat.le_zero.1 hlen)
    subst hb
    have he : e.1 = start := h1 e (by rw [hd]; simp)
    unfold reconstruct
    rw [he, state_eq_refl]
    exact ⟨acc, rfl⟩
  | succ k ih =>
    intro before after e n acc hd hlen hn
    by_cases hes : state_eq e.1 start = true
    · unfold reconstruct
      rw [hes]
      exact ⟨acc, rfl⟩
    · obtain ⟨m, rfl⟩ : ∃ m, n = m + 1 := ⟨n - 1, by omega⟩
      have hmem : (e.1, e.2) ∈ parents := by
        rw [hd]
        exact List.mem_append_right _ (List.mem_cons_self _ _)
      unfold reconstruct
      simp only [hes, Bool.false_eq_true, ↓reduceIte, umap_find_of_mem parents h2 e.1 e.2 hmem]
      rcases h3 before e after hd with hst | ⟨_, _, _, _, _, w, hw⟩
      · rw [hst, state_eq_refl] at hes
        exact absurd rfl hes
      · obtain ⟨b2, a2, hd2⟩ := List.append_of_mem hw
        have hd3 : parents = b2 ++ (e.2.1, w) :: (a2 ++ e :: after) := by
          rw [hd, hd2]
          simp
        have hlen2 : b2.length ≤ k := by
          rw [hd2] at hlen
          simp only [List.length_append, List.length_cons] at hlen
          omega
        exact ih b2 (a2 ++ e :: after) (e.2.1, w) m (e.2.2 :: acc) hd3 hlen2 (by omega)

theorem pq_pop_of_ne_nil (queue : List node_t) (h : queue ≠ []) :
    ∃ node rest, pq_pop queue = some (node, rest) := by
  cases queue with
  | nil => exact absurd rfl h
  | cons x xs => exact ⟨_, _, rfl⟩

/-- In a well-formed environment `get_actions` returns one vector for every fuel from
`get_actions_fuel env` on. -/
theorem get_actions_stable (env : Env) (hwf : env.wf) (S : state_t) :
    ∃ r, ∀ fuel, get_actions_fuel env ≤ fuel → get_actions fuel S env = .ok r := by
  obtain ⟨r, hr⟩ := get_actions_total (get_actions_fuel env) S env hwf (le_refl _)
  refine ⟨r, fun fuel hfuel => ?_⟩
  have := get_actions_mono (get_actions_fuel env) (fuel - get_actions_fuel env) S env
    (by rw [hr]; exact fun e => Except.noConfusion e)
  rw [Nat.add_sub_cancel' hfuel] at this
  rw [this, hr]

/-- Termination and completeness of the main loop: from a state with the invariant, in a
well-formed environment with a reachable goal state, the loop ends by finding a goal
state, for all sufficiently large fuel. -/
theorem planner_loop_finds (strHash : String → Nat) (env : Env) (hwf : env.wf)
    (hreach : ∃ plan T, PlanFrom env (start_state env) plan T ∧ ∀ g ∈ env.goal_conditions, g ∈ T) :
    ∀ (a q : Nat) (st : planner_state), search_inv env st →
      state_bound env - st.parents.length = a → st.queue.length = q →
      ∃ N, ∀ n, N ≤ n → ∀ fuel0, get_actions_fuel env + state_bound env ≤ fuel0 →
        ∃ out, planner_loop strHash fuel0 [] env (start_state env) (goal_state env) n st = .ok out ∧
          ∃ Sg, out.found = some Sg := by
  intro a
  induction a using Nat.strong_induction_on with
  | _ a iha =>
    intro q
    induction q with
    | zero =>
      intro st hinv _ hq
      exact absurd (List.length_eq_zero.1 hq) (queue_ne_nil_of_reachable env st hinv hreach)
    | succ q ihq =>
      intro st hinv ha hq
      obtain ⟨node, rest, hpop⟩ := pq_pop_of_ne_nil st.queue (by
        intro h
        rw [h] at hq
        exact absurd hq (by simp))
      obtain ⟨hmem, _, _, hlen⟩ := pq_pop_some _ _ _ hpop
      cases hs : umap_find state_eq st.parents node.1.2 with
      | some v =>
        obtain ⟨N, hN⟩ := ihq ⟨st.parents, st.cost, rest, st.heuristics_naive, st.count + 1⟩
          (search_inv_seen env st node rest hinv hpop (by simp [hs])) ha (by simp only; omega)
        refine ⟨N + 1, fun n hn fuel0 hf => ?_⟩
        obtain ⟨m, rfl⟩ : ∃ m, n = m + 1 := ⟨n - 1, by omega⟩
        rw [planner_loop_seen _ _ _ _ _ _ _ _ node rest hpop (by simp [hs])]
        exact hN m (by omega) fuel0 hf
      | none =>
        by_cases h0 : (goal_state env).foldl (fun (res : Int) condition =>
            if condition ∉ node.1.2 then res + 1 else res) 0 = 0
        · refine ⟨1, fun n hn fuel0 hf => ?_⟩
          obtain ⟨m, rfl⟩ : ∃ m, n = m + 1 := ⟨n - 1, by omega⟩
          rw [planner_loop_new _ _ _ _ _ _ _ node rest hpop hs, if_pos h0]
          have hp2 := parents_inv_append env (start_state env) st.parents node hinv.1
            (hinv.2.1 node hmem) hs
          have hbound := parents_length_le env st hinv
          obtain ⟨plan, hplan⟩ := reconstruct_total env (start_state env) _ hp2 st.parents.length
            st.parents [] (node.1.2, (node.1.1.1, node.1.1.2)) fuel0 [] rfl (le_refl _) (by omega)
          simp only at hplan
          rw [hplan]
          exact ⟨_, rfl, _, rfl⟩
        · obtain ⟨r, hr⟩ := get_actions_stable env hwf node.1.2
          obtain ⟨queue2, hn2, e1, e2, e3, e4⟩ := planner_expand_ok strHash (goal_state env) node.1.2
            (umap_set state_eq (umap_index state_eq st.cost node.1.1.1).2 node.1.2
              ((umap_index state_eq st.cost node.1.1.1).1 + 1))
            ((umap_index state_eq st.cost node.1.1.1).1 + 1)
            (umap_find_set_self state_eq state_eq_refl _ _ _) r rest
            (umap_set augmented_eq st.heuristics_naive (node.1.2, hash_state strHash node.1.2)
              ((goal_state env).foldl (fun (res : Int) condition =>
                if condition ∉ node.1.2 then res + 1 else res) 0))
          have hinv2 := search_inv_new env st node rest queue2
            (umap_set state_eq (umap_index state_eq st.cost node.1.1.1).2 node.1.2
              ((umap_index state_eq st.cost node.1.1.1).1 + 1)) hn2 (st.count + 1) r hinv hpop hs
            (fun hg => h0 ((count_absent_eq_zero_iff _ _).2 hg))
            ⟨get_actions_fuel env, hr _ (le_refl _)⟩ e2 e3 e4
          have hbound := parents_length_le env _ hinv2
          simp only [List.length_append, List.length_singleton] at hbound
          obtain ⟨N, hN⟩ := iha (state_bound env - (st.parents.length + 1)) (by omega) queue2.length
            _ hinv2 (by simp) rfl
          refine ⟨N + 1, fun n hn fuel0 hf => ?_⟩
          obtain ⟨m, rfl⟩ : ∃ m, n = m + 1 := ⟨n - 1, by omega⟩
          rw [planner_loop_new _ _ _ _ _ _ _ node rest hpop hs, if_neg h0,
            hr fuel0 (by omega)]
          simp only [e1]
          exact hN m (by omega) fuel0 hf

theorem search_inv_init (env : Env) (cost : List (state_t × Int)) (hn : heuristics_t) :
    search_inv env ⟨[], cost, [(((start_state env, GroundedAction.default), start_state env),
      (0, 0))], hn, 0⟩ := by
  refine ⟨parents_inv_nil env _, queue_inv_start env _ 0 0,
    fun e he => absurd he (List.not_mem_nil e), fun node hnode => ?_,
    fun e he => absurd he (List.not_mem_nil e), Or.inr ⟨_, List.mem_singleton.2 rfl, rfl⟩⟩
  rw [List.mem_singleton] at hnode
  subst hnode
  refine ⟨start_state_nodup env, fun g hg => ?_⟩
  unfold literal_universe
  exact List.mem_append_left _ hg

theorem planFrom_nil_eq (env : Env) (S T : state_t) (h : PlanFrom env S [] T) : S = T := by
  cases h
  rfl

/-- C2 as stated fails: in `env_trap` the goal is reachable (`Step1`, `Step2`), yet no run
of `planner` returns: the state reached by `Trap` is dequeued first, and there
`get_actions` completes a binding of the schema `Bad(x)` and `binding.at("x")` throws. -/
theorem search_completeness_needs_wf_env :
    ¬ ((∃ plan T, PlanFrom env_trap (start_state env_trap) plan T ∧
          ∀ g ∈ env_trap.goal_conditions, g ∈ T) →
        ∃ N, ∀ fuel, N ≤ fuel → ∃ out, planner_run (fun _ => 0) fuel [] [] env_trap = .ok out) := by
  intro h
  have hreach : ∃ plan T, PlanFrom env_trap (start_state env_trap) plan T ∧
      ∀ g ∈ env_trap.goal_conditions, g ∈ T := by
    refine ⟨[⟨"Step1", ["A"]⟩, ⟨"Step2", ["A"]⟩], _,
      PlanFrom.cons ⟨5, rfl⟩ (List.mem_cons_self _ _)
        (PlanFrom.cons ⟨5, rfl⟩ (List.mem_cons_of_mem _ (List.mem_cons_self _ _))
          (PlanFrom.nil _)), ?_⟩
    decide
  obtain ⟨N, hN⟩ := h hreach
  obtain ⟨out, hout⟩ := hN (N + 3) (by omega)
  exact Except.noConfusion hout

/-- C2 (amended): in an environment all of whose schemas are well-formed (every parameter
and effect argument is a symbol or an argument of a precondition of its schema), if some
state containing every goal literal is reachable from the initial state by ground actions
returned by `get_actions`, then `planner` terminates (returns for every sufficiently large
fuel) having dequeued a state that contains every goal literal, and the plan it returns is
empty only if the initial state already contains every goal literal. -/
theorem search_completeness (strHash : String → Nat) (env : Env) (hwf : env.wf)
    (hreach : ∃ plan T, PlanFrom env (start_state env) plan T ∧ ∀ g ∈ env.goal_conditions, g ∈ T)
    (hn : heuristics_t) :
    ∃ N, ∀ fuel, N ≤ fuel →
      ∃ out, planner_run strHash fuel [] hn env = .ok out ∧
        (∃ Sg, out.found = some Sg ∧ ∀ g ∈ env.goal_conditions, g ∈ Sg) ∧
        (out.plan = [] → ∀ g ∈ env.goal_conditions, g ∈ env.initial_conditions) := by
  obtain ⟨N, hN⟩ := planner_loop_finds strHash env hwf hreach _ _ _
    (search_inv_init env (umap_set state_eq [] (start_state env) (-1)) hn) rfl rfl
  refine ⟨N + (get_actions_fuel env + state_bound env), fun fuel hfuel => ?_⟩
  obtain ⟨out, hout, Sg, hSg⟩ := hN fuel (by omega) fuel (by omega)
  have hrun : planner_run strHash fuel [] hn env = .ok out := hout
  obtain ⟨h1, _⟩ := planner_run_sound strHash fuel hn env out hrun
  obtain ⟨hplan, hgoal⟩ := h1 Sg hSg
  refine ⟨out, hrun, ⟨Sg, hSg, hgoal⟩, fun hnil g hg => ?_⟩
  rw [hnil] at hplan
  rw [← mem_start_state, planFrom_nil_eq env _ _ hplan]
  exact hgoal g hg

/-- C2 witness: the blocks-world scenario S1, whose goal is reached by `Stack(A,B)`. -/
theorem search_completeness_witness :
    scenario_S1.wf ∧
    (∃ plan T, PlanFrom scenario_S1 (start_state scenario_S1) plan T ∧
      ∀ g ∈ scenario_S1.goal_conditions, g ∈ T) ∧
    ∃ N, ∀ fuel, N ≤ fuel →
      ∃ out, planner_run (fun _ => 0) fuel [] [] scenario_S1 = .ok out ∧
        (∃ Sg, out.found = some Sg ∧ ∀ g ∈ scenario_S1.goal_conditions, g ∈ Sg) ∧
        (out.plan = [] → ∀ g ∈ scenario_S1.goal_conditions, g ∈ scenario_S1.initial_conditions) :=
  ⟨by unfold Env.wf Action.wf; decide,
    ⟨[⟨"Stack", ["A", "B"]⟩], _, PlanFrom.cons ⟨10, rfl⟩ (List.mem_cons_self _ _) (PlanFrom.nil _),
      by decide⟩,
    search_completeness (fun _ => 0) scenario_S1 (by unfold Env.wf Action.wf; decide)
      ⟨[⟨"Stack", ["A", "B"]⟩], _, PlanFrom.cons ⟨10, rfl⟩ (List.mem_cons_self _ _)
        (PlanFrom.nil _), by decide⟩ []⟩

/-! ## State consistency -/

/-- A literal of the successor state is a literal of the state or a positive effect. -/
theorem successor_state_mem (E : state_t) :
    ∀ (S : state_t) (l : GroundedCondition), l ∈ successor_state S E →
      l ∈ S ∨ (l ∈ E ∧ l.truth = true) := by
  induction E with
  | nil => intro S l h; exact Or.inl h
  | cons e E ih =>
    intro S l h
    rw [successor_state_cons] at h
    rcases ih _ l h with h | h
    · rw [mem_successor_step] at h
      rcases h with ⟨ht, h | h⟩ | ⟨_, h, _⟩
      · exact Or.inl h
      · exact Or.inr ⟨by rw [h]; exact List.mem_cons_self _ _, by rw [h]; exact ht⟩
      · exact Or.inl h
    · exact Or.inr ⟨List.mem_cons_of_mem _ h.1, h.2⟩

/-- The action-application rule keeps a state consistent when no positive effect has its
negation in the state. -/
theorem successor_state_consistent (S E : state_t) (hS : ∀ g ∈ S, g.negate ∉ S)
    (hE : ∀ e ∈ E, e.truth = true → e.negate ∉ S) :
    ∀ g ∈ successor_state S E, g.negate ∉ successor_state S E := by
  intro g hg hn
  have neg_from_S : ∀ l, l ∈ successor_state S E → l.truth = false → l ∈ S := by
    intro l hl ht
    rcases successor_state_mem E S l hl with h | ⟨_, h⟩
    · exact h
    · rw [ht] at h
      exact Bool.noConfusion h
  cases ht : g.truth
  · have hgS := neg_from_S g hg ht
    rcases successor_state_mem E S _ hn with h | ⟨h1, h2⟩
    · exact hS g hgS h
    · have := hE _ h1 h2
      rw [negate_negate] at this
      exact this hgS
  · have hnS := neg_from_S _ hn (by rw [negate_truth, ht]; rfl)
    rcases successor_state_mem E S g hg with h | ⟨h1, h2⟩
    · exact hS g h hnS
    · exact hE g h1 h2 hnS

theorem positive_consistent (S : state_t) (h : ∀ g ∈ S, g.truth = true) :
    ∀ g ∈ S, g.negate ∉ S := by
  intro g hg hn
  have h1 := h g hg
  have h2 := h _ hn
  rw [negate_truth, h1] at h2
  exact Bool.noConfusion h2

theorem successor_state_positive (S E : state_t) (h : ∀ g ∈ S, g.truth = true) :
    ∀ g ∈ successor_state S E, g.truth = true := by
  intro g hg
  rcases successor_state_mem E S g hg with h1 | ⟨_, h1⟩
  · exact h g h1
  · exact h1

theorem planFrom_positive (env : Env) (S T : state_t) (plan : List GroundedAction)
    (hplan : PlanFrom env S plan T) : (∀ g ∈ S, g.truth = true) → ∀ g ∈ T, g.truth = true := by
  induction hplan with
  | nil S => exact fun h => h
  | @cons S1 T1 r a E rest _ _ _ ih => exact fun h => ih (successor_state_positive S1 E h)

theorem planFrom_snoc (env : Env) (S T : state_t) (plan : List GroundedAction)
    (hplan : PlanFrom env S plan T) (r : List (GroundedAction × state_t)) (a : GroundedAction)
    (E : state_t) (hr : returns_actions env T r) (hm : (a, E) ∈ r) :
    PlanFrom env S (plan ++ [a]) (successor_state T E) := by
  induction hplan with
  | nil S => exact PlanFrom.cons hr hm (PlanFrom.nil _)
  | @cons S1 T1 r1 a1 E1 rest h1 h2 _ ih => exact PlanFrom.cons h1 h2 (ih hr)

/-- Every key of `parents` is reached from `start` by a plan. -/
theorem key_reachable (env : Env) (start : state_t)
    (parents : List (state_t × (state_t × GroundedAction)))
    (hp : parents_inv env start parents) :
    ∀ (k : Nat) (before after : List (state_t × (state_t × GroundedAction)))
      (e : state_t × (state_t × GroundedAction)),
      parents = before ++ e :: after → before.length ≤ k → ∃ plan, PlanFrom env start plan e.1 := by
  obtain ⟨_, _, h3⟩ := hp
  intro k
  induction k with
  | zero =>
    intro before after e hd hlen
    rcases h3 before e after hd with hst | ⟨_, _, _, _, _, w, hw⟩
    · exact ⟨[], by rw [hst]; exact PlanFrom.nil _⟩
    · rw [List.length_eq_zero.1 (Nat.le_zero.1 hlen)] at hw
      exact absurd hw (List.not_mem_nil _)
  | succ k ih =>
    intro before after e hd hlen
    rcases h3 before e after hd with hst | ⟨r, E, q1, q2, q3, w, hw⟩
    · exact ⟨[], by rw [hst]; exact PlanFrom.nil _⟩
    · obtain ⟨b2, a2, hd2⟩ := List.append_of_mem hw
      have hd3 : parents = b2 ++ (e.2.1, w) :: (a2 ++ e :: after) := by
        rw [hd, hd2]
        simp
      have hlen2 : b2.length ≤ k := by
        rw [hd2] at hlen
        simp only [List.length_append, List.length_cons] at hlen
        omega
      obtain ⟨plan, hplan⟩ := ih b2 (a2 ++ e :: after) (e.2.1, w) hd3 hlen2
      exact ⟨plan ++ [e.2.2], by rw [q3]; exact planFrom_snoc env _ _ plan hplan r _ E q1 q2⟩

/-- Every state recorded in `parents` or waiting in the queue is reached from `start` by a
plan. -/
theorem search_states_reachable (env : Env) (start : state_t)
    (parents : List (state_t × (state_t × GroundedAction))) (queue : List node_t)
    (hp : parents_inv env start parents) (hq : queue_inv env start parents queue) :
    (∀ e ∈ parents, ∃ plan, PlanFrom env start plan e.1) ∧
      (∀ node ∈ queue, ∃ plan, PlanFrom env start plan node.1.2) := by
  have hkeys : ∀ e ∈ parents, ∃ plan, PlanFrom env start plan e.1 := by
    intro e he
    obtain ⟨before, after, hd⟩ := List.append_of_mem he
    exact key_reachable env start parents hp before.length before after e hd (le_refl _)
  refine ⟨hkeys, fun node hnode => ?_⟩
  rcases hq node hnode with h | ⟨r, E, q1, q2, q3, w, hw⟩
  · exact ⟨[], by rw [h]; exact PlanFrom.nil _⟩
  · obtain ⟨plan, hplan⟩ := hkeys _ hw
    exact ⟨plan ++ [node.1.1.2], by rw [q3]; exact planFrom_snoc env _ _ plan hplan r _ E q1 q2⟩

/-- C7 as stated fails: the state `{!P(A)}` contains no literal together with its negation,
`get_actions` returns `Flip(A)` with the effect set `{P(A)}`, and the successor state
`{!P(A), P(A)}` contains `P(A)` together with its negation. -/
theorem state_consistency_needs_positive_state :
    ¬ ((∀ g ∈ env_flip.initial_conditions, g.negate ∉ env_flip.initial_conditions) →
        ∀ r, get_actions 3 env_flip.initial_conditions env_flip = .ok r → ∀ p ∈ r,
          ∀ g ∈ successor_state env_flip.initial_conditions p.2,
            g.negate ∉ successor_state env_flip.initial_conditions p.2) := by
  intro h
  exact h (by decide) [(⟨"Flip", ["A"]⟩, [⟨"P", ["A"], true⟩])] rfl
    (⟨"Flip", ["A"]⟩, [⟨"P", ["A"], true⟩]) (List.mem_singleton.2 rfl)
    ⟨"P", ["A"], true⟩ (by decide) (by decide)

/-- C7 (amended): the action-application rule of `planner` keeps a state free of pairs
`(g, negate(g))` whenever no positive literal of the effect set has its negation in the
state, in particular on states with positive literals only; hence, from an initial state
with positive literals only, every state reachable by ground actions returned by
`get_actions`, and every state that a run of `planner` has recorded in `parents` or holds
in its queue, contains positive literals only and no pair `(g, negate(g))`. -/
theorem state_consistency (strHash : String → Nat) (env : Env) :
    (∀ S E : state_t, (∀ g ∈ S, g.negate ∉ S) → (∀ e ∈ E, e.truth = true → e.negate ∉ S) →
      ∀ g ∈ successor_state S E, g.negate ∉ successor_state S E) ∧
    ((∀ g ∈ env.initial_conditions, g.truth = true) →
      (∀ plan T, PlanFrom env (start_state env) plan T →
        (∀ g ∈ T, g.truth = true) ∧ ∀ g ∈ T, g.negate ∉ T) ∧
      (∀ fuel hn out, planner_run strHash fuel [] hn env = .ok out →
        (∀ e ∈ out.final.parents, (∀ g ∈ e.1, g.truth = true) ∧ ∀ g ∈ e.1, g.negate ∉ e.1) ∧
        (∀ node ∈ out.final.queue,
          (∀ g ∈ node.1.2, g.truth = true) ∧ ∀ g ∈ node.1.2, g.negate ∉ node.1.2))) := by
  refine ⟨successor_state_consistent, fun hpos => ?_⟩
  have hstart : ∀ g ∈ start_state env, g.truth = true := fun g hg =>
    hpos g ((mem_start_state env g).1 hg)
  have hreach : ∀ plan T, PlanFrom env (start_state env) plan T →
      (∀ g ∈ T, g.truth = true) ∧ ∀ g ∈ T, g.negate ∉ T := fun plan T hplan =>
    ⟨planFrom_positive env _ T plan hplan hstart,
      positive_consistent T (planFrom_positive env _ T plan hplan hstart)⟩
  refine ⟨hreach, fun fuel hn out hout => ?_⟩
  unfold planner_run at hout
  obtain ⟨h1, h2, _, _⟩ := planner_loop_sound strHash fuel env (start_state env) (goal_state env)
    fuel _ out (parents_inv_nil env _) (queue_inv_start env _ 0 0) hout
  obtain ⟨r1, r2⟩ := search_states_reachable env (start_state env) _ _ h1 h2
  refine ⟨fun e he => ?_, fun node hnode => ?_⟩
  · obtain ⟨plan, hplan⟩ := r1 e he
    exact hreach plan _ hplan
  · obtain ⟨plan, hplan⟩ := r2 node hnode
    exact hreach plan _ hplan

/-- C7 witness: the effect set of `Stack(A,B)` on the initial state of scenario S1. -/
theorem state_consistency_witness :
    (∀ g ∈ scenario_S1.initial_conditions, g.negate ∉ scenario_S1.initial_conditions) ∧
    (∀ g ∈ scenario_S1.initial_conditions, g.truth = true) ∧
    (∀ g ∈ successor_state scenario_S1.initial_conditions
        [⟨"On", ["A", "B"], true⟩, ⟨"Clear", ["B"], false⟩, ⟨"On", ["A", "Table"], false⟩],
      g.negate ∉ successor_state scenario_S1.initial_conditions
        [⟨"On", ["A", "B"], true⟩, ⟨"Clear", ["B"], false⟩, ⟨"On", ["A", "Table"], false⟩]) ∧
    (∀ plan T, PlanFrom scenario_S1 (start_state scenario_S1) plan T →
        (∀ g ∈ T, g.truth = true) ∧ ∀ g ∈ T, g.negate ∉ T) :=
  ⟨by decide, by decide,
    (state_consistency (fun _ => 0) scenario_S1).1 _ _ (by decide) (by decide),
    ((state_consistency (fun _ => 0) scenario_S1).2 (by decide)).1⟩

/-! ## State equality -/

theorem state_eq_iff_mem {s1 s2 : state_t} (h1 : s1.Nodup) (h2 : s2.Nodup) :
    state_eq s1 s2 = true ↔ ∀ g, g ∈ s1 ↔ g ∈ s2 := by
  rw [state_eq_iff_perm h1]
  exact List.perm_ext_iff_of_nodup h1 h2

/-- C11: on duplicate-free states, `operator==(s1, s2)` is true iff `s1` and `s2` contain
exactly the same ground literals (truth flag included); it is reflexive, symmetric and
transitive. -/
theorem state_equality (s1 s2 s3 : state_t) (h1 : s1.Nodup) (h2 : s2.Nodup) :
    (state_eq s1 s2 = true ↔ ∀ g, g ∈ s1 ↔ g ∈ s2) ∧
    state_eq s1 s1 = true ∧
    (state_eq s1 s2 = true → state_eq s2 s1 = true) ∧
    (state_eq s1 s2 = true → state_eq s2 s3 = true → state_eq s1 s3 = true) := by
  refine ⟨state_eq_iff_mem h1 h2, state_eq_refl s1, fun h => ?_, fun h12 h23 => ?_⟩
  · exact (state_eq_iff_perm h2).2 ((state_eq_iff_perm h1).1 h).symm
  · exact (state_eq_iff_perm h1).2
      (((state_eq_iff_perm h1).1 h12).trans ((state_eq_iff_perm h2).1 h23))

/-- C11 witness: the state `{P(A), Q(A)}` in two orders, and the state `{P(A), !Q(A)}`. -/
theorem state_equality_witness :
    ([⟨"P", ["A"], true⟩, ⟨"Q", ["A"], true⟩] : state_t).Nodup ∧
    state_eq [⟨"P", ["A"], true⟩, ⟨"Q", ["A"], true⟩]
      [⟨"Q", ["A"], true⟩, ⟨"P", ["A"], true⟩] = true ∧
    state_eq [⟨"P", ["A"], true⟩, ⟨"Q", ["A"], true⟩]
      [⟨"P", ["A"], true⟩, ⟨"Q", ["A"], false⟩] = false ∧
    (state_eq [⟨"P", ["A"], true⟩, ⟨"Q", ["A"], true⟩]
        [⟨"Q", ["A"], true⟩, ⟨"P", ["A"], true⟩] = true ↔
      ∀ g, g ∈ ([⟨"P", ["A"], true⟩, ⟨"Q", ["A"], true⟩] : state_t) ↔
        g ∈ ([⟨"Q", ["A"], true⟩, ⟨"P", ["A"], true⟩] : state_t)) :=
  ⟨by decide, by decide, by decide,
    (state_equality [⟨"P", ["A"], true⟩, ⟨"Q", ["A"], true⟩]
      [⟨"Q", ["A"], true⟩, ⟨"P", ["A"], true⟩] [] (by decide) (by decide)).1⟩

/-! ## is_negate -/

/-- C12: `P(A,B).is_negate(!P(A))` answers `true` although `!P(A)` is not the negation of
`P(A,B)` (the argument lists differ in length), and `P(A).is_negate(!P(A,B))` reads past
the end of the argument list of `P(A)`: the loop of `is_negate` never compares the two
sizes. -/
theorem is_negate_ignores_length :
    (GroundedCondition.mk "P" ["A", "B"] true).is_negate ⟨"P", ["A"], false⟩ = some true ∧
    (GroundedCondition.mk "P" ["A"] false) ≠ (GroundedCondition.mk "P" ["A", "B"] true).negate ∧
    (GroundedCondition.mk "P" ["A", "B"] true).operator_eq
      (GroundedCondition.mk "P" ["A"] false).negate = false ∧
    (GroundedCondition.mk "P" ["A"] true).is_negate ⟨"P", ["A", "B"], false⟩ = none := by
  decide

/-! ## The cache of the naive heuristic -/

/-- C13: after the call `get_heuristic_multi(S, G, env)` with `S = G = {P(A)}` (which
enters `S` in `heuristics_multi`), the call `get_heuristic_naive(S, G, env)` finds the key
in `heuristics_multi`, reads `heuristics_naive.at`, where the key is absent, and throws. -/
theorem naive_reads_the_other_cache :
    get_heuristic_multi (fun _ => 0) 10 [⟨"P", ["A"], true⟩] scenario_S3 10 []
        [⟨"P", ["A"], true⟩] = .ok (0, [(([⟨"P", ["A"], true⟩], 1), 0)]) ∧
    get_heuristic_naive (fun _ => 0) [(([⟨"P", ["A"], true⟩], 1), 0)] []
        [⟨"P", ["A"], true⟩] [⟨"P", ["A"], true⟩] = .error .out_of_range :=
  ⟨rfl, rfl⟩

/-! ## The order of the search nodes -/

theorem node_lt_iff (lhs rhs : node_t) :
    node_lt lhs rhs = true ↔ lhs.2.2 > rhs.2.2 ∨ (lhs.2.2 = rhs.2.2 ∧ lhs.2.1 < rhs.2.1) := by
  simp [node_lt]

/-- `top` of the model is not `operator<` any node of the queue. -/
theorem pq_top_max (first : node_t) (rest : List node_t) :
    ∀ m ∈ first :: rest, node_lt (pq_top first rest) m = false := by
  induction rest generalizing first with
  | nil =>
    intro m hm
    rw [List.mem_singleton] at hm
    subst hm
    cases h : node_lt (pq_top m []) (m) with
    | false => rfl
    | true =>
      rw [node_lt_iff] at h
      simp only [pq_top] at h
      omega
  | cons x xs ih =>
    intro m hm
    unfold pq_top
    by_cases hfx : node_lt first x = true
    · simp only [hfx, ↓reduceIte]
      rcases List.mem_cons.1 hm with hm | hm
      · subst hm
        cases h : node_lt (pq_top x xs) m with
        | false => rfl
        | true =>
          have h2 := ih x x (List.mem_cons_self _ _)
          rw [node_lt_iff] at h hfx
          have h3 : ¬ (node_lt (pq_top x xs) x = true) := by rw [h2]; exact Bool.noConfusion
          rw [node_lt_iff] at h3
          omega
      · exact ih x m hm
    · simp only [hfx, Bool.false_eq_true, ↓reduceIte]
      rcases List.mem_cons.1 hm with hm | hm
      · subst hm
        exact ih m m (List.mem_cons_self _ _)
      · rcases List.mem_cons.1 hm with hm | hm
        · subst hm
          cases h : node_lt (pq_top first xs) m with
          | false => rfl
          | true =>
            have h2 := ih first first (List.mem_cons_self _ _)
            have h3 : ¬ (node_lt (pq_top first xs) first = true) := by
              rw [h2]; exact Bool.noConfusion
            rw [node_lt_iff] at h h3 hfx
            omega
        · exact ih first m (List.mem_cons_of_mem _ hm)

/-- The node that `top`/`pop` take out of the queue is not `operator<` any node of it. -/
theorem pq_pop_max (queue rest : List node_t) (node : node_t)
    (h : pq_pop queue = some (node, rest)) : ∀ m ∈ queue, node_lt node m = false := by
  cases queue with
  | nil => simp [pq_pop] at h
  | cons x xs =>
    simp only [pq_pop, Option.some.injEq, Prod.mk.injEq] at h
    rw [← h.1]
    exact pq_top_max x xs

/-- C14: a node `n` of the queue that is not `operator<` any node of the queue — what
`top` of the max-heap `priority_queue<node_t>` yields, and what `pq_pop` yields — has
`n.f <= m.f` for every node `m` of the queue and `n.g >= m.g` whenever `n.f = m.f`; and
`operator<` is a strict weak ordering: irreflexive, transitive, with transitive
incomparability. -/
theorem frontier_priority :
    (∀ (queue : List node_t) (n : node_t), (∀ m ∈ queue, node_lt n m = false) →
      ∀ m ∈ queue, n.2.2 ≤ m.2.2 ∧ (n.2.2 = m.2.2 → n.2.1 ≥ m.2.1)) ∧
    (∀ (queue rest : List node_t) (n : node_t), pq_pop queue = some (n, rest) →
      n ∈ queue ∧ ∀ m ∈ queue, n.2.2 ≤ m.2.2 ∧ (n.2.2 = m.2.2 → n.2.1 ≥ m.2.1)) ∧
    (∀ a : node_t, node_lt a a = false) ∧
    (∀ a b c : node_t, node_lt a b = true → node_lt b c = true → node_lt a c = true) ∧
    (∀ a b c : node_t, node_lt a b = false → node_lt b a = false → node_lt b c = false →
      node_lt c b = false → node_lt a c = false ∧ node_lt c a = false) := by
  have key : ∀ (queue : List node_t) (n : node_t), (∀ m ∈ queue, node_lt n m = false) →
      ∀ m ∈ queue, n.2.2 ≤ m.2.2 ∧ (n.2.2 = m.2.2 → n.2.1 ≥ m.2.1) := by
    intro queue n h m hm
    have h1 : ¬ (node_lt n m = true) := by rw [h m hm]; exact Bool.noConfusion
    rw [node_lt_iff] at h1
    constructor <;> omega
  have hf : ∀ a b : node_t, node_lt a b = false ↔
      ¬ (a.2.2 > b.2.2 ∨ (a.2.2 = b.2.2 ∧ a.2.1 < b.2.1)) := by
    intro a b
    rw [← node_lt_iff]
    cases node_lt a b <;> simp
  refine ⟨key, fun queue rest n h => ⟨(pq_pop_some queue rest n h).1,
    key queue n (pq_pop_max queue rest n h)⟩, fun a => ?_, fun a b c => ?_, fun a b c => ?_⟩
  · rw [hf]
    omega
  · rw [node_lt_iff, node_lt_iff, node_lt_iff]
    omega
  · rw [hf, hf, hf, hf, hf, hf]
    omega

/-- C14 witness: a queue of three nodes; the node with `f = 1` and the larger `g` is
taken. -/
theorem frontier_priority_witness :
    ∃ n rest, pq_pop ([((([], GroundedAction.default), []), (0, 2)),
        ((([], GroundedAction.default), []), (0, 1)),
        ((([], GroundedAction.default), []), (1, 1))] : List node_t) = some (n, rest) ∧
      n.2 = (1, 1) ∧
      ∀ m ∈ ([((([], GroundedAction.default), []), (0, 2)),
        ((([], GroundedAction.default), []), (0, 1)),
        ((([], GroundedAction.default), []), (1, 1))] : List node_t),
        n.2.2 ≤ m.2.2 ∧ (n.2.2 = m.2.2 → n.2.1 ≥ m.2.1) :=
  ⟨_, _, rfl, rfl, (frontier_priority.2.1 ([((([], GroundedAction.default), []), (0, 2)),
        ((([], GroundedAction.default), []), (0, 1)),
        ((([], GroundedAction.default), []), (1, 1))] : List node_t) _ _ rfl).2⟩

/-! ## Action schemas in the environment -/

theorem action_operator_eq_iff (a b : Action) :
    a.operator_eq b = true ↔ a.name = b.name ∧ a.args.length = b.args.length := by
  unfold Action.operator_eq
  by_cases h1 : a.name = b.name
  · by_cases h2 : a.args.length = b.args.length
    · simp [h1, h2]
    · simp [h1, h2]
  · simp [h1]

theorem add_action_keys_nodup (env : Env) (action : Action)
    (h : (env.actions.map (fun a => (a.name, a.args.length))).Nodup) :
    ((env.add_action action).actions.map (fun a => (a.name, a.args.length))).Nodup := by
  unfold Env.add_action
  by_cases hany : env.actions.any (fun a => a.operator_eq action) = true
  · rw [if_pos hany]
    exact h
  · rw [if_neg hany]
    simp only [List.map_append, List.map_cons, List.map_nil]
    refine List.Nodup.append h (List.nodup_singleton _) ?_
    intro key hk1 hk2
    rw [List.mem_singleton] at hk2
    subst hk2
    obtain ⟨a, ha, hkey⟩ := List.mem_map.1 hk1
    apply hany
    rw [List.any_eq_true]
    refine ⟨a, ha, (action_operator_eq_iff a action).2 ?_⟩
    simp only [Prod.mk.injEq] at hkey
    exact hkey

theorem add_actions_keys_nodup (adds : List Action) :
    ∀ (env : Env), (env.actions.map (fun a => (a.name, a.args.length))).Nodup →
      ((adds.foldl Env.add_action env).actions.map (fun a => (a.name, a.args.length))).Nodup := by
  induction adds with
  | nil => intro env h; exact h
  | cons x xs ih =>
    intro env h
    rw [List.foldl_cons]
    exact ih _ (add_action_keys_nodup env x h)

/-- C20: `Action::operator==` holds iff the names and the numbers of parameters are equal
(whatever the preconditions and effects); equal schemas have equal hashes; after any
sequence of `Env::add_action` calls on a new environment the stored schemas have pairwise
different (name, arity), so two stored schemas with the same name and arity are the same
schema; and adding a schema equal to a stored one leaves the environment unchanged. -/
theorem action_equality (strHash : String → Nat) :
    (∀ a b : Action, a.operator_eq b = true ↔
      a.name = b.name ∧ a.args.length = b.args.length) ∧
    (∀ a b : Action, a.operator_eq b = true → a.hash strHash = b.hash strHash) ∧
    (∀ (env : Env) (adds : List Action), env.actions = [] →
      ((adds.foldl Env.add_action env).actions.map (fun a => (a.name, a.args.length))).Nodup ∧
      ((adds.foldl Env.add_action env).actions.Pairwise (fun a b => a.operator_eq b = false))) ∧
    (∀ (env : Env) (a : Action), (∃ b ∈ env.actions, b.operator_eq a = true) →
      env.add_action a = env) := by
  refine ⟨action_operator_eq_iff, fun a b h => ?_, fun env adds hnil => ?_, fun env a h => ?_⟩
  · unfold Action.hash
    rw [((action_operator_eq_iff a b).1 h).1]
  · have hn := add_actions_keys_nodup adds env (by rw [hnil]; exact List.nodup_nil)
    refine ⟨hn, ?_⟩
    unfold List.Nodup at hn
    rw [List.pairwise_map] at hn
    refine hn.imp ?_
    intro a b hab
    cases h : a.operator_eq b with
    | false => rfl
    | true =>
      exfalso
      apply hab
      have := (action_operator_eq_iff a b).1 h
      rw [this.1, this.2]
  · unfold Env.add_action
    have : env.actions.any (fun b => b.operator_eq a) = true := by
      rw [List.any_eq_true]
      exact h
    rw [if_pos this]

/-- C20 witness: adding `Move(x,y)`, `Move(u,v)` (same name and arity, other body) and
`Move(x)` to a new environment stores the first and the third. -/
theorem action_equality_witness :
    (Action.mk "Move" ["x", "y"] [] []).operator_eq ⟨"Move", ["u", "v"], [⟨"Adj", ["u", "v"], true⟩], []⟩
      = true ∧
    ([⟨"Move", ["x", "y"], [], []⟩, ⟨"Move", ["u", "v"], [⟨"Adj", ["u", "v"], true⟩], []⟩,
        ⟨"Move", ["x"], [], []⟩].foldl Env.add_action ⟨[], [], [], []⟩).actions =
      [⟨"Move", ["x", "y"], [], []⟩, ⟨"Move", ["x"], [], []⟩] ∧
    (Action.mk "Move" ["x", "y"] [] []).hash String.length =
      (Action.mk "Move" ["u", "v"] [⟨"Adj", ["u", "v"], true⟩] []).hash String.length :=
  ⟨by decide, by decide,
    (action_equality String.length).2.1 ⟨"Move", ["x", "y"], [], []⟩
      ⟨"Move", ["u", "v"], [⟨"Adj", ["u", "v"], true⟩], []⟩ (by decide)⟩

/-! ## The first iterations of the search -/

/-- With an empty `heuristics_multi` and the cost `c` of `state` recorded, the expansion
loop of `planner` appends to the queue the node of each ground action, in order. -/
theorem planner_expand_eq (strHash : String → Nat) (goal state : state_t)
    (cost : List (state_t × Int)) (c : Int) (hc : umap_find state_eq cost state = some c) :
    ∀ (grounded : List (GroundedAction × state_t)) (queue : List node_t) (hn : heuristics_t),
      ∃ hn2, planner_expand strHash [] goal state cost grounded queue hn =
        .ok (queue ++ grounded.map (new_node goal state c), hn2) := by
  intro grounded
  induction grounded with
  | nil =>
    intro queue hn
    exact ⟨hn, by simp [planner_expand]⟩
  | cons p ps ih =>
    intro queue hn
    simp only [planner_expand, get_heuristic_naive_empty, hc]
    obtain ⟨hn2, h⟩ := ih (queue ++ [new_node goal state c p])
      (umap_set augmented_eq hn (successor_state state p.2,
        hash_state strHash (successor_state state p.2))
        (goal.foldl (fun (res : Int) condition =>
          if condition ∉ successor_state state p.2 then res + 1 else res) 0))
    refine ⟨hn2, ?_⟩
    rw [List.map_cons, List.append_cons queue (new_node goal state c p)
      (List.map (new_node goal state c) ps)]
    exact h

/-- The cost map after the start node is dequeued: `cost[start] = cost[start] + 1 = 0`. -/
theorem cost_after_start (s : state_t) :
    umap_set state_eq (umap_index state_eq (umap_set state_eq [] s (-1)) s).2 s
      ((umap_index state_eq (umap_set state_eq [] s (-1)) s).1 + 1) = [(s, 0)] := by
  simp [umap_set, umap_index, umap_find, state_eq_refl]

theorem pq_pop_singleton (node : node_t) : pq_pop [node] = some (node, []) := by
  simp [pq_pop, pq_top]

/-- A run whose initial state contains every goal literal ends at the first dequeued
node. -/
theorem planner_loop_start_goal (strHash : String → Nat) (fuel0 n : Nat) (hn : heuristics_t)
    (env : Env) (h : ∀ g ∈ goal_state env, g ∈ start_state env) :
    planner_loop strHash fuel0 [] env (start_state env) (goal_state env) (n + 1)
        ⟨[], umap_set state_eq [] (start_state env) (-1),
          [(((start_state env, GroundedAction.default), start_state env), (0, 0))], hn, 0⟩ =
      .ok ⟨[], some (start_state env),
        ⟨[(start_state env, (start_state env, GroundedAction.default))],
          [(start_state env, 0)], [],
          umap_set augmented_eq hn (start_state env, hash_state strHash (start_state env)) 0,
          1⟩⟩ := by
  rw [planner_loop_new strHash fuel0 env _ _ n
    ⟨[], umap_set state_eq [] (start_state env) (-1),
      [(((start_state env, GroundedAction.default), start_state env), (0, 0))], hn, 0⟩
    (((start_state env, GroundedAction.default), start_state env), (0, 0)) []
    (pq_pop_singleton _) rfl]
  have h0 := (count_absent_eq_zero_iff (start_state env) (goal_state env)).2 h
  simp only [h0, ↓reduceIte, List.nil_append, cost_after_start]
  have hrec : reconstruct [(start_state env, (start_state env, GroundedAction.default))]
      (start_state env) fuel0 (start_state env) [] = .ok [] := by
    unfold reconstruct
    simp [state_eq_refl]
  simp only [hrec, zero_add]

/-- A run whose initial state misses a goal literal expands the start node: the queue is
then the list of the nodes of the ground actions of the initial state, all with `g = 0`. -/
theorem planner_loop_start_expand (strHash : String → Nat) (fuel0 n : Nat) (hn : heuristics_t)
    (env : Env) (r : List (GroundedAction × state_t))
    (h : ¬ ∀ g ∈ goal_state env, g ∈ start_state env)
    (hr : get_actions fuel0 (start_state env) env = .ok r) :
    ∃ hn2, planner_loop strHash fuel0 [] env (start_state env) (goal_state env) (n + 1)
        ⟨[], umap_set state_eq [] (start_state env) (-1),
          [(((start_state env, GroundedAction.default), start_state env), (0, 0))], hn, 0⟩ =
      planner_loop strHash fuel0 [] env (start_state env) (goal_state env) n
        ⟨[(start_state env, (start_state env, GroundedAction.default))],
          [(start_state env, 0)], r.map (new_node (goal_state env) (start_state env) 0),
          hn2, 1⟩ := by
  have h0 : ¬ (goal_state env).foldl (fun (res : Int) condition =>
      if condition ∉ start_state env then res + 1 else res) 0 = 0 :=
    fun h0 => h ((count_absent_eq_zero_iff (start_state env) (goal_state env)).1 h0)
  obtain ⟨hn2, he⟩ := planner_expand_eq strHash (goal_state env) (start_state env)
    [(start_state env, 0)] 0 (by simp [umap_find, state_eq_refl]) r []
    (umap_set augmented_eq hn (start_state env, hash_state strHash (start_state env))
      ((goal_state env).foldl (fun (res : Int) condition =>
        if condition ∉ start_state env then res + 1 else res) 0))
  refine ⟨hn2, ?_⟩
  rw [planner_loop_new strHash fuel0 env _ _ n
    ⟨[], umap_set state_eq [] (start_state env) (-1),
      [(((start_state env, GroundedAction.default), start_state env), (0, 0))], hn, 0⟩
    (((start_state env, GroundedAction.default), start_state env), (0, 0)) []
    (pq_pop_singleton _) rfl]
  simp only [h0, ↓reduceIte, List.nil_append, cost_after_start, hr, he, zero_add]

/-! ## Runs that end at the start node or on an empty frontier -/

/-- A run that ends without a goal state ends on an empty queue, with the empty plan. -/
theorem planner_loop_found_none (strHash : String → Nat) (fuel0 : Nat) (env : Env)
    (start goal : state_t) :
    ∀ (n : Nat) (st : planner_state) (out : planner_result),
      planner_loop strHash fuel0 [] env start goal n st = .ok out → out.found = none →
        out.plan = [] ∧ out.final.queue = [] := by
  intro n
  induction n with
  | zero =>
    intro st out h _
    cases hpop : pq_pop st.queue with
    | none =>
      rw [planner_loop_none _ _ _ _ _ _ _ _ hpop] at h
      injection h with h
      subst h
      exact ⟨rfl, pq_pop_none _ hpop⟩
    | some p =>
      rw [planner_loop_zero _ _ _ _ _ _ _ p.1 p.2 hpop] at h
      exact Except.noConfusion h
  | succ n ih =>
    intro st out h hnone
    cases hpop : pq_pop st.queue with
    | none =>
      rw [planner_loop_none _ _ _ _ _ _ _ _ hpop] at h
      injection h with h
      subst h
      exact ⟨rfl, pq_pop_none _ hpop⟩
    | some p =>
      obtain ⟨node, queue⟩ := p
      cases hs : umap_find state_eq st.parents node.1.2 with
      | some v =>
        rw [planner_loop_seen _ _ _ _ _ _ _ _ node queue hpop (by simp [hs])] at h
        exact ih _ out h hnone
      | none =>
        rw [planner_loop_new _ _ _ _ _ _ _ node queue hpop hs] at h
        by_cases h0 : goal.foldl (fun (res : Int) condition =>
            if condition ∉ node.1.2 then res + 1 else res) 0 = 0
        · rw [if_pos h0] at h
          cases hr : reconstruct (st.parents ++ [(node.1.2, (node.1.1.1, node.1.1.2))]) start
              fuel0 node.1.2 [] with
          | error e => simp [hr] at h
          | ok plan =>
            simp only [hr, Except.ok.injEq] at h
            subst h
            exact Option.noConfusion hnone
        · rw [if_neg h0] at h
          cases hga : get_actions fuel0 node.1.2 env with
          | error e => simp [hga] at h
          | ok grounded =>
            simp only [hga] at h
            obtain ⟨hn2, e1⟩ := planner_expand_eq strHash goal node.1.2
              (umap_set state_eq (umap_index state_eq st.cost node.1.1.1).2 node.1.2
                ((umap_index state_eq st.cost node.1.1.1).1 + 1))
              ((umap_index state_eq st.cost node.1.1.1).1 + 1)
              (umap_find_set_self state_eq state_eq_refl _ _ _) grounded queue
              (umap_set augmented_eq st.heuristics_naive (node.1.2, hash_state strHash node.1.2)
                (goal.foldl (fun (res : Int) condition =>
                  if condition ∉ node.1.2 then res + 1 else res) 0))
            simp only [e1] at h
            exact ih _ out h hnone

/-- C16: when the initial state contains every goal literal (an empty goal included),
`planner` returns the empty plan: the run ends at the first dequeued node, the start node
(`count = 1`), `parents` holds the start state alone, nothing was pushed on the queue, and
the same holds whatever fuel the inner loops get, none included: `get_actions` does not
run. -/
theorem already_satisfied (strHash : String → Nat) (n : Nat) (hn : heuristics_t) (env : Env)
    (h : ∀ g ∈ env.goal_conditions, g ∈ env.initial_conditions) :
    planner strHash (n + 1) hn env = .ok [] ∧
    ∃ out, planner_run strHash (n + 1) [] hn env = .ok out ∧
      out.plan = [] ∧ out.found = some (start_state env) ∧ out.final.count = 1 ∧
      out.final.queue = [] ∧
      out.final.parents = [(start_state env, (start_state env, GroundedAction.default))] ∧
      ∀ fuel0, planner_loop strHash fuel0 [] env (start_state env) (goal_state env) (n + 1)
        ⟨[], umap_set state_eq [] (start_state env) (-1),
          [(((start_state env, GroundedAction.default), start_state env), (0, 0))], hn, 0⟩ =
        .ok out := by
  have hg : ∀ g ∈ goal_state env, g ∈ start_state env := fun g hg =>
    (mem_start_state env g).2 (h g ((mem_goal_state env g).1 hg))
  have hrun := planner_loop_start_goal strHash (n + 1) n hn env hg
  refine ⟨?_, _, hrun, rfl, rfl, rfl, rfl, rfl, fun fuel0 =>
    planner_loop_start_goal strHash fuel0 n hn env hg⟩
  unfold planner planner_run
  simp only [hrun]

/-- C16 witness: scenario S2, whose goal `Q(B)` is in the initial state. -/
theorem already_satisfied_witness :
    (∀ g ∈ scenario_S2.goal_conditions, g ∈ scenario_S2.initial_conditions) ∧
    planner String.length 1 [] scenario_S2 = .ok [] :=
  ⟨by decide, (already_satisfied String.length 0 [] scenario_S2 (by decide)).1⟩

theorem get_actions_no_schema (fuel : Nat) (state : state_t) (env : Env)
    (h : env.actions = []) : get_actions fuel state env = .ok [] := by
  unfold get_actions
  rw [h]
  rfl

/-- C17: a run of `planner` that ends without a dequeued goal state (its frontier is
empty then) returns the empty plan; in an environment with no action schema whose goal is
not contained in the initial state every run with fuel for one iteration ends so, after
dequeueing the start node; for scenario S3 the result is the empty plan. -/
theorem unreachable_goal (strHash : String → Nat) (hn : heuristics_t) :
    (∀ (env : Env) (fuel : Nat) (out : planner_result),
      planner_run strHash fuel [] hn env = .ok out → out.found = none →
        out.plan = [] ∧ out.final.queue = [] ∧ planner strHash fuel hn env = .ok []) ∧
    (∀ (env : Env) (n : Nat), env.actions = [] →
      (¬ ∀ g ∈ env.goal_conditions, g ∈ env.initial_conditions) →
        planner strHash (n + 1) hn env = .ok [] ∧
        ∃ out, planner_run strHash (n + 1) [] hn env = .ok out ∧ out.found = none ∧
          out.plan = [] ∧ out.final.queue = [] ∧ out.final.count = 1) ∧
    (∀ n, planner strHash (n + 1) hn scenario_S3 = .ok []) := by
  have key : ∀ (env : Env) (n : Nat), env.actions = [] →
      (¬ ∀ g ∈ env.goal_conditions, g ∈ env.initial_conditions) →
        planner strHash (n + 1) hn env = .ok [] ∧
        ∃ out, planner_run strHash (n + 1) [] hn env = .ok out ∧ out.found = none ∧
          out.plan = [] ∧ out.final.queue = [] ∧ out.final.count = 1 := by
    intro env n hact hgoal
    have hg : ¬ ∀ g ∈ goal_state env, g ∈ start_state env := fun hg =>
      hgoal (fun g hgc => (mem_start_state env g).1 (hg g ((mem_goal_state env g).2 hgc)))
    obtain ⟨hn2, hrun⟩ := planner_loop_start_expand strHash (n + 1) n hn env [] hg
      (get_actions_no_schema _ _ env hact)
    rw [List.map_nil, planner_loop_none strHash (n + 1) [] env (start_state env) (goal_state env) n
      ⟨[(start_state env, (start_state env, GroundedAction.default))], [(start_state env, 0)],
        [], hn2, 1⟩ rfl] at hrun
    refine ⟨?_, _, hrun, rfl, rfl, rfl, rfl⟩
    unfold planner planner_run
    simp only [hrun]
  refine ⟨fun env fuel out h hnone => ?_, key, fun n => (key scenario_S3 n rfl (by decide)).1⟩
  obtain ⟨h1, h2⟩ := planner_loop_found_none strHash fuel env _ _ fuel _ out h hnone
  refine ⟨h1, h2, ?_⟩
  unfold planner
  simp only [h, h1]

/-- C17 witness: scenario S3 with the string length as the hash of strings. -/
theorem unreachable_goal_witness :
    scenario_S3.actions = [] ∧
    (¬ ∀ g ∈ scenario_S3.goal_conditions, g ∈ scenario_S3.initial_conditions) ∧
    planner String.length 1 [] scenario_S3 = .ok [] :=
  ⟨rfl, by decide, ((unreachable_goal String.length []).2.1 scenario_S3 0 rfl (by decide)).1⟩

/-! ## Fuel and the content of `heuristics_naive` do not change the result -/

theorem reconstruct_mono (parents : List (state_t × (state_t × GroundedAction)))
    (start : state_t) (k : Nat) :
    ∀ (n : Nat) (state : state_t) (acc plan : List GroundedAction),
      reconstruct parents start n state acc = .ok plan →
        reconstruct parents start (n + k) state acc = .ok plan := by
  intro n
  induction n with
  | zero =>
    intro state acc plan h
    unfold reconstruct at h ⊢
    by_cases he : state_eq state start = true
    · simp only [he, ↓reduceIte] at h ⊢
      exact h
    · simp [he] at h
  | succ n ih =>
    intro state acc plan h
    have hk : n + 1 + k = (n + k) + 1 := by omega
    rw [hk]
    unfold reconstruct at h ⊢
    by_cases he : state_eq state start = true
    · simp only [he, ↓reduceIte] at h ⊢
      exact h
    · simp only [he, Bool.false_eq_true, ↓reduceIte] at h ⊢
      cases hf : umap_find state_eq parents state with
      | none => simp [hf] at h
      | some item =>
        simp only [hf] at h ⊢
        exact ih _ _ _ h

theorem get_actions_ok_mono (fuel k : Nat) (state : state_t) (env : Env)
    (r : List (GroundedAction × state_t)) (h : get_actions fuel state env = .ok r) :
    get_actions (fuel + k) state env = .ok r := by
  rw [get_actions_mono fuel k state env (by rw [h]; exact fun e => Except.noConfusion e), h]

/-- A finished run of the main loop is not changed by more fuel, for the loop itself or for
the inner loops. -/
theorem planner_loop_mono (strHash : String → Nat) (fuel0 k j : Nat) (env : Env)
    (start goal : state_t) :
    ∀ (n : Nat) (st : planner_state) (out : planner_result),
      planner_loop strHash fuel0 [] env start goal n st = .ok out →
        planner_loop strHash (fuel0 + k) [] env start goal (n + j) st = .ok out := by
  intro n
  induction n with
  | zero =>
    intro st out h
    cases hpop : pq_pop st.queue with
    | none =>
      rw [planner_loop_none _ _ _ _ _ _ _ _ hpop] at h
      rw [planner_loop_none _ _ _ _ _ _ _ _ hpop]
      exact h
    | some p =>
      rw [planner_loop_zero _ _ _ _ _ _ _ p.1 p.2 hpop] at h
      exact Except.noConfusion h
  | succ n ih =>
    intro st out h
    have hk : n + 1 + j = (n + j) + 1 := by omega
    rw [hk]
    cases hpop : pq_pop st.queue with
    | none =>
      rw [planner_loop_none _ _ _ _ _ _ _ _ hpop] at h
      rw [planner_loop_none _ _ _ _ _ _ _ _ hpop]
      exact h
    | some p =>
      obtain ⟨node, queue⟩ := p
      cases hs : umap_find state_eq st.parents node.1.2 with
      | some v =>
        rw [planner_loop_seen _ _ _ _ _ _ _ _ node queue hpop (by simp [hs])] at h
        rw [planner_loop_seen _ _ _ _ _ _ _ _ node queue hpop (by simp [hs])]
        exact ih _ out h
      | none =>
        rw [planner_loop_new _ _ _ _ _ _ _ node queue hpop hs] at h
        rw [planner_loop_new _ _ _ _ _ _ _ node queue hpop hs]
        by_cases h0 : goal.foldl (fun (res : Int) condition =>
            if condition ∉ node.1.2 then res + 1 else res) 0 = 0
        · rw [if_pos h0] at h ⊢
          cases hr : reconstruct (st.parents ++ [(node.1.2, (node.1.1.1, node.1.1.2))]) start
              fuel0 node.1.2 [] with
          | error e => simp [hr] at h
          | ok plan =>
            simp only [hr] at h
            simp only [reconstruct_mono _ _ k _ _ _ _ hr]
            exact h
        · rw [if_neg h0] at h ⊢
          cases hga : get_actions fuel0 node.1.2 env with
          | error e => simp [hga] at h
          | ok grounded =>
            simp only [hga] at h
            simp only [get_actions_ok_mono fuel0 k _ env grounded hga]
            obtain ⟨hn2, e1⟩ := planner_expand_eq strHash goal node.1.2
              (umap_set state_eq (umap_index state_eq st.cost node.1.1.1).2 node.1.2
                ((umap_index state_eq st.cost node.1.1.1).1 + 1))
              ((umap_index state_eq st.cost node.1.1.1).1 + 1)
              (umap_find_set_self state_eq state_eq_refl _ _ _) grounded queue
              (umap_set augmented_eq st.heuristics_naive (node.1.2, hash_state strHash node.1.2)
                (goal.foldl (fun (res : Int) condition =>
                  if condition ∉ node.1.2 then res + 1 else res) 0))
            simp only [e1] at h ⊢
            exact ih _ out h

/-- With an empty `heuristics_multi`, the main loop runs the same from two states that
differ in the content of `heuristics_naive` alone. -/
theorem planner_loop_cache (strHash : String → Nat) (fuel0 : Nat) (env : Env)
    (start goal : state_t) :
    ∀ (n : Nat) (parents : List (state_t × (state_t × GroundedAction)))
      (cost : List (state_t × Int)) (queue : List node_t) (count : Nat) (hn1 hn2 : heuristics_t),
      observable_outcome (planner_loop strHash fuel0 [] env start goal n
          ⟨parents, cost, queue, hn1, count⟩) =
        observable_outcome (planner_loop strHash fuel0 [] env start goal n
          ⟨parents, cost, queue, hn2, count⟩) := by
  intro n
  induction n with
  | zero =>
    intro parents cost queue count hn1 hn2
    cases hpop : pq_pop queue with
    | none =>
      rw [planner_loop_none _ _ _ _ _ _ _ ⟨parents, cost, queue, hn1, count⟩ hpop,
        planner_loop_none _ _ _ _ _ _ _ ⟨parents, cost, queue, hn2, count⟩ hpop]
      rfl
    | some p =>
      rw [planner_loop_zero _ _ _ _ _ _ ⟨parents, cost, queue, hn1, count⟩ p.1 p.2 hpop,
        planner_loop_zero _ _ _ _ _ _ ⟨parents, cost, queue, hn2, count⟩ p.1 p.2 hpop]
  | succ n ih =>
    intro parents cost queue count hn1 hn2
    cases hpop : pq_pop queue with
    | none =>
      rw [planner_loop_none _ _ _ _ _ _ _ ⟨parents, cost, queue, hn1, count⟩ hpop,
        planner_loop_none _ _ _ _ _ _ _ ⟨parents, cost, queue, hn2, count⟩ hpop]
      rfl
    | some p =>
      obtain ⟨node, rest⟩ := p
      cases hs : umap_find state_eq parents node.1.2 with
      | some v =>
        rw [planner_loop_seen _ _ _ _ _ _ _ ⟨parents, cost, queue, hn1, count⟩ node rest hpop
            (by simp [hs]),
          planner_loop_seen _ _ _ _ _ _ _ ⟨parents, cost, queue, hn2, count⟩ node rest hpop
            (by simp [hs])]
        exact ih _ _ _ _ _ _
      | none =>
        rw [planner_loop_new _ _ _ _ _ _ ⟨parents, cost, queue, hn1, count⟩ node rest hpop hs,
          planner_loop_new _ _ _ _ _ _ ⟨parents, cost, queue, hn2, count⟩ node rest hpop hs]
        by_cases h0 : goal.foldl (fun (res : Int) condition =>
            if condition ∉ node.1.2 then res + 1 else res) 0 = 0
        · rw [if_pos h0, if_pos h0]
          cases hr : reconstruct (parents ++ [(node.1.2, (node.1.1.1, node.1.1.2))]) start
              fuel0 node.1.2 [] with
          | error e => rfl
          | ok plan => rfl
        · rw [if_neg h0, if_neg h0]
          cases hga : get_actions fuel0 node.1.2 env with
          | error e => rfl
          | ok grounded =>
            obtain ⟨hnA, eA⟩ := planner_expand_eq strHash goal node.1.2
              (umap_set state_eq (umap_index state_eq cost node.1.1.1).2 node.1.2
                ((umap_index state_eq cost node.1.1.1).1 + 1))
              ((umap_index state_eq cost node.1.1.1).1 + 1)
              (umap_find_set_self state_eq state_eq_refl _ _ _) grounded rest
              (umap_set augmented_eq hn1 (node.1.2, hash_state strHash node.1.2)
                (goal.foldl (fun (res : Int) condition =>
                  if condition ∉ node.1.2 then res + 1 else res) 0))
            obtain ⟨hnB, eB⟩ := planner_expand_eq strHash goal node.1.2
              (umap_set state_eq (umap_index state_eq cost node.1.1.1).2 node.1.2
                ((umap_index state_eq cost node.1.1.1).1 + 1))
              ((umap_index state_eq cost node.1.1.1).1 + 1)
              (umap_find_set_self state_eq state_eq_refl _ _ _) grounded rest
              (umap_set augmented_eq hn2 (node.1.2, hash_state strHash node.1.2)
                (goal.foldl (fun (res : Int) condition =>
                  if condition ∉ node.1.2 then res + 1 else res) 0))
            simp only [eA, eB]
            exact ih _ _ _ _ _ _

theorem planner_run_cache (strHash : String → Nat) (fuel : Nat) (env : Env)
    (hn1 hn2 : heuristics_t) :
    observable_outcome (planner_run strHash fuel [] hn1 env) =
      observable_outcome (planner_run strHash fuel [] hn2 env) :=
  planner_loop_cache strHash fuel env _ _ fuel _ _ _ _ hn1 hn2

theorem planner_run_mono (strHash : String → Nat) (fuel k : Nat) (env : Env)
    (hn : heuristics_t) (out : planner_result)
    (h : planner_run strHash fuel [] hn env = .ok out) :
    planner_run strHash (fuel + k) [] hn env = .ok out :=
  planner_loop_mono strHash fuel k k env _ _ fuel _ out h

/-- Two finished runs on one environment, with any fuel and any content of
`heuristics_naive`, leave the same plan, goal state, `parents`, `cost`, queue and count. -/
theorem planner_run_observable (strHash : String → Nat) (env : Env) (f1 f2 : Nat)
    (hn1 hn2 : heuristics_t) (out1 out2 : planner_result)
    (h1 : planner_run strHash f1 [] hn1 env = .ok out1)
    (h2 : planner_run strHash f2 [] hn2 env = .ok out2) :
    out1.observable = out2.observable := by
  have e1 := planner_run_mono strHash f1 f2 env hn1 out1 h1
  have e2 := planner_run_mono strHash f2 f1 env hn2 out2 h2
  rw [Nat.add_comm f2 f1] at e2
  have := planner_run_cache strHash (f1 + f2) env hn1 hn2
  rw [e1, e2] at this
  simp only [observable_outcome, Except.ok.injEq] at this
  exact this

/-- C19: with an empty `heuristics_multi`, the result of `planner` does not depend on the
content of `heuristics_naive`: with the same fuel two runs on one environment have the
same outcome (plan or exception); two finished runs, with any fuel, return the same plan
and leave the same `parents`, `cost`, queue and count; and a second run that starts with
the cache left by a finished first run finishes, with any fuel not below the one of the
first run, and returns the plan of the first run. -/
theorem memoization_safety (strHash : String → Nat) (env : Env) :
    (∀ (fuel : Nat) (hn1 hn2 : heuristics_t),
      planner strHash fuel hn1 env = planner strHash fuel hn2 env ∧
      observable_outcome (planner_run strHash fuel [] hn1 env) =
        observable_outcome (planner_run strHash fuel [] hn2 env)) ∧
    (∀ (f1 f2 : Nat) (hn1 hn2 : heuristics_t) (out1 out2 : planner_result),
      planner_run strHash f1 [] hn1 env = .ok out1 →
      planner_run strHash f2 [] hn2 env = .ok out2 →
        out1.plan = out2.plan ∧ out1.observable = out2.observable) ∧
    (∀ (f1 f2 : Nat) (hn1 : heuristics_t) (out1 : planner_result),
      planner_run strHash f1 [] hn1 env = .ok out1 → f1 ≤ f2 →
        planner strHash f2 out1.final.heuristics_naive env = .ok out1.plan) := by
  refine ⟨fun fuel hn1 hn2 => ⟨?_, planner_run_cache strHash fuel env hn1 hn2⟩,
    fun f1 f2 hn1 hn2 out1 out2 h1 h2 => ?_, fun f1 f2 hn1 out1 h1 hle => ?_⟩
  · have := planner_run_cache strHash fuel env hn1 hn2
    unfold planner
    cases e1 : planner_run strHash fuel [] hn1 env with
    | error a =>
      cases e2 : planner_run strHash fuel [] hn2 env with
      | error b =>
        rw [e1, e2] at this
        simp only [observable_outcome, Except.error.injEq] at this
        simp only [this]
      | ok b =>
        rw [e1, e2] at this
        exact Except.noConfusion this
    | ok a =>
      cases e2 : planner_run strHash fuel [] hn2 env with
      | error b =>
        rw [e1, e2] at this
        exact Except.noConfusion this
      | ok b =>
        rw [e1, e2] at this
        simp only [observable_outcome, Except.ok.injEq, planner_result.observable,
          Prod.mk.injEq] at this
        simp only [this.1]
  · have := planner_run_observable strHash env f1 f2 hn1 hn2 out1 out2 h1 h2
    refine ⟨?_, this⟩
    simp only [planner_result.observable, Prod.mk.injEq] at this
    exact this.1
  · have e1 := planner_run_mono strHash f1 (f2 - f1) env hn1 out1 h1
    rw [Nat.add_sub_cancel' hle] at e1
    have := planner_run_cache strHash f2 env hn1 out1.final.heuristics_naive
    rw [e1] at this
    unfold planner
    cases e2 : planner_run strHash f2 [] out1.final.heuristics_naive env with
    | error b =>
      rw [e2] at this
      exact Except.noConfusion this
    | ok b =>
      rw [e2] at this
      simp only [observable_outcome, Except.ok.injEq, planner_result.observable,
        Prod.mk.injEq] at this
      simp only [this.1]

/-- C19 witness: scenario S1 run a second time with the cache left by a first run. -/
theorem memoization_safety_witness :
    ∃ out1, planner_run (fun _ => 0) 100 [] [] scenario_S1 = .ok out1 ∧
      out1.final.heuristics_naive ≠ [] ∧
      planner (fun _ => 0) 100 out1.final.heuristics_naive scenario_S1 = .ok out1.plan :=
  ⟨_, rfl, by decide,
    (memoization_safety (fun _ => 0) scenario_S1).2.2 100 100 [] _ rfl (le_refl _)⟩

/-! ## Goals one step away -/

theorem state_eq_subset (s1 s2 : state_t) (h : state_eq s1 s2 = true) : ∀ g ∈ s1, g ∈ s2 := by
  unfold state_eq at h
  by_cases hl : (s1.length != s2.length) = true
  · simp [hl] at h
  · simp only [hl, Bool.false_eq_true, ↓reduceIte, List.all_eq_true, decide_eq_true_eq] at h
    exact h

/-- The second iteration of a run whose start node was expanded into the nodes of `r`,
one of which reaches the goal: the dequeued node reaches the goal, and the run returns its
action. -/
theorem planner_loop_second (strHash : String → Nat) (fuel0 n : Nat) (hn : heuristics_t)
    (env : Env) (r : List (GroundedAction × state_t))
    (h : ¬ ∀ g ∈ goal_state env, g ∈ start_state env)
    (hone : ∃ p ∈ r, ∀ g ∈ goal_state env, g ∈ successor_state (start_state env) p.2) :
    ∃ p ∈ r, (∀ g ∈ goal_state env, g ∈ successor_state (start_state env) p.2) ∧
      ∃ rest, pq_pop (r.map (new_node (goal_state env) (start_state env) 0)) =
          some (new_node (goal_state env) (start_state env) 0 p, rest) ∧
      ∃ final, planner_loop strHash (fuel0 + 1) [] env (start_state env) (goal_state env) (n + 1)
        ⟨[(start_state env, (start_state env, GroundedAction.default))],
          [(start_state env, 0)], r.map (new_node (goal_state env) (start_state env) 0),
          hn, 1⟩ = .ok ⟨[p.1], some (successor_state (start_state env) p.2), final⟩ := by
  obtain ⟨p0, hp0, hgoal0⟩ := hone
  obtain ⟨node, rest, hpop⟩ := pq_pop_of_ne_nil
    (r.map (new_node (goal_state env) (start_state env) 0))
    (fun hnil => by
      rw [List.map_eq_nil_iff] at hnil
      rw [hnil] at hp0
      exact absurd hp0 (List.not_mem_nil _))
  obtain ⟨hmem, _, _, _⟩ := pq_pop_some _ _ _ hpop
  obtain ⟨p, hp, hnode⟩ := List.mem_map.1 hmem
  have hmax := pq_pop_max _ _ _ hpop _ (List.mem_map.2 ⟨p0, hp0, rfl⟩)
  have hc0 := (count_absent_eq_zero_iff (successor_state (start_state env) p0.2)
    (goal_state env)).2 hgoal0
  have hge := count_absent_ge (successor_state (start_state env) p.2) (goal_state env) 0
  have hc : (goal_state env).foldl (fun (res : Int) condition =>
      if condition ∉ successor_state (start_state env) p.2 then res + 1 else res) 0 = 0 := by
    have hnot : ¬ (node.2.2 > (new_node (goal_state env) (start_state env) 0 p0).2.2 ∨
        (node.2.2 = (new_node (goal_state env) (start_state env) 0 p0).2.2 ∧
          node.2.1 < (new_node (goal_state env) (start_state env) 0 p0).2.1)) := by
      intro hx
      rw [(node_lt_iff _ _).2 hx] at hmax
      exact Bool.noConfusion hmax
    rw [← hnode] at hnot
    simp only [new_node, hc0] at hnot
    by_contra hne
    exact hnot (Or.inl (by omega))
  have hgoal := (count_absent_eq_zero_iff _ _).1 hc
  subst hnode
  refine ⟨p, hp, hgoal, rest, hpop, ?_⟩
  have hne : state_eq (successor_state (start_state env) p.2) (start_state env) = false := by
    cases he : state_eq (successor_state (start_state env) p.2) (start_state env) with
    | false => rfl
    | true => exact absurd (fun g hg => state_eq_subset _ _ he g (hgoal g hg)) h
  have hs : umap_find state_eq [(start_state env, (start_state env, GroundedAction.default))]
      (new_node (goal_state env) (start_state env) 0 p).1.2 = none := by
    simp [umap_find, new_node, hne]
  rw [planner_loop_new strHash (fuel0 + 1) env _ _ n
    ⟨[(start_state env, (start_state env, GroundedAction.default))],
      [(start_state env, 0)], r.map (new_node (goal_state env) (start_state env) 0), hn, 1⟩
    (new_node (goal_state env) (start_state env) 0 p) rest hpop hs]
  have hrec : reconstruct ([(start_state env, (start_state env, GroundedAction.default))] ++
      [(successor_state (start_state env) p.2, (start_state env, p.1))]) (start_state env)
      (fuel0 + 1) (successor_state (start_state env) p.2) [] = .ok [p.1] := by
    unfold reconstruct
    simp only [hne, Bool.false_eq_true, ↓reduceIte, List.singleton_append, umap_find,
      state_eq_refl]
    unfold reconstruct
    simp [state_eq_refl]
  simp only [new_node, hc, ↓reduceIte, hrec]
  exact ⟨_, rfl⟩

/-- A goal one step away is reached in one step. -/
theorem planner_one_step (strHash : String → Nat) (hn : heuristics_t) (env : Env)
    (r : List (GroundedAction × state_t))
    (hr : returns_actions env (start_state env) r)
    (hinit : ¬ ∀ g ∈ env.goal_conditions, g ∈ env.initial_conditions)
    (hone : ∃ p ∈ r, ∀ g ∈ env.goal_conditions, g ∈ successor_state (start_state env) p.2) :
    ∃ a E N, (a, E) ∈ r ∧
      (∀ g ∈ env.goal_conditions, g ∈ successor_state (start_state env) E) ∧
      PlanFrom env (start_state env) [a] (successor_state (start_state env) E) ∧
      ∀ fuel, N ≤ fuel → planner strHash fuel hn env = .ok [a] := by
  have hg : ¬ ∀ g ∈ goal_state env, g ∈ start_state env := fun hg =>
    hinit (fun g hgc => (mem_start_state env g).1 (hg g ((mem_goal_state env g).2 hgc)))
  have hone2 : ∃ p ∈ r, ∀ g ∈ goal_state env, g ∈ successor_state (start_state env) p.2 := by
    obtain ⟨p, hp, hgoal⟩ := hone
    exact ⟨p, hp, fun g hgc => hgoal g ((mem_goal_state env g).1 hgc)⟩
  obtain ⟨f, hf⟩ := hr
  obtain ⟨p, hp, hgoal, rest, hpop, _⟩ := planner_loop_second strHash 0 0 hn env r hg hone2
  refine ⟨p.1, p.2, f + 2, hp, fun g hgc => hgoal g ((mem_goal_state env g).2 hgc),
    PlanFrom.cons ⟨f, hf⟩ hp (PlanFrom.nil _), fun fuel hfuel => ?_⟩
  obtain ⟨m, rfl⟩ : ∃ m, fuel = m + 1 + 1 := ⟨fuel - 2, by omega⟩
  have hga : get_actions (m + 1 + 1) (start_state env) env = .ok r := by
    have := get_actions_ok_mono f (m + 1 + 1 - f) (start_state env) env r hf
    rw [Nat.add_sub_cancel' (by omega)] at this
    exact this
  obtain ⟨hn2, hrun⟩ := planner_loop_start_expand strHash (m + 1 + 1) (m + 1) hn env r hg hga
  obtain ⟨q, _, _, rest2, hpop2, final, hrun2⟩ :=
    planner_loop_second strHash (m + 1) m hn2 env r hg hone2
  rw [hpop] at hpop2
  simp only [Option.some.injEq, Prod.mk.injEq, new_node] at hpop2
  unfold planner planner_run
  simp only [hrun, hrun2, hpop2.1.1.1.2]

/-- C15: when the initial state misses a goal literal and some ground action that
`get_actions` returns in the initial state has a successor containing every goal literal,
`planner` returns, for every sufficient fuel, a plan `[a]` of length 1 whose action `a` is
one of those ground actions and leads from the initial state to a state that contains
every goal literal; for scenario S1 the plan is `[Stack(A,B)]`. -/
theorem one_step_goal (strHash : String → Nat) (hn : heuristics_t) :
    (∀ (env : Env) (r : List (GroundedAction × state_t)),
      returns_actions env (start_state env) r →
      (¬ ∀ g ∈ env.goal_conditions, g ∈ env.initial_conditions) →
      (∃ p ∈ r, ∀ g ∈ env.goal_conditions, g ∈ successor_state (start_state env) p.2) →
      ∃ a E N, (a, E) ∈ r ∧
        (∀ g ∈ env.goal_conditions, g ∈ successor_state (start_state env) E) ∧
        PlanFrom env (start_state env) [a] (successor_state (start_state env) E) ∧
        ∀ fuel, N ≤ fuel → planner strHash fuel hn env = .ok [a]) ∧
    (∀ n, planner strHash (n + 7) hn scenario_S1 = .ok [⟨"Stack", ["A", "B"]⟩]) := by
  refine ⟨planner_one_step strHash hn, fun n => ?_⟩
  have h : ∃ out, planner_run strHash 7 [] hn scenario_S1 = .ok out ∧
      out.plan = [⟨"Stack", ["A", "B"]⟩] := ⟨_, rfl, rfl⟩
  obtain ⟨out, h1, h2⟩ := h
  have h3 := planner_run_mono strHash 7 n scenario_S1 hn out h1
  rw [Nat.add_comm]
  unfold planner
  simp only [h3, h2]

/-- C15 witness: scenario S1, where `get_actions` returns `Stack(A,B)` and `Stack(B,A)` in
the initial state and the successor under `Stack(A,B)` contains the goal `On(A,B)`. -/
theorem one_step_goal_witness :
    ∃ r, returns_actions scenario_S1 (start_state scenario_S1) r ∧
      (¬ ∀ g ∈ scenario_S1.goal_conditions, g ∈ scenario_S1.initial_conditions) ∧
      (∃ p ∈ r, ∀ g ∈ scenario_S1.goal_conditions,
        g ∈ successor_state (start_state scenario_S1) p.2) ∧
      ∃ a E N, (a, E) ∈ r ∧
        (∀ g ∈ scenario_S1.goal_conditions,
          g ∈ successor_state (start_state scenario_S1) E) ∧
        PlanFrom scenario_S1 (start_state scenario_S1) [a]
          (successor_state (start_state scenario_S1) E) ∧
        ∀ fuel, N ≤ fuel → planner (fun _ => 0) fuel [] scenario_S1 = .ok [a] :=
  ⟨[(⟨"Stack", ["A", "B"]⟩, [⟨"On", ["A", "B"], true⟩, ⟨"Clear", ["B"], false⟩,
      ⟨"On", ["A", "Table"], false⟩]),
    (⟨"Stack", ["B", "A"]⟩, [⟨"On", ["B", "A"], true⟩, ⟨"Clear", ["A"], false⟩,
      ⟨"On", ["B", "Table"], false⟩])],
    ⟨7, by decide⟩, by decide, ⟨_, List.mem_cons_self _ _, by decide⟩,
    (one_step_goal (fun _ => 0) []).1 scenario_S1 _ ⟨7, by decide⟩ (by decide)
      ⟨_, List.mem_cons_self _ _, by decide⟩⟩

/-- C18: on scenario S4 (symbols `A`, `B`; initial `P(A)`; goal `R(A)`; `ToQ(x)` with
precondition `P(x)` and effects `Q(x)`, `!P(x)`; `ToR(x)` with precondition `Q(x)` and
effects `R(x)`, `!Q(x)`) `planner` returns exactly the plan `[ToQ(A), ToR(A)]`, for every
fuel from 3 on, whatever the hash of strings and the content of `heuristics_naive`; the
run dequeues three nodes and ends in the state `R(A)`. -/
theorem scenario_S4_plan (strHash : String → Nat) (hn : heuristics_t) (n : Nat) :
    planner strHash (n + 3) hn scenario_S4 = .ok [⟨"ToQ", ["A"]⟩, ⟨"ToR", ["A"]⟩] ∧
    ∃ out, planner_run strHash (n + 3) [] hn scenario_S4 = .ok out ∧
      out.plan = [⟨"ToQ", ["A"]⟩, ⟨"ToR", ["A"]⟩] ∧
      out.found = some [⟨"R", ["A"], true⟩] ∧ out.final.count = 3 := by
  have h : ∃ out, planner_run strHash 3 [] hn scenario_S4 = .ok out ∧
      out.plan = [⟨"ToQ", ["A"]⟩, ⟨"ToR", ["A"]⟩] ∧
      out.found = some [⟨"R", ["A"], true⟩] ∧ out.final.count = 3 := ⟨_, rfl, rfl, rfl, rfl⟩
  obtain ⟨out, h1, h2, h3, h4⟩ := h
  have h5 := planner_run_mono strHash 3 n scenario_S4 hn out h1
  rw [Nat.add_comm]
  refine ⟨?_, out, h5, h2, h3, h4⟩
  unfold planner
  simp only [h5, h2]

/-! ## The relaxed layer -/

theorem foldl_set_insert_eq_of_nodup {α : Type} [DecidableEq α] (l : List α) :
    ∀ (acc : List α), (acc ++ l).Nodup → l.foldl set_insert acc = acc ++ l := by
  induction l with
  | nil => intro acc _; simp
  | cons x xs ih =>
    intro acc h
    have hx : x ∉ acc := by
      intro hx
      have := List.nodup_append.1 h
      exact this.2.2 hx (List.mem_cons_self _ _)
    rw [List.foldl_cons]
    have e : set_insert acc x = acc ++ [x] := by
      unfold set_insert
      simp [hx]
    rw [e, ih (acc ++ [x]) (by simpa using h)]
    simp

theorem mem_foldl_effects (r : List (GroundedAction × state_t)) :
    ∀ (acc : state_t) (g : GroundedCondition),
      g ∈ r.foldl (fun conditions grounded => grounded.2.foldl set_insert conditions) acc ↔
        g ∈ acc ∨ ∃ p ∈ r, g ∈ p.2 := by
  induction r with
  | nil => intro acc g; simp
  | cons p ps ih =>
    intro acc g
    rw [List.foldl_cons, ih, foldl_set_insert_mem]
    constructor
    · rintro ((h | h) | ⟨q, hq, h⟩)
      · exact Or.inl h
      · exact Or.inr ⟨p, List.mem_cons_self _ _, h⟩
      · exact Or.inr ⟨q, List.mem_cons_of_mem _ hq, h⟩
    · rintro (h | ⟨q, hq, h⟩)
      · exact Or.inl (Or.inl h)
      · rcases List.mem_cons.1 hq with hq | hq
        · subst hq
          exact Or.inl (Or.inr h)
        · exact Or.inr ⟨q, hq, h⟩

/-- What `add_actions` leaves in a layer built over `S`. -/
theorem add_actions_spec (S : state_t) (fuel : Nat) (env : Env)
    (r : List (GroundedAction × state_t)) (hr : get_actions fuel S env = .ok r) :
    ∃ layer, (GraphPlanLayer.new S).add_actions fuel env = .ok layer ∧
      layer.prev_conditions = S ∧
      ∀ g, g ∈ layer.conditions ↔ g ∈ S ∨ ∃ p ∈ r, g ∈ p.2 := by
  refine ⟨⟨S, r.foldl (fun conditions grounded => grounded.2.foldl set_insert conditions)
    (S.foldl set_insert [])⟩, by simp only [GraphPlanLayer.add_actions, GraphPlanLayer.new, hr],
    rfl, fun g => ?_⟩
  simp only [mem_foldl_effects, foldl_set_insert_mem, List.not_mem_nil, false_or]

/-- C23: a `GraphPlanLayer` built over `S_prev` holds exactly the literals of `S_prev`
(the same list when `S_prev` has no duplicate); when `get_actions(S_prev, env)` returns
`r`, `add_actions(env)` returns and leaves exactly the literals of `S_prev` together with
every literal, with its truth flag, of every effect set of `r`; it throws what
`get_actions` throws; so `S_prev` is contained in the layer. -/
theorem relaxed_layer_monotone (S_prev : state_t) (fuel : Nat) (env : Env) :
    (∀ g, g ∈ (GraphPlanLayer.new S_prev).conditions ↔ g ∈ S_prev) ∧
    (S_prev.Nodup → (GraphPlanLayer.new S_prev).conditions = S_prev) ∧
    (∀ r, get_actions fuel S_prev env = .ok r →
      ∃ layer, (GraphPlanLayer.new S_prev).add_actions fuel env = .ok layer ∧
        layer.prev_conditions = S_prev ∧
        (∀ g, g ∈ layer.conditions ↔ g ∈ S_prev ∨ ∃ p ∈ r, g ∈ p.2) ∧
        (∀ g ∈ S_prev, g ∈ layer.conditions) ∧
        (∀ g ∈ (GraphPlanLayer.new S_prev).conditions, g ∈ layer.conditions)) ∧
    (∀ e, get_actions fuel S_prev env = .error e →
      (GraphPlanLayer.new S_prev).add_actions fuel env = .error e) := by
  have hnew : ∀ g, g ∈ (GraphPlanLayer.new S_prev).conditions ↔ g ∈ S_prev := by
    intro g
    simp [GraphPlanLayer.new, foldl_set_insert_mem]
  refine ⟨hnew, fun hnd => ?_, fun r hr => ?_, fun e he => ?_⟩
  · have := foldl_set_insert_eq_of_nodup S_prev [] (by simpa using hnd)
    simpa [GraphPlanLayer.new] using this
  · obtain ⟨layer, h1, h2, h3⟩ := add_actions_spec S_prev fuel env r hr
    exact ⟨layer, h1, h2, h3, fun g hg => (h3 g).2 (Or.inl hg),
      fun g hg => (h3 g).2 (Or.inl ((hnew g).1 hg))⟩
  · simp only [GraphPlanLayer.add_actions, GraphPlanLayer.new, he]

/-- C23 witness: the layer over the initial state of scenario S4 after `add_actions` holds
`P(A)` and the effects `Q(A)`, `!P(A)` of `ToQ(A)`. -/
theorem relaxed_layer_monotone_witness :
    ∃ r layer, get_actions 3 (start_state scenario_S4) scenario_S4 = .ok r ∧
      (GraphPlanLayer.new (start_state scenario_S4)).add_actions 3 scenario_S4 = .ok layer ∧
      layer.conditions = [⟨"P", ["A"], true⟩, ⟨"Q", ["A"], true⟩, ⟨"P", ["A"], false⟩] ∧
      ∀ g, g ∈ layer.conditions ↔ g ∈ start_state scenario_S4 ∨ ∃ p ∈ r, g ∈ p.2 :=
  ⟨[(⟨"ToQ", ["A"]⟩, [⟨"Q", ["A"], true⟩, ⟨"P", ["A"], false⟩])],
    ⟨[⟨"P", ["A"], true⟩], [⟨"P", ["A"], true⟩, ⟨"Q", ["A"], true⟩, ⟨"P", ["A"], false⟩]⟩,
    by decide, by decide, rfl,
    by
      obtain ⟨layer, h1, _, h3, _⟩ := (relaxed_layer_monotone (start_state scenario_S4) 3
        scenario_S4).2.2.1 [(⟨"ToQ", ["A"]⟩, [⟨"Q", ["A"], true⟩, ⟨"P", ["A"], false⟩])]
        (by decide)
      have e : (GraphPlanLayer.new (start_state scenario_S4)).add_actions 3 scenario_S4 =
          .ok ⟨[⟨"P", ["A"], true⟩],
            [⟨"P", ["A"], true⟩, ⟨"Q", ["A"], true⟩, ⟨"P", ["A"], false⟩]⟩ := by decide
      rw [e] at h1
      injection h1 with h1
      rw [h1]
      exact h3⟩

/-! ## The order of the preconditions -/

/-- C21: the schema `Act(x,y)` with the preconditions `P(x,y)`, `Q(x)` and the same schema
with the preconditions listed as `Q(x)`, `P(x,y)` give different results on the symbols
`{A}` and the state `{P(A,A), Q(A)}`: in the first order `get_actions` returns `Act(A,A)`,
in the second it returns nothing (and `planner` returns `[Act(A,A)]` in the first order, the
empty plan in the second). -/
theorem grounding_depends_on_order :
    env_order_b.actions = env_order_a.actions.map
      (fun a => ⟨a.name, a.args, a.preconditions.reverse, a.effects⟩) ∧
    env_order_b.symbols = env_order_a.symbols ∧
    (∀ n, get_actions (n + 3) [⟨"P", ["A", "A"], true⟩, ⟨"Q", ["A"], true⟩] env_order_a =
      .ok [(⟨"Act", ["A", "A"]⟩, [⟨"Z", ["A", "A"], true⟩])]) ∧
    (∀ n, get_actions (n + 2) [⟨"P", ["A", "A"], true⟩, ⟨"Q", ["A"], true⟩] env_order_b =
      .ok []) ∧
    (∀ strHash hn n, planner strHash (n + 3) hn env_order_a = .ok [⟨"Act", ["A", "A"]⟩]) ∧
    (∀ strHash hn n, planner strHash (n + 2) hn env_order_b = .ok []) := by
  refine ⟨by decide, rfl, fun n => ?_, fun n => ?_, fun strHash hn n => ?_,
    fun strHash hn n => ?_⟩
  · rw [Nat.add_comm]
    exact get_actions_ok_mono 3 n _ env_order_a _ (by decide)
  · rw [Nat.add_comm]
    exact get_actions_ok_mono 2 n _ env_order_b _ (by decide)
  · have h : ∃ out, planner_run strHash 3 [] hn env_order_a = .ok out ∧
        out.plan = [⟨"Act", ["A", "A"]⟩] := ⟨_, rfl, rfl⟩
    obtain ⟨out, h1, h2⟩ := h
    have h3 := planner_run_mono strHash 3 n env_order_a hn out h1
    rw [Nat.add_comm]
    unfold planner
    simp only [h3, h2]
  · have h : ∃ out, planner_run strHash 2 [] hn env_order_b = .ok out ∧
        out.plan = [] := ⟨_, rfl, rfl⟩
    obtain ⟨out, h1, h2⟩ := h
    have h3 := planner_run_mono strHash 2 n env_order_b hn out h1
    rw [Nat.add_comm]
    unfold planner
    simp only [h3, h2]

/-! ## The relaxed heuristic -/

theorem goal_all_eq_true (goal S : state_t) :
    goal.all (fun condition => decide (condition ∈ S)) = true ↔ ∀ g ∈ goal, g ∈ S := by
  simp [List.all_eq_true]

/-- `get_heuristic_multi` on a state that contains the goal and is not in the cache. -/
theorem get_heuristic_multi_goal (strHash : String → Nat) (fuel0 : Nat) (goal : state_t)
    (env : Env) (S : state_t) (hm : heuristics_t) (fuel : Nat)
    (hkey : umap_find augmented_eq hm (S, hash_state strHash S) = none)
    (hgoal : ∀ g ∈ goal, g ∈ S) :
    get_heuristic_multi strHash fuel0 goal env fuel hm S =
      .ok (0, umap_set augmented_eq hm (S, hash_state strHash S) 0) := by
  unfold get_heuristic_multi
  simp only [hkey, Option.isNone_none, ↓reduceIte, (goal_all_eq_true goal S).2 hgoal]

/-- `get_heuristic_multi` on a state that misses a goal literal and is not in the cache:
one more than its value on the expanded layer. -/
theorem get_heuristic_multi_step (strHash : String → Nat) (fuel0 : Nat) (goal : state_t)
    (env : Env) (S : state_t) (hm hm2 : heuristics_t) (fuel : Nat) (layer : GraphPlanLayer)
    (r : Int) (hkey : umap_find augmented_eq hm (S, hash_state strHash S) = none)
    (hgoal : ¬ ∀ g ∈ goal, g ∈ S)
    (hlayer : (GraphPlanLayer.new S).add_actions fuel0 env = .ok layer)
    (hrec : get_heuristic_multi strHash fuel0 goal env fuel hm layer.conditions = .ok (r, hm2)) :
    get_heuristic_multi strHash fuel0 goal env (fuel + 1) hm S =
      .ok (r + 1, umap_set augmented_eq hm2 (S, hash_state strHash S) (r + 1)) := by
  have hall : goal.all (fun condition => decide (condition ∈ S)) = false := by
    cases h : goal.all (fun condition => decide (condition ∈ S)) with
    | false => rfl
    | true => exact absurd ((goal_all_eq_true goal S).1 h) hgoal
  rw [get_heuristic_multi]
  simp only [hkey, Option.isNone_none, ↓reduceIte, hall, Bool.false_eq_true, hlayer, hrec]

/-- When the state misses a goal literal, is not in the cache, and the recursion has no
depth left, there is no result. -/
theorem get_heuristic_multi_zero (strHash : String → Nat) (fuel0 : Nat) (goal : state_t)
    (env : Env) (S : state_t) (hm : heuristics_t)
    (hkey : umap_find augmented_eq hm (S, hash_state strHash S) = none)
    (hgoal : ¬ ∀ g ∈ goal, g ∈ S) :
    get_heuristic_multi strHash fuel0 goal env 0 hm S = .error .out_of_fuel := by
  have hall : goal.all (fun condition => decide (condition ∈ S)) = false := by
    cases h : goal.all (fun condition => decide (condition ∈ S)) with
    | false => rfl
    | true => exact absurd ((goal_all_eq_true goal S).1 h) hgoal
  rw [get_heuristic_multi]
  simp only [hkey, Option.isNone_none, ↓reduceIte, hall, Bool.false_eq_true]

/-- When the expanded layer of `S` is `S` again and `S` misses a goal literal, the recursion
of `get_heuristic_multi` from an empty cache never returns. -/
theorem get_heuristic_multi_diverges (strHash : String → Nat) (fuel0 : Nat) (goal : state_t)
    (env : Env) (S : state_t) (hgoal : ¬ ∀ g ∈ goal, g ∈ S)
    (hlayer : ∃ layer, (GraphPlanLayer.new S).add_actions fuel0 env = .ok layer ∧
      layer.conditions = S) :
    ∀ fuel, get_heuristic_multi strHash fuel0 goal env fuel [] S = .error .out_of_fuel := by
  have hall : goal.all (fun condition => decide (condition ∈ S)) = false := by
    cases h : goal.all (fun condition => decide (condition ∈ S)) with
    | false => rfl
    | true => exact absurd ((goal_all_eq_true goal S).1 h) hgoal
  obtain ⟨layer, h1, h2⟩ := hlayer
  intro fuel
  induction fuel with
  | zero => exact get_heuristic_multi_zero strHash fuel0 goal env S [] rfl hgoal
  | succ n ih =>
    rw [get_heuristic_multi]
    simp only [umap_find, Option.isNone_none, ↓reduceIte, hall, Bool.false_eq_true, h1, h2, ih]

/-- C22 as stated fails: on scenario S3 (state `{P(A)}`, goal `{Q(A)}`, no schema) the
expanded layer of the state is the state again, and `get_heuristic_multi` returns for no
depth of recursion. -/
theorem relaxed_heuristic_diverges :
    ¬ ∃ (strHash : String → Nat) (fuel0 fuel : Nat) (r : Int × heuristics_t),
      get_heuristic_multi strHash fuel0 (goal_state scenario_S3) scenario_S3 fuel []
        (start_state scenario_S3) = .ok r := by
  rintro ⟨strHash, fuel0, fuel, r, h⟩
  rw [get_heuristic_multi_diverges strHash fuel0 (goal_state scenario_S3) scenario_S3
    (start_state scenario_S3) (by decide) ⟨⟨[⟨"P", ["A"], true⟩], [⟨"P", ["A"], true⟩]⟩, by
      simp only [GraphPlanLayer.add_actions, GraphPlanLayer.new,
        get_actions_no_schema fuel0 _ scenario_S3 rfl]
      rfl, rfl⟩ fuel] at h
  exact Except.noConfusion h

theorem get_heuristic_multi_total (strHash : String → Nat) (fuel0 : Nat) (goal : state_t)
    (env : Env) (S : state_t) (k : Nat) (h : relaxed_reaches fuel0 env goal S k) :
    ∀ (fuel : Nat) (hm : heuristics_t), k ≤ fuel →
      ∃ v hm2, get_heuristic_multi strHash fuel0 goal env fuel hm S = .ok (v, hm2) := by
  induction h with
  | @here S hS =>
    intro fuel hm _
    cases hkey : umap_find augmented_eq hm (S, hash_state strHash S) with
    | none => exact ⟨_, _, get_heuristic_multi_goal strHash fuel0 goal env S hm fuel hkey hS⟩
    | some v =>
      unfold get_heuristic_multi
      simp only [hkey, Option.isNone_some, Bool.false_eq_true, ↓reduceIte]
      exact ⟨_, _, rfl⟩
  | @next S layer k hS hlayer _ ih =>
    intro fuel hm hk
    obtain ⟨m, rfl⟩ : ∃ m, fuel = m + 1 := ⟨fuel - 1, by omega⟩
    cases hkey : umap_find augmented_eq hm (S, hash_state strHash S) with
    | none =>
      obtain ⟨v, hm2, e⟩ := ih m hm (by omega)
      exact ⟨_, _, get_heuristic_multi_step strHash fuel0 goal env S hm hm2 m layer v hkey hS
        hlayer e⟩
    | some v =>
      unfold get_heuristic_multi
      simp only [hkey, Option.isNone_some, Bool.false_eq_true, ↓reduceIte]
      exact ⟨_, _, rfl⟩

theorem get_heuristic_multi_value (strHash : String → Nat) (fuel0 : Nat) (goal : state_t)
    (env : Env) (S : state_t) (k : Nat) (h : relaxed_reaches fuel0 env goal S k) :
    ∀ (fuel : Nat), k ≤ fuel →
      ∃ hm2, get_heuristic_multi strHash fuel0 goal env fuel [] S = .ok ((k : Int), hm2) := by
  induction h with
  | @here S hS =>
    intro fuel _
    exact ⟨_, get_heuristic_multi_goal strHash fuel0 goal env S [] fuel rfl hS⟩
  | @next S layer k hS hlayer _ ih =>
    intro fuel hk
    obtain ⟨m, rfl⟩ : ∃ m, fuel = m + 1 := ⟨fuel - 1, by omega⟩
    obtain ⟨hm2, e⟩ := ih m (by omega)
    refine ⟨umap_set augmented_eq hm2 (S, hash_state strHash S) ((k : Int) + 1), ?_⟩
    rw [get_heuristic_multi_step strHash fuel0 goal env S [] hm2 m layer k rfl hS hlayer e]
    simp

/-- From an empty cache, `get_heuristic_multi` returns a value only when some relaxed layer
over the state contains the goal; the value is the number of the first such layer. -/
theorem get_heuristic_multi_returns (strHash : String → Nat) (fuel0 : Nat) (goal : state_t)
    (env : Env) :
    ∀ (fuel : Nat) (S : state_t) (v : Int) (hm2 : heuristics_t),
      get_heuristic_multi strHash fuel0 goal env fuel [] S = .ok (v, hm2) →
        ∃ k : Nat, v = (k : Int) ∧ k ≤ fuel ∧ relaxed_reaches fuel0 env goal S k := by
  intro fuel
  induction fuel with
  | zero =>
    intro S v hm2 h
    by_cases hg : ∀ g ∈ goal, g ∈ S
    · rw [get_heuristic_multi_goal strHash fuel0 goal env S [] 0 rfl hg] at h
      simp only [Except.ok.injEq, Prod.mk.injEq] at h
      exact ⟨0, by rw [← h.1]; rfl, le_refl _, relaxed_reaches.here hg⟩
    · rw [get_heuristic_multi_zero strHash fuel0 goal env S [] rfl hg] at h
      exact Except.noConfusion h
  | succ n ih =>
    intro S v hm2 h
    by_cases hg : ∀ g ∈ goal, g ∈ S
    · rw [get_heuristic_multi_goal strHash fuel0 goal env S [] (n + 1) rfl hg] at h
      simp only [Except.ok.injEq, Prod.mk.injEq] at h
      exact ⟨0, by rw [← h.1]; rfl, Nat.zero_le _, relaxed_reaches.here hg⟩
    · have hall : goal.all (fun condition => decide (condition ∈ S)) = false := by
        cases hb : goal.all (fun condition => decide (condition ∈ S)) with
        | false => rfl
        | true => exact absurd ((goal_all_eq_true goal S).1 hb) hg
      cases hl : (GraphPlanLayer.new S).add_actions fuel0 env with
      | error e =>
        rw [get_heuristic_multi] at h
        simp only [umap_find, Option.isNone_none, ↓reduceIte, hall, Bool.false_eq_true, hl] at h
        exact Except.noConfusion h
      | ok layer =>
        cases hrec : get_heuristic_multi strHash fuel0 goal env n [] layer.conditions with
        | error e =>
          rw [get_heuristic_multi] at h
          simp only [umap_find, Option.isNone_none, ↓reduceIte, hall, Bool.false_eq_true, hl,
            hrec] at h
          exact Except.noConfusion h
        | ok p =>
          obtain ⟨r, hm3⟩ := p
          rw [get_heuristic_multi_step strHash fuel0 goal env S [] hm3 n layer r rfl hg hl
            hrec] at h
          simp only [Except.ok.injEq, Prod.mk.injEq] at h
          obtain ⟨k, hk1, hk2, hk3⟩ := ih layer.conditions r hm3 hrec
          refine ⟨k + 1, ?_, by omega, relaxed_reaches.next hg hl hk3⟩
          rw [← h.1, hk1]
          push_cast
          rfl

/-- C22 (amended): when the `k`-th relaxed layer over `S` is the first that contains every
literal of `G`, the recursion of `get_heuristic_multi(S, G, env)` returns at depth `k`,
whatever the cache holds; on a state that is not in the cache it returns 0 when every
literal of `G` is in `S` and otherwise 1 plus its value on the expanded layer of `S`; from
an empty cache the value is `k`, and from an empty cache the recursion returns a value only
when some relaxed layer over `S` contains every literal of `G`. -/
theorem relaxed_heuristic_termination (strHash : String → Nat) (fuel0 : Nat) (env : Env)
    (G : state_t) :
    (∀ (S : state_t) (k : Nat), relaxed_reaches fuel0 env G S k →
      ∀ (fuel : Nat) (hm : heuristics_t), k ≤ fuel →
        ∃ v hm2, get_heuristic_multi strHash fuel0 G env fuel hm S = .ok (v, hm2)) ∧
    (∀ (S : state_t) (hm : heuristics_t) (fuel : Nat),
      umap_find augmented_eq hm (S, hash_state strHash S) = none → (∀ g ∈ G, g ∈ S) →
        get_heuristic_multi strHash fuel0 G env fuel hm S =
          .ok (0, umap_set augmented_eq hm (S, hash_state strHash S) 0)) ∧
    (∀ (S : state_t) (hm hm2 : heuristics_t) (fuel : Nat) (layer : GraphPlanLayer) (r : Int),
      umap_find augmented_eq hm (S, hash_state strHash S) = none → (¬ ∀ g ∈ G, g ∈ S) →
      (GraphPlanLayer.new S).add_actions fuel0 env = .ok layer →
      get_heuristic_multi strHash fuel0 G env fuel hm layer.conditions = .ok (r, hm2) →
        get_heuristic_multi strHash fuel0 G env (fuel + 1) hm S =
          .ok (r + 1, umap_set augmented_eq hm2 (S, hash_state strHash S) (r + 1))) ∧
    (∀ (S : state_t) (k : Nat), relaxed_reaches fuel0 env G S k →
      ∀ (fuel : Nat), k ≤ fuel →
        ∃ hm2, get_heuristic_multi strHash fuel0 G env fuel [] S = .ok ((k : Int), hm2)) ∧
    (∀ (fuel : Nat) (S : state_t) (v : Int) (hm2 : heuristics_t),
      get_heuristic_multi strHash fuel0 G env fuel [] S = .ok (v, hm2) →
        ∃ k : Nat, v = (k : Int) ∧ k ≤ fuel ∧ relaxed_reaches fuel0 env G S k) :=
  ⟨get_heuristic_multi_total strHash fuel0 G env,
    fun S hm fuel => get_heuristic_multi_goal strHash fuel0 G env S hm fuel,
    fun S hm hm2 fuel layer r => get_heuristic_multi_step strHash fuel0 G env S hm hm2 fuel layer r,
    get_heuristic_multi_value strHash fuel0 G env,
    get_heuristic_multi_returns strHash fuel0 G env⟩

/-- C22 witness: on scenario S4 the second relaxed layer over `{P(A)}` is the first that
contains the goal `R(A)`, and `get_heuristic_multi` returns 2. -/
theorem relaxed_heuristic_termination_witness :
    relaxed_reaches 3 scenario_S4 (goal_state scenario_S4) (start_state scenario_S4) 2 ∧
    ∃ hm2, get_heuristic_multi String.length 3 (goal_state scenario_S4) scenario_S4 2 []
      (start_state scenario_S4) = .ok (2, hm2) := by
  have h1 : (GraphPlanLayer.new (start_state scenario_S4)).add_actions 3 scenario_S4 =
      .ok ⟨[⟨"P", ["A"], true⟩],
        [⟨"P", ["A"], true⟩, ⟨"Q", ["A"], true⟩, ⟨"P", ["A"], false⟩]⟩ := by decide
  have h2 : (GraphPlanLayer.new
      [⟨"P", ["A"], true⟩, ⟨"Q", ["A"], true⟩, ⟨"P", ["A"], false⟩]).add_actions 3 scenario_S4 =
      .ok ⟨[⟨"P", ["A"], true⟩, ⟨"Q", ["A"], true⟩, ⟨"P", ["A"], false⟩],
        [⟨"P", ["A"], true⟩, ⟨"Q", ["A"], true⟩, ⟨"P", ["A"], false⟩, ⟨"R", ["A"], true⟩,
          ⟨"Q", ["A"], false⟩]⟩ := by decide
  have h : relaxed_reaches 3 scenario_S4 (goal_state scenario_S4) (start_state scenario_S4) 2 :=
    relaxed_reaches.next (by decide) h1
      (relaxed_reaches.next (by decide) h2 (relaxed_reaches.here (by decide)))
  exact ⟨h, (relaxed_heuristic_termination String.length 3 scenario_S4
    (goal_state scenario_S4)).2.2.2.1 _ 2 h 2 (le_refl _)⟩

/-! ## Binding lookups during get_actions -/

/-- When the loop pops an item on which the body throws, the loop returns no result. -/
theorem stack_loop_visits_error {ι ο : Type} (body : ι → Except Err (List ο × List ι)) :
    ∀ (fuel : Nat) (stack : List ι) (out res : List ο),
      (∃ x ∈ stack, ∃ y, Visits body x y ∧ ∃ e, body y = .error e) →
        stack_loop body fuel stack out ≠ .ok res := by
  intro fuel
  induction fuel with
  | zero =>
    rintro stack out res ⟨x, hx, _⟩
    cases stack with
    | nil => exact absurd hx (List.not_mem_nil x)
    | cons x0 xs => simp [stack_loop]
  | succ n ih =>
    rintro stack out res ⟨x, hx, y, hv, e, he⟩
    cases stack with
    | nil => exact absurd hx (List.not_mem_nil x)
    | cons x0 xs =>
      simp only [stack_loop]
      cases hb : body x0 with
      | error e0 => simp
      | ok rp =>
        obtain ⟨results, pushed⟩ := rp
        simp only
        apply ih
        rcases List.mem_cons.1 hx with hx | hx
        · subst hx
          cases hv with
          | self =>
            rw [hb] at he
            exact Except.noConfusion he
          | push hb2 hz hv2 =>
            rw [hb] at hb2
            simp only [Except.ok.injEq, Prod.mk.injEq] at hb2
            obtain ⟨_, e2⟩ := hb2
            subst e2
            exact ⟨_, List.mem_append_left _ (List.mem_reverse.2 hz), y, hv2, e, he⟩
        · exact ⟨x, List.mem_append_right _ hx, y, hv, e, he⟩

/-- An invariant of the items holds on every item that the loop pops. -/
theorem visits_inv {ι ο : Type} (body : ι → Except Err (List ο × List ι)) (I : ι → Prop)
    (hbody : ∀ x results pushed, I x → body x = .ok (results, pushed) → ∀ y ∈ pushed, I y)
    (x y : ι) (h : Visits body x y) : I x → I y := by
  induction h with
  | self x => exact fun hx => hx
  | push hb hy _ ih => exact fun hx => ih (hbody _ _ _ hx hb _ hy)

theorem condition_ground_error (c : Condition) (b : bindings_t) (e : Err)
    (h : c.ground b = .error e) : e = .out_of_range := by
  unfold Condition.ground at h
  cases hr : ground_args b c.args with
  | error e2 =>
    simp only [hr, Except.error.injEq] at h
    rw [← h]
    exact ground_args_error b c.args e2 hr
  | ok vs => simp [hr] at h

theorem ground_effects_error (b : bindings_t) (effects : List Condition) :
    ∀ (acc : state_t) (e : Err), ground_effects b effects acc = .error e → e = .out_of_range := by
  induction effects with
  | nil => intro acc e h; simp [ground_effects] at h
  | cons c cs ih =>
    intro acc e h
    simp only [ground_effects] at h
    cases hc : c.ground b with
    | error e2 =>
      simp only [hc, Except.error.injEq] at h
      rw [← h]
      exact condition_ground_error c b e2 hc
    | ok g =>
      simp only [hc] at h
      exact ih _ e h

/-- `Action::ground` throws nothing but `std::out_of_range`. -/
theorem action_ground_error (a : Action) (b : bindings_t) (e : Err)
    (h : a.ground b = .error e) : e = .out_of_range := by
  unfold Action.ground at h
  cases hg : ground_args b a.args with
  | error e2 =>
    simp only [hg, Except.error.injEq] at h
    rw [← h]
    exact ground_args_error b a.args e2 hg
  | ok vs =>
    simp only [hg] at h
    cases hf : ground_effects b a.effects [] with
    | error e2 =>
      simp only [hf, Except.error.injEq] at h
      rw [← h]
      exact ground_effects_error b a.effects [] e2 hf
    | ok eff => simp [hf] at h

/-- A binding whose keys are symbols or precondition arguments does not ground a schema
that is not well-formed. -/
theorem action_ground_not_wf (symbols : List String) (a : Action) (b : bindings_t)
    (hk : ∀ s v, bindings_find b s = some v → s ∈ symbols ∨ ∃ c ∈ a.preconditions, s ∈ c.args)
    (hwf : ¬ a.wf symbols) : a.ground b = .error .out_of_range := by
  cases hg : a.ground b with
  | error e => rw [action_ground_error a b e hg]
  | ok pair =>
    exfalso
    obtain ⟨h1, h2, _⟩ := (action_ground_ok_iff a b pair).1 hg
    apply hwf
    have key : ∀ s, (bindings_find b s).isSome = true →
        s ∈ symbols ∨ ∃ c ∈ a.preconditions, s ∈ c.args := by
      intro s hs
      cases hf : bindings_find b s with
      | none => simp [hf] at hs
      | some v => exact hk s v hf
    exact ⟨fun x hx => key x (h1 x hx), fun e he x hx => key x (h2 e he x hx)⟩

/-- The items of the loop of `get_actions` bind symbols and precondition arguments only. -/
theorem get_actions_body_keys (fuel : Nat) (state : state_t) (symbols : List String)
    (a : Action) :
    ∀ x results pushed,
      (get_actions_inv state symbols a.preconditions x ∧
        ∀ s v, bindings_find x.1 s = some v → s ∈ symbols ∨ ∃ c ∈ a.preconditions, s ∈ c.args) →
      get_actions_body fuel state symbols a a.preconditions x = .ok (results, pushed) →
      ∀ y ∈ pushed, get_actions_inv state symbols a.preconditions y ∧
        ∀ s v, bindings_find y.1 s = some v → s ∈ symbols ∨ ∃ c ∈ a.preconditions, s ∈ c.args := by
  rintro ⟨b, index⟩ results pushed ⟨hI, hK⟩ hb y hy
  refine ⟨(get_actions_body_inv fuel state symbols [a] a (List.mem_singleton.2 rfl) _ _ _
    hI hb).2 y hy, ?_⟩
  by_cases hi : index = a.preconditions.length
  · subst hi
    rw [get_actions_body_complete_index] at hb
    cases hg : a.ground b with
    | error e => simp [hg] at hb
    | ok grounded =>
      simp only [hg, Except.ok.injEq, Prod.mk.injEq] at hb
      obtain ⟨_, e2⟩ := hb
      subst e2
      exact absurd hy (List.not_mem_nil y)
  · have hlt : index < a.preconditions.length := lt_of_le_of_ne hI.1 hi
    rw [get_actions_body_other_index _ _ _ _ _ _ _ hlt] at hb
    cases hm : (a.preconditions[index]).match_ fuel b state symbols with
    | error e => simp [hm] at hb
    | ok nbs =>
      simp only [hm, Except.ok.injEq, Prod.mk.injEq] at hb
      obtain ⟨_, e2⟩ := hb
      subst e2
      obtain ⟨nb, hnb, rfl⟩ := List.mem_map.1 hy
      obtain ⟨_, _, p3⟩ := match_sound _ fuel b state symbols nbs hm nb hnb
      intro s v hv
      rcases p3 s v hv with hv | ⟨_, _, hv⟩
      · exact hK s v hv
      · exact Or.inr ⟨_, List.getElem_mem hlt, (List.mem_filter.1 hv).1⟩

theorem bindings_base_keys (symbols : List String) (a : Action) :
    ∀ s v, bindings_find (bindings_base symbols) s = some v →
      s ∈ symbols ∨ ∃ c ∈ a.preconditions, s ∈ c.args := by
  intro s v hv
  rw [bindings_base_find] at hv
  by_cases hs : s ∈ symbols
  · exact Or.inl hs
  · rw [if_neg hs] at hv
    exact Option.noConfusion hv

/-- On a schema that is not well-formed, `Action::ground` throws on every complete binding
that the loop of `get_actions` pops. -/
theorem complete_binding_throws (fuel : Nat) (state : state_t) (symbols : List String)
    (a : Action) (hwf : ¬ a.wf symbols) (b : bindings_t)
    (hv : Visits (get_actions_body fuel state symbols a a.preconditions)
      (bindings_base symbols, 0) (b, a.preconditions.length)) :
    a.ground b = .error .out_of_range ∧
      get_actions_body fuel state symbols a a.preconditions (b, a.preconditions.length) =
        .error .out_of_range := by
  have hinv := visits_inv _ _ (get_actions_body_keys fuel state symbols a) _ _ hv
    ⟨get_actions_inv_init _ _ _, bindings_base_keys symbols a⟩
  have hg := action_ground_not_wf symbols a b hinv.2 hwf
  refine ⟨hg, ?_⟩
  rw [get_actions_body_complete_index, hg]

/-- When the loop of one schema pops an item on which the body throws, `get_actions`
returns no result. -/
theorem get_actions_from_throws (fuel : Nat) (state : state_t) (symbols : List String)
    (a : Action) (y : bindings_t × Nat) (e : Err)
    (hv : Visits (get_actions_body fuel state symbols a a.preconditions)
      (bindings_base symbols, 0) y)
    (he : get_actions_body fuel state symbols a a.preconditions y = .error e) :
    ∀ (rest : List Action) (out res : List (GroundedAction × state_t)), a ∈ rest →
      get_actions_from fuel state symbols rest out ≠ .ok res := by
  intro rest
  induction rest with
  | nil => intro out res ha; exact absurd ha (List.not_mem_nil a)
  | cons a2 rest ih =>
    intro out res ha
    simp only [get_actions_from]
    cases hl : stack_loop (get_actions_body fuel state symbols a2 a2.preconditions) fuel
        [(bindings_base symbols, 0)] out with
    | error e2 => simp
    | ok out2 =>
      simp only
      rcases List.mem_cons.1 ha with ha | ha
      · subst ha
        exact absurd hl (stack_loop_visits_error _ fuel _ out out2
          ⟨_, List.mem_singleton.2 rfl, y, hv, e, he⟩)
      · exact ih out2 res ha

/-- The body of the loop of `get_actions` does not run out of fuel, given `match_fuel`. -/
theorem get_actions_body_fuel (fuel : Nat) (state : state_t) (symbols : List String) (a : Action)
    (hfuel : match_fuel symbols a ≤ fuel) (x : bindings_t × Nat)
    (h : get_actions_inv state symbols a.preconditions x) :
    get_actions_body fuel state symbols a a.preconditions x ≠ .error .out_of_fuel := by
  obtain ⟨b, index⟩ := x
  by_cases hi : index = a.preconditions.length
  · subst hi
    rw [get_actions_body_complete_index]
    cases hg : a.ground b with
    | error e =>
      rw [action_ground_error a b e hg]
      exact fun h => Except.noConfusion h (fun h2 => Err.noConfusion h2)
    | ok grounded => exact fun h => Except.noConfusion h
  · have hlt : index < a.preconditions.length := lt_of_le_of_ne h.1 hi
    rw [get_actions_body_other_index _ _ _ _ _ _ _ hlt]
    obtain ⟨res, hres⟩ := match_total (a.preconditions[index]) fuel b state symbols
      (le_trans (pow_args_le_match_fuel symbols a _ (List.getElem_mem hlt)) hfuel)
    rw [hres]
    exact fun h => Except.noConfusion h

/-- The loop of `get_actions` for one schema, well-formed or not, ends within
`action_fuel`. -/
theorem get_actions_loop_fuel (fuel : Nat) (state : state_t) (symbols : List String)
    (a : Action) (hfuel : action_fuel symbols a ≤ fuel) (out : List (GroundedAction × state_t)) :
    stack_loop (get_actions_body fuel state symbols a a.preconditions) fuel
      [(bindings_base symbols, 0)] out ≠ .error .out_of_fuel := by
  have hmf : match_fuel symbols a ≤ fuel := le_trans (match_fuel_le_action_fuel symbols a) hfuel
  refine stack_loop_terminates (get_actions_body fuel state symbols a a.preconditions)
    (get_actions_inv state symbols a.preconditions) (fun x => a.preconditions.length - x.2)
    (match_fuel symbols a)
    (get_actions_body_rank fuel state symbols [a] a (List.mem_singleton.2 rfl))
    (fun x hx => get_actions_body_fuel fuel state symbols a hmf x hx)
    fuel _ out ?_ ?_
  · intro x hx
    rw [List.mem_singleton] at hx
    subst hx
    exact get_actions_inv_init _ _ _
  · simp only [List.map_cons, List.map_nil, List.sum_cons, List.sum_nil, Nat.sub_zero,
      Nat.add_zero]
    exact le_trans (Nat.pow_le_pow_right (by omega) (Nat.le_succ _)) hfuel

theorem get_actions_from_fuel (fuel : Nat) (state : state_t) (symbols : List String) :
    ∀ (rest : List Action) (out : List (GroundedAction × state_t)),
      (rest.map (action_fuel symbols)).sum ≤ fuel →
        get_actions_from fuel state symbols rest out ≠ .error .out_of_fuel := by
  intro rest
  induction rest with
  | nil => intro out _; exact fun h => Except.noConfusion h
  | cons a rest ih =>
    intro out hfuel
    simp only [List.map_cons, List.sum_cons] at hfuel
    simp only [get_actions_from]
    have h1 := get_actions_loop_fuel fuel state symbols a (by omega) out
    cases hl : stack_loop (get_actions_body fuel state symbols a a.preconditions) fuel
        [(bindings_base symbols, 0)] out with
    | error e =>
      simp only
      rw [hl] at h1
      exact h1
    | ok out2 =>
      simp only
      exact ih out2 (by omega)

/-- In every environment, `get_actions` ends within `get_actions_fuel`: with a result or
with `std::out_of_range`. -/
theorem get_actions_ends (fuel : Nat) (state : state_t) (env : Env)
    (hfuel : get_actions_fuel env ≤ fuel) :
    get_actions fuel state env ≠ .error .out_of_fuel :=
  get_actions_from_fuel fuel state env.symbols env.actions [] hfuel

/-- In a well-formed environment no lookup of `get_actions` throws, whatever the fuel. -/
theorem get_actions_no_throw (fuel : Nat) (state : state_t) (env : Env) (hwf : env.wf) :
    get_actions fuel state env ≠ .error .out_of_range := by
  intro h
  have hm := get_actions_mono fuel (get_actions_fuel env) state env
    (by rw [h]; exact fun h2 => Except.noConfusion h2 (fun h3 => Err.noConfusion h3))
  obtain ⟨res, hres⟩ := get_actions_total (fuel + get_actions_fuel env) state env hwf (by omega)
  rw [hm, h] at hres
  exact Except.noConfusion hres

/-- From an item with `complete_inv`, the loop of `get_actions` pops a complete binding that
agrees with `τ`, on every schema, well-formed or not. -/
theorem get_actions_visits_complete (fuel : Nat) (state : state_t) (symbols : List String)
    (a : Action) (hfuel : match_fuel symbols a ≤ fuel) (τ : String → String)
    (hsym : ∀ s ∈ symbols, τ s = s)
    (hvar : ∀ c ∈ a.preconditions, ∀ x ∈ c.args, x ∉ symbols → τ x ∈ symbols)
    (hinj : ∀ c1 ∈ a.preconditions, ∀ x ∈ c1.args, ∀ c2 ∈ a.preconditions, ∀ y ∈ c2.args,
      x ∉ symbols → y ∉ symbols → τ x = τ y → x = y)
    (hpre : ∀ c ∈ a.preconditions, c.instantiate τ ∈ state) :
    ∀ (k : Nat) (b : bindings_t) (index : Nat), a.preconditions.length - index = k →
      complete_inv state symbols a.preconditions τ (b, index) →
      ∃ b2, Visits (get_actions_body fuel state symbols a a.preconditions) (b, index)
        (b2, a.preconditions.length) ∧ agrees b2 τ := by
  intro k
  induction k with
  | zero =>
    intro b index hk ⟨hI, hag, _, _⟩
    have hi : index = a.preconditions.length := le_antisymm hI.1 (by omega)
    subst hi
    exact ⟨b, Visits.self _, hag⟩
  | succ k ih =>
    intro b index hk ⟨hI, hag, hnd, hprov⟩
    simp only at hag hnd hprov
    have hlt : index < a.preconditions.length := by omega
    have hcm : a.preconditions[index] ∈ a.preconditions := List.getElem_mem hlt
    obtain ⟨res, hres⟩ := match_total (a.preconditions[index]) fuel b state symbols
      (le_trans (pow_args_le_match_fuel symbols a _ hcm) hfuel)
    have hb : get_actions_body fuel state symbols a a.preconditions (b, index) =
        .ok ([], res.map (fun nb => (nb, index + 1))) := by
      rw [get_actions_body_other_index _ _ _ _ _ _ _ hlt, hres]
    have hτ : ∀ s ∈ (a.preconditions[index]).args.filter (fun s => (bindings_find b s).isNone),
        τ s ∈ symbols ∧ τ s ∉ used_symbols b := by
      intro s hs
      obtain ⟨hs1, hs2⟩ := List.mem_filter.1 hs
      have hsn : bindings_find b s = none := by simpa using hs2
      have hns : s ∉ symbols := by
        intro hmem
        have : bindings_find (bindings_base symbols) s = some s := by
          rw [bindings_base_find, if_pos hmem]
        rw [hI.2.1 s s this] at hsn
        exact Option.noConfusion hsn
      refine ⟨hvar _ hcm s hs1 hns, fun hu => ?_⟩
      obtain ⟨key, hk1, hk2⟩ := mem_used_symbols b _ hu
      have hkf := bindings_find_of_mem b key _ hnd hk1
      have hτk : τ key = τ s := hag key _ hkf
      rcases hprov key _ hkf with hks | ⟨c2, hc2, hkc⟩
      · rw [hsym key hks] at hτk
        exact hk2 hτk
      · by_cases hks : key ∈ symbols
        · rw [hsym key hks] at hτk
          exact hk2 hτk
        · have := hinj c2 hc2 key hkc _ hcm s hs1 hks hns hτk
          rw [this, hsn] at hkf
          exact Option.noConfusion hkf
    obtain ⟨r, hr1, hr2⟩ := match_complete _ fuel b state symbols res τ hres hag hτ (hpre _ hcm)
    have hy : (r, index + 1) ∈ res.map (fun nb => (nb, index + 1)) :=
      List.mem_map.2 ⟨r, hr1, rfl⟩
    have hI2 := (get_actions_body_inv fuel state symbols [a] a (List.mem_singleton.2 rfl) _ _ _
      hI hb).2 _ hy
    obtain ⟨_, _, p3⟩ := match_sound _ fuel b state symbols res hres r hr1
    have hJ : complete_inv state symbols a.preconditions τ (r, index + 1) := by
      refine ⟨hI2, hr2, match_keys_nodup _ fuel b state symbols res hnd hres r hr1, ?_⟩
      intro s v hv
      rcases p3 s v hv with hv | ⟨_, _, hv⟩
      · exact hprov s v hv
      · exact Or.inr ⟨_, hcm, (List.mem_filter.1 hv).1⟩
    obtain ⟨b2, hv2, hag2⟩ := ih r (index + 1) (by omega) hJ
    exact ⟨b2, Visits.push hb hy hv2, hag2⟩

/-- C26: in an environment in which every parameter and every effect argument of every
schema is a symbol or an argument of one of the schema's preconditions, no lookup
`bindings.at` of `get_actions(S, env)` fails, whatever the fuel, and `get_actions` returns
within `get_actions_fuel`.  On a schema with a parameter or effect argument that is
neither, `Action::ground` throws `std::out_of_range` on every complete binding of the
preconditions that the loop pops, and `get_actions` then returns no result: it throws.
Such a complete binding is popped whenever an assignment of pairwise different symbols to
the variables instantiates every precondition to a literal of `S`. -/
theorem grounding_lookups (S : state_t) (env : Env) :
    (env.wf → (∀ fuel, get_actions fuel S env ≠ .error .out_of_range) ∧
      ∀ fuel, get_actions_fuel env ≤ fuel → ∃ r, get_actions fuel S env = .ok r) ∧
    (∀ a ∈ env.actions, ¬ a.wf env.symbols → ∀ (fuel : Nat) (b : bindings_t),
      Visits (get_actions_body fuel S env.symbols a a.preconditions)
        (bindings_base env.symbols, 0) (b, a.preconditions.length) →
      a.ground b = .error .out_of_range ∧
      get_actions_body fuel S env.symbols a a.preconditions (b, a.preconditions.length) =
        .error .out_of_range ∧
      (∀ r, get_actions fuel S env ≠ .ok r) ∧
      (get_actions_fuel env ≤ fuel → get_actions fuel S env = .error .out_of_range)) ∧
    (∀ a ∈ env.actions, ¬ a.wf env.symbols → ∀ (τ : String → String),
      (∀ s ∈ env.symbols, τ s = s) →
      (∀ c ∈ a.preconditions, ∀ x ∈ c.args, x ∉ env.symbols → τ x ∈ env.symbols) →
      (∀ c1 ∈ a.preconditions, ∀ x ∈ c1.args, ∀ c2 ∈ a.preconditions, ∀ y ∈ c2.args,
        x ∉ env.symbols → y ∉ env.symbols → τ x = τ y → x = y) →
      (∀ c ∈ a.preconditions, c.instantiate τ ∈ S) →
      ∀ fuel, get_actions_fuel env ≤ fuel → get_actions fuel S env = .error .out_of_range) := by
  have key : ∀ a ∈ env.actions, ¬ a.wf env.symbols → ∀ (fuel : Nat) (b : bindings_t),
      Visits (get_actions_body fuel S env.symbols a a.preconditions)
        (bindings_base env.symbols, 0) (b, a.preconditions.length) →
      a.ground b = .error .out_of_range ∧
      get_actions_body fuel S env.symbols a a.preconditions (b, a.preconditions.length) =
        .error .out_of_range ∧
      (∀ r, get_actions fuel S env ≠ .ok r) ∧
      (get_actions_fuel env ≤ fuel → get_actions fuel S env = .error .out_of_range) := by
    intro a ha hwf fuel b hv
    obtain ⟨h1, h2⟩ := complete_binding_throws fuel S env.symbols a hwf b hv
    have h3 : ∀ r, get_actions fuel S env ≠ .ok r := fun r =>
      get_actions_from_throws fuel S env.symbols a _ _ hv h2 env.actions [] r ha
    refine ⟨h1, h2, h3, fun hfuel => ?_⟩
    have h4 := get_actions_ends fuel S env hfuel
    cases hr : get_actions fuel S env with
    | ok r => exact absurd hr (h3 r)
    | error e =>
      cases e with
      | out_of_range => rfl
      | out_of_fuel => exact absurd hr h4
  refine ⟨fun hwf => ⟨fun fuel => get_actions_no_throw fuel S env hwf,
    fun fuel hfuel => get_actions_total fuel S env hwf hfuel⟩, key, ?_⟩
  intro a ha hwf τ hsym hvar hinj hpre fuel hfuel
  have hmf : match_fuel env.symbols a ≤ fuel := by
    refine le_trans (match_fuel_le_action_fuel env.symbols a) (le_trans ?_ hfuel)
    exact List.single_le_sum (fun _ _ => Nat.zero_le _) _ (List.mem_map.2 ⟨a, ha, rfl⟩)
  obtain ⟨b, hv, _⟩ := get_actions_visits_complete fuel S env.symbols a hmf τ hsym hvar hinj
    hpre _ (bindings_base env.symbols) 0 rfl (complete_inv_init S env.symbols a.preconditions τ hsym)
  exact (key a ha hwf fuel b hv).2.2.2 hfuel

/-- C26 witness: scenario S1 is well-formed and `get_actions` returns in its initial state;
in `env_bad_schema` the schema `Bad(x)` has no precondition, its parameter `x` is no symbol,
the base binding is complete for it, and `get_actions` throws. -/
theorem grounding_lookups_witness :
    scenario_S1.wf ∧
    (∃ r, get_actions (get_actions_fuel scenario_S1) (start_state scenario_S1) scenario_S1 =
      .ok r) ∧
    (¬ Action.wf env_bad_schema.symbols ⟨"Bad", ["x"], [], [⟨"Z", ["x"], true⟩]⟩) ∧
    get_actions (get_actions_fuel env_bad_schema) (start_state env_bad_schema) env_bad_schema =
      .error .out_of_range :=
  ⟨by unfold Env.wf Action.wf; decide,
    ((grounding_lookups (start_state scenario_S1) scenario_S1).1
      (by unfold Env.wf Action.wf; decide)).2 _ (le_refl _),
    by unfold Action.wf; decide,
    ((grounding_lookups (start_state env_bad_schema) env_bad_schema).2.1
      ⟨"Bad", ["x"], [], [⟨"Z", ["x"], true⟩]⟩ (by decide) (by unfold Action.wf; decide)
      (get_actions_fuel env_bad_schema) (bindings_base env_bad_schema.symbols)
      (Visits.self _)).2.2.2 (le_refl _)⟩

/-! ## The iterations of the main loop -/

theorem planner_step_none (strHash : String → Nat) (fuel0 : Nat) (hm : heuristics_t) (env : Env)
    (start goal : state_t) (st : planner_state) (h : pq_pop st.queue = none) :
    planner_step strHash fuel0 hm env start goal st = .ok (.inl ⟨[], none, st⟩) := by
  simp [planner_step, h]

theorem planner_step_seen (strHash : String → Nat) (fuel0 : Nat) (hm : heuristics_t) (env : Env)
    (start goal : state_t) (st : planner_state) (node : node_t) (queue : List node_t)
    (h : pq_pop st.queue = some (node, queue))
    (hs : (umap_find state_eq st.parents node.1.2).isSome = true) :
    planner_step strHash fuel0 hm env start goal st =
      .ok (.inr ⟨st.parents, st.cost, queue, st.heuristics_naive, st.count + 1⟩) := by
  simp only [planner_step, h, hs, ↓reduceIte]

/-- An iteration on a new state that passes the goal test ends the loop. -/
theorem planner_step_goal (strHash : String → Nat) (fuel0 : Nat) (env : Env)
    (start goal : state_t) (st : planner_state) (node : node_t) (queue : List node_t)
    (plan : List GroundedAction)
    (h : pq_pop st.queue = some (node, queue))
    (hs : umap_find state_eq st.parents node.1.2 = none)
    (h0 : goal.foldl (fun (res : Int) condition =>
      if condition ∉ node.1.2 then res + 1 else res) 0 = 0)
    (hr : reconstruct (st.parents ++ [(node.1.2, (node.1.1.1, node.1.1.2))]) start fuel0
      node.1.2 [] = .ok plan) :
    planner_step strHash fuel0 [] env start goal st =
      .ok (.inl ⟨plan, some node.1.2,
        ⟨st.parents ++ [(node.1.2, (node.1.1.1, node.1.1.2))],
          umap_set state_eq (umap_index state_eq st.cost node.1.1.1).2 node.1.2
            ((umap_index state_eq st.cost node.1.1.1).1 + 1), queue,
          umap_set augmented_eq st.heuristics_naive (node.1.2, hash_state strHash node.1.2) 0,
          st.count + 1⟩⟩) := by
  simp only [planner_step, h, hs, Option.isSome_none, Bool.false_eq_true, ↓reduceIte,
    get_heuristic_naive_empty, umap_set_of_not_found state_eq st.parents node.1.2 _ hs, h0, hr]

theorem planner_step_goal_error (strHash : String → Nat) (fuel0 : Nat) (env : Env)
    (start goal : state_t) (st : planner_state) (node : node_t) (queue : List node_t)
    (e : Err)
    (h : pq_pop st.queue = some (node, queue))
    (hs : umap_find state_eq st.parents node.1.2 = none)
    (h0 : goal.foldl (fun (res : Int) condition =>
      if condition ∉ node.1.2 then res + 1 else res) 0 = 0)
    (hr : reconstruct (st.parents ++ [(node.1.2, (node.1.1.1, node.1.1.2))]) start fuel0
      node.1.2 [] = .error e) :
    planner_step strHash fuel0 [] env start goal st = .error e := by
  simp only [planner_step, h, hs, Option.isSome_none, Bool.false_eq_true, ↓reduceIte,
    get_heuristic_naive_empty, umap_set_of_not_found state_eq st.parents node.1.2 _ hs, h0, hr]

/-- An iteration on a new state that fails the goal test pushes the nodes of its ground
actions. -/
theorem planner_step_expand (strHash : String → Nat) (fuel0 : Nat) (env : Env)
    (start goal : state_t) (st : planner_state) (node : node_t) (queue : List node_t)
    (r : List (GroundedAction × state_t))
    (h : pq_pop st.queue = some (node, queue))
    (hs : umap_find state_eq st.parents node.1.2 = none)
    (h0 : ¬ goal.foldl (fun (res : Int) condition =>
      if condition ∉ node.1.2 then res + 1 else res) 0 = 0)
    (hr : get_actions fuel0 node.1.2 env = .ok r) :
    ∃ hn2, planner_expand strHash [] goal node.1.2
        (umap_set state_eq (umap_index state_eq st.cost node.1.1.1).2 node.1.2
          ((umap_index state_eq st.cost node.1.1.1).1 + 1)) r queue
        (umap_set augmented_eq st.heuristics_naive (node.1.2, hash_state strHash node.1.2)
          (goal.foldl (fun (res : Int) condition =>
            if condition ∉ node.1.2 then res + 1 else res) 0)) =
        .ok (queue ++ r.map (new_node goal node.1.2
          ((umap_index state_eq st.cost node.1.1.1).1 + 1)), hn2) ∧
      planner_step strHash fuel0 [] env start goal st =
      .ok (.inr ⟨st.parents ++ [(node.1.2, (node.1.1.1, node.1.1.2))],
        umap_set state_eq (umap_index state_eq st.cost node.1.1.1).2 node.1.2
          ((umap_index state_eq st.cost node.1.1.1).1 + 1),
        queue ++ r.map (new_node goal node.1.2 ((umap_index state_eq st.cost node.1.1.1).1 + 1)),
        hn2, st.count + 1⟩) := by
  obtain ⟨hn2, e1⟩ := planner_expand_eq strHash goal node.1.2
    (umap_set state_eq (umap_index state_eq st.cost node.1.1.1).2 node.1.2
      ((umap_index state_eq st.cost node.1.1.1).1 + 1))
    ((umap_index state_eq st.cost node.1.1.1).1 + 1)
    (umap_find_set_self state_eq state_eq_refl _ _ _) r queue
    (umap_set augmented_eq st.heuristics_naive (node.1.2, hash_state strHash node.1.2)
      (goal.foldl (fun (res : Int) condition =>
        if condition ∉ node.1.2 then res + 1 else res) 0))
  refine ⟨hn2, e1, ?_⟩
  simp only [planner_step, h, hs, Option.isSome_none, Bool.false_eq_true, ↓reduceIte,
    get_heuristic_naive_empty, umap_set_of_not_found state_eq st.parents node.1.2 _ hs, h0, hr,
    e1]

theorem planner_step_expand_error (strHash : String → Nat) (fuel0 : Nat) (env : Env)
    (start goal : state_t) (st : planner_state) (node : node_t) (queue : List node_t)
    (e : Err)
    (h : pq_pop st.queue = some (node, queue))
    (hs : umap_find state_eq st.parents node.1.2 = none)
    (h0 : ¬ goal.foldl (fun (res : Int) condition =>
      if condition ∉ node.1.2 then res + 1 else res) 0 = 0)
    (hr : get_actions fuel0 node.1.2 env = .error e) :
    planner_step strHash fuel0 [] env start goal st = .error e := by
  simp only [planner_step, h, hs, Option.isSome_none, Bool.false_eq_true, ↓reduceIte,
    get_heuristic_naive_empty, umap_set_of_not_found state_eq st.parents node.1.2 _ hs, h0, hr]

/-- The iterations that do not end the loop: the dequeued state was seen, or it is new,
fails the goal test and is expanded. -/
theorem planner_step_continue (strHash : String → Nat) (fuel0 : Nat) (env : Env)
    (start goal : state_t) (st st2 : planner_state)
    (h : planner_step strHash fuel0 [] env start goal st = .ok (.inr st2)) :
    ∃ node rest, pq_pop st.queue = some (node, rest) ∧
      (((umap_find state_eq st.parents node.1.2).isSome = true ∧
          st2 = ⟨st.parents, st.cost, rest, st.heuristics_naive, st.count + 1⟩) ∨
        (umap_find state_eq st.parents node.1.2 = none ∧
          (¬ goal.foldl (fun (res : Int) condition =>
            if condition ∉ node.1.2 then res + 1 else res) 0 = 0) ∧
          ∃ r hn2, get_actions fuel0 node.1.2 env = .ok r ∧
            st2 = ⟨st.parents ++ [(node.1.2, (node.1.1.1, node.1.1.2))],
              umap_set state_eq (umap_index state_eq st.cost node.1.1.1).2 node.1.2
                ((umap_index state_eq st.cost node.1.1.1).1 + 1),
              rest ++ r.map (new_node goal node.1.2
                ((umap_index state_eq st.cost node.1.1.1).1 + 1)),
              hn2, st.count + 1⟩)) := by
  cases hpop : pq_pop st.queue with
  | none =>
    rw [planner_step_none _ _ _ _ _ _ _ hpop] at h
    simp at h
  | some p =>
    obtain ⟨node, rest⟩ := p
    refine ⟨node, rest, rfl, ?_⟩
    cases hs : umap_find state_eq st.parents node.1.2 with
    | some v =>
      rw [planner_step_seen _ _ _ _ _ _ _ node rest hpop (by simp [hs])] at h
      simp only [Except.ok.injEq, Sum.inr.injEq] at h
      exact Or.inl ⟨rfl, h.symm⟩
    | none =>
      right
      by_cases h0 : goal.foldl (fun (res : Int) condition =>
          if condition ∉ node.1.2 then res + 1 else res) 0 = 0
      · cases hr : reconstruct (st.parents ++ [(node.1.2, (node.1.1.1, node.1.1.2))]) start
            fuel0 node.1.2 [] with
        | error e =>
          rw [planner_step_goal_error _ _ _ _ _ _ node rest e hpop hs h0 hr] at h
          exact Except.noConfusion h
        | ok plan =>
          rw [planner_step_goal _ _ _ _ _ _ node rest plan hpop hs h0 hr] at h
          simp at h
      · refine ⟨rfl, h0, ?_⟩
        cases hr : get_actions fuel0 node.1.2 env with
        | error e =>
          rw [planner_step_expand_error _ _ _ _ _ _ node rest e hpop hs h0 hr] at h
          exact Except.noConfusion h
        | ok r =>
          obtain ⟨hn2, _, e1⟩ := planner_step_expand strHash fuel0 env start goal st node rest r
            hpop hs h0 hr
          rw [e1] at h
          simp only [Except.ok.injEq, Sum.inr.injEq] at h
          exact ⟨r, hn2, rfl, h.symm⟩

/-- The iterations that end the loop: the queue is empty, or the dequeued state is new and
passes the goal test. -/
theorem planner_step_done (strHash : String → Nat) (fuel0 : Nat) (env : Env)
    (start goal : state_t) (st : planner_state) (out : planner_result)
    (h : planner_step strHash fuel0 [] env start goal st = .ok (.inl out)) :
    (pq_pop st.queue = none ∧ out = ⟨[], none, st⟩) ∨
    ∃ node rest plan, pq_pop st.queue = some (node, rest) ∧
      umap_find state_eq st.parents node.1.2 = none ∧
      goal.foldl (fun (res : Int) condition =>
        if condition ∉ node.1.2 then res + 1 else res) 0 = 0 ∧
      reconstruct (st.parents ++ [(node.1.2, (node.1.1.1, node.1.1.2))]) start fuel0
        node.1.2 [] = .ok plan ∧
      out = ⟨plan, some node.1.2,
        ⟨st.parents ++ [(node.1.2, (node.1.1.1, node.1.1.2))],
          umap_set state_eq (umap_index state_eq st.cost node.1.1.1).2 node.1.2
            ((umap_index state_eq st.cost node.1.1.1).1 + 1), rest,
          umap_set augmented_eq st.heuristics_naive (node.1.2, hash_state strHash node.1.2) 0,
          st.count + 1⟩⟩ := by
  cases hpop : pq_pop st.queue with
  | none =>
    rw [planner_step_none _ _ _ _ _ _ _ hpop] at h
    simp only [Except.ok.injEq, Sum.inl.injEq] at h
    exact Or.inl ⟨rfl, h.symm⟩
  | some p =>
    obtain ⟨node, rest⟩ := p
    right
    cases hs : umap_find state_eq st.parents node.1.2 with
    | some v =>
      rw [planner_step_seen _ _ _ _ _ _ _ node rest hpop (by simp [hs])] at h
      simp at h
    | none =>
      by_cases h0 : goal.foldl (fun (res : Int) condition =>
          if condition ∉ node.1.2 then res + 1 else res) 0 = 0
      · cases hr : reconstruct (st.parents ++ [(node.1.2, (node.1.1.1, node.1.1.2))]) start
            fuel0 node.1.2 [] with
        | error e =>
          rw [planner_step_goal_error _ _ _ _ _ _ node rest e hpop hs h0 hr] at h
          exact Except.noConfusion h
        | ok plan =>
          rw [planner_step_goal _ _ _ _ _ _ node rest plan hpop hs h0 hr] at h
          simp only [Except.ok.injEq, Sum.inl.injEq] at h
          exact ⟨node, rest, plan, rfl, hs, h0, hr, h.symm⟩
      · cases hr : get_actions fuel0 node.1.2 env with
        | error e =>
          rw [planner_step_expand_error _ _ _ _ _ _ node rest e hpop hs h0 hr] at h
          exact Except.noConfusion h
        | ok r =>
          obtain ⟨hn2, _, e1⟩ := planner_step_expand strHash fuel0 env start goal st node rest r
            hpop hs h0 hr
          rw [e1] at h
          simp at h

/-- The main loop runs `planner_step` until it ends the loop. -/
theorem planner_loop_succ (strHash : String → Nat) (fuel0 : Nat) (env : Env)
    (start goal : state_t) (n : Nat) (st : planner_state) :
    planner_loop strHash fuel0 [] env start goal (n + 1) st =
      match planner_step strHash fuel0 [] env start goal st with
      | .error e => .error e
      | .ok (.inl out) => .ok out
      | .ok (.inr st2) => planner_loop strHash fuel0 [] env start goal n st2 := by
  cases hpop : pq_pop st.queue with
  | none =>
    rw [planner_step_none _ _ _ _ _ _ _ hpop, planner_loop_none _ _ _ _ _ _ _ _ hpop]
  | some p =>
    obtain ⟨node, rest⟩ := p
    cases hs : umap_find state_eq st.parents node.1.2 with
    | some v =>
      rw [planner_step_seen _ _ _ _ _ _ _ node rest hpop (by simp [hs]),
        planner_loop_seen _ _ _ _ _ _ _ _ node rest hpop (by simp [hs])]
    | none =>
      rw [planner_loop_new _ _ _ _ _ _ _ node rest hpop hs]
      by_cases h0 : goal.foldl (fun (res : Int) condition =>
          if condition ∉ node.1.2 then res + 1 else res) 0 = 0
      · rw [if_pos h0]
        cases hr : reconstruct (st.parents ++ [(node.1.2, (node.1.1.1, node.1.1.2))]) start
            fuel0 node.1.2 [] with
        | error e => rw [planner_step_goal_error _ _ _ _ _ _ node rest e hpop hs h0 hr]
        | ok plan =>
          rw [planner_step_goal _ _ _ _ _ _ node rest plan hpop hs h0 hr]
          simp only [h0]
      · rw [if_neg h0]
        cases hr : get_actions fuel0 node.1.2 env with
        | error e => rw [planner_step_expand_error _ _ _ _ _ _ node rest e hpop hs h0 hr]
        | ok r =>
          obtain ⟨hn2, e1, e2⟩ := planner_step_expand strHash fuel0 env start goal st node rest r
            hpop hs h0 hr
          rw [e2]
          simp only [e1]

theorem planner_loop_zero_ok (strHash : String → Nat) (fuel0 : Nat) (env : Env)
    (start goal : state_t) (st : planner_state) (out : planner_result)
    (h : planner_loop strHash fuel0 [] env start goal 0 st = .ok out) :
    planner_step strHash fuel0 [] env start goal st = .ok (.inl out) := by
  cases hpop : pq_pop st.queue with
  | none =>
    rw [planner_loop_none _ _ _ _ _ _ _ _ hpop] at h
    simp only [Except.ok.injEq] at h
    rw [planner_step_none _ _ _ _ _ _ _ hpop, h]
  | some p =>
    rw [planner_loop_zero _ _ _ _ _ _ _ p.1 p.2 hpop] at h
    exact Except.noConfusion h

/-- A finished run of the main loop from a state that `planner` reaches ends by an
iteration from a state that `planner` reaches. -/
theorem planner_loop_reaches (strHash : String → Nat) (fuel0 : Nat) (env : Env)
    (hn0 : heuristics_t) (out : planner_result) :
    ∀ (n : Nat) (st : planner_state), planner_reaches strHash fuel0 env hn0 st →
      planner_loop strHash fuel0 [] env (start_state env) (goal_state env) n st = .ok out →
      ∃ st2, planner_reaches strHash fuel0 env hn0 st2 ∧
        planner_step strHash fuel0 [] env (start_state env) (goal_state env) st2 =
          .ok (.inl out) := by
  intro n
  induction n with
  | zero =>
    intro st hst h
    exact ⟨st, hst, planner_loop_zero_ok _ _ _ _ _ _ _ h⟩
  | succ n ih =>
    intro st hst h
    rw [planner_loop_succ] at h
    cases hstep : planner_step strHash fuel0 [] env (start_state env) (goal_state env) st with
    | error e =>
      rw [hstep] at h
      exact Except.noConfusion h
    | ok v =>
      cases v with
      | inl out2 =>
        rw [hstep] at h
        simp only [Except.ok.injEq] at h
        subst h
        exact ⟨st, hst, hstep⟩
      | inr st2 =>
        rw [hstep] at h
        exact ih st2 (planner_reaches.step hst hstep) h

/-- Every finished run of `planner` ends by an iteration from a state that it reaches. -/
theorem planner_run_reaches (strHash : String → Nat) (fuel : Nat) (env : Env)
    (hn : heuristics_t) (out : planner_result)
    (h : planner_run strHash fuel [] hn env = .ok out) :
    ∃ st, planner_reaches strHash fuel env hn st ∧
      planner_step strHash fuel [] env (start_state env) (goal_state env) st = .ok (.inl out) :=
  planner_loop_reaches strHash fuel env hn out fuel _ planner_reaches.init h

/-! ## The bookkeeping of `parents` and `cost` -/

theorem umap_find_append_some {κ β : Type} (key_eq : κ → κ → Bool) (m extra : List (κ × β))
    (q : κ) (x : β) (h : umap_find key_eq m q = some x) :
    umap_find key_eq (m ++ extra) q = some x := by
  induction m with
  | nil => simp [umap_find] at h
  | cons e rest ih =>
    obtain ⟨k2, v2⟩ := e
    by_cases hk : key_eq q k2 = true
    · simp only [umap_find, hk, ↓reduceIte] at h
      simp [umap_find, hk, h]
    · simp only [umap_find, hk, Bool.false_eq_true, ↓reduceIte] at h
      simp [umap_find, hk, ih h]

theorem umap_find_append_none {κ β : Type} (key_eq : κ → κ → Bool) (m : List (κ × β))
    (k q : κ) (v : β) (h : umap_find key_eq m q = none) :
    umap_find key_eq (m ++ [(k, v)]) q = if key_eq q k then some v else none := by
  rw [umap_find_append, h]

/-- The walk back through `parents` is not changed by entries added behind. -/
theorem reconstruct_append (parents extra : List (state_t × (state_t × GroundedAction)))
    (start : state_t) :
    ∀ (n : Nat) (state : state_t) (acc plan : List GroundedAction),
      reconstruct parents start n state acc = .ok plan →
        reconstruct (parents ++ extra) start n state acc = .ok plan := by
  intro n
  induction n with
  | zero =>
    intro state acc plan h
    unfold reconstruct at h ⊢
    by_cases he : state_eq state start = true
    · simp only [he, ↓reduceIte] at h ⊢
      exact h
    · simp [he] at h
  | succ n ih =>
    intro state acc plan h
    unfold reconstruct at h ⊢
    by_cases he : state_eq state start = true
    · simp only [he, ↓reduceIte] at h ⊢
      exact h
    · simp only [he, Bool.false_eq_true, ↓reduceIte] at h ⊢
      cases hf : umap_find state_eq parents state with
      | none => simp [hf] at h
      | some item =>
        simp only [hf] at h
        simp only [umap_find_append_some state_eq parents extra state item hf]
        exact ih _ _ _ h

/-- The walk back pushes its actions in front of the plan it is given. -/
theorem reconstruct_acc (parents : List (state_t × (state_t × GroundedAction)))
    (start : state_t) (extra : List GroundedAction) :
    ∀ (n : Nat) (state : state_t) (acc plan : List GroundedAction),
      reconstruct parents start n state acc = .ok plan →
        reconstruct parents start n state (acc ++ extra) = .ok (plan ++ extra) := by
  intro n
  induction n with
  | zero =>
    intro state acc plan h
    unfold reconstruct at h ⊢
    by_cases he : state_eq state start = true
    · simp only [he, ↓reduceIte, Except.ok.injEq] at h ⊢
      rw [h]
    · simp [he] at h
  | succ n ih =>
    intro state acc plan h
    unfold reconstruct at h ⊢
    by_cases he : state_eq state start = true
    · simp only [he, ↓reduceIte, Except.ok.injEq] at h ⊢
      rw [h]
    · simp only [he, Bool.false_eq_true, ↓reduceIte] at h ⊢
      cases hf : umap_find state_eq parents state with
      | none => simp [hf] at h
      | some item =>
        simp only [hf] at h ⊢
        exact ih _ (item.2 :: acc) _ h

theorem cost_inv_init (env : Env) (hn0 : heuristics_t) :
    cost_inv (start_state env) (goal_state env) (planner_init env hn0) :=
  Or.inl ⟨rfl, rfl, rfl⟩

/-- Recording a dequeued node whose state is not yet a key keeps the bookkeeping
invariant, and enters the cost of the parent plus one for the state. -/
theorem cost_inv_record (start goal : state_t) (st : planner_state) (node : node_t)
    (rest : List node_t) (hn : heuristics_t) (count : Nat)
    (hinv : cost_inv start goal st)
    (hpop : pq_pop st.queue = some (node, rest))
    (hs : umap_find state_eq st.parents node.1.2 = none) :
    cost_inv start goal ⟨st.parents ++ [(node.1.2, (node.1.1.1, node.1.1.2))],
      umap_set state_eq (umap_index state_eq st.cost node.1.1.1).2 node.1.2
        ((umap_index state_eq st.cost node.1.1.1).1 + 1), rest, hn, count⟩ := by
  obtain ⟨hmem, hsub, _, _⟩ := pq_pop_some _ _ _ hpop
  rcases hinv with ⟨hP, hC, hQ⟩ | ⟨⟨v0, hv0⟩, hJ1, hJ2, hQi⟩
  · -- the first iteration
    rw [hQ, List.mem_singleton] at hmem
    have hrest : rest = [] := by
      rw [hQ, pq_pop_singleton] at hpop
      simp only [Option.some.injEq, Prod.mk.injEq] at hpop
      exact hpop.2.symm
    subst hmem hrest
    have hC2 : st.cost = umap_set state_eq [] start (-1) := hC
    right
    simp only [hP, hC2, cost_after_start, List.nil_append]
    refine ⟨⟨_, List.mem_singleton.2 rfl⟩, ?_, ?_, ?_⟩
    · intro e he
      rw [List.mem_singleton] at he
      subst he
      refine ⟨[], ?_, ?_⟩
      · unfold reconstruct
        simp [state_eq_refl]
      · simp [umap_find, state_eq_refl]
    · intro e he
      rw [List.mem_singleton] at he
      subst he
      exact ⟨_, List.mem_singleton.2 rfl⟩
    · intro x hx
      exact absurd hx (List.not_mem_nil x)
  · -- a later iteration
    obtain ⟨⟨vp, hvp⟩, hcp, _⟩ := hQi node hmem
    have hnone := (umap_find_none_iff state_eq st.parents node.1.2).1 hs
    have hCs : umap_find state_eq st.cost node.1.2 = none := by
      rw [umap_find_none_iff]
      intro e he
      obtain ⟨v, hv⟩ := hJ2 e he
      exact hnone _ hv
    have hidx : umap_index state_eq st.cost node.1.1.1 = (node.2.1, st.cost) := by
      simp only [umap_index, hcp]
    have hne : state_eq node.1.2 start = false := hnone _ hv0
    obtain ⟨planp, hrp, hcp2⟩ := hJ1 _ hvp
    simp only at hrp hcp2
    have hg : node.2.1 = (planp.length : Int) := by
      rw [hcp] at hcp2
      simpa using hcp2
    right
    simp only [hidx, umap_set_of_not_found state_eq st.cost node.1.2 _ hCs]
    refine ⟨⟨v0, List.mem_append_left _ hv0⟩, ?_, ?_, ?_⟩
    · intro e he
      rw [List.length_append, List.length_singleton]
      rcases List.mem_append.1 he with he | he
      · obtain ⟨plan, h1, h2⟩ := hJ1 e he
        exact ⟨plan, reconstruct_append _ _ _ _ _ _ _
          (reconstruct_mono _ _ 1 _ _ _ _ h1), umap_find_append_some _ _ _ _ _ h2⟩
      · rw [List.mem_singleton] at he
        subst he
        refine ⟨planp ++ [node.1.1.2], ?_, ?_⟩
        · have h3 := reconstruct_append st.parents [(node.1.2, (node.1.1.1, node.1.1.2))] start _
            _ _ _ (reconstruct_acc st.parents start [node.1.1.2] _ _ _ _ hrp)
          rw [reconstruct]
          simp only [hne, Bool.false_eq_true, ↓reduceIte,
            umap_find_append_none state_eq st.parents _ _ _ hs, state_eq_refl]
          exact h3
        · simp only [umap_find_append_none state_eq st.cost _ _ _ hCs, state_eq_refl,
            ↓reduceIte, List.length_append, List.length_singleton, hg]
          push_cast
          rfl
    · intro e he
      rcases List.mem_append.1 he with he | he
      · obtain ⟨v, hv⟩ := hJ2 e he
        exact ⟨v, List.mem_append_left _ hv⟩
      · rw [List.mem_singleton] at he
        subst he
        exact ⟨_, List.mem_append_right _ (List.mem_singleton.2 rfl)⟩
    · intro x hx
      obtain ⟨⟨v, hv⟩, h2, h3⟩ := hQi x (hsub x hx)
      exact ⟨⟨v, List.mem_append_left _ hv⟩, umap_find_append_some _ _ _ _ _ h2, h3⟩

/-- Pushing the nodes of the ground actions of a recorded state keeps the bookkeeping
invariant. -/
theorem cost_inv_push (start goal : state_t)
    (parents : List (state_t × (state_t × GroundedAction))) (cost : List (state_t × Int))
    (queue : List node_t) (hn hn2 : heuristics_t) (count : Nat) (state : state_t) (c : Int)
    (r : List (GroundedAction × state_t))
    (hinv : cost_inv start goal ⟨parents, cost, queue, hn, count⟩)
    (hne : parents ≠ []) (hkey : ∃ v, (state, v) ∈ parents)
    (hc : umap_find state_eq cost state = some c) :
    cost_inv start goal ⟨parents, cost, queue ++ r.map (new_node goal state c), hn2, count⟩ := by
  rcases hinv with ⟨hP, _, _⟩ | ⟨h0, hJ1, hJ2, hQi⟩
  · exact absurd hP hne
  · refine Or.inr ⟨h0, hJ1, hJ2, ?_⟩
    intro x hx
    rcases List.mem_append.1 hx with hx | hx
    · exact hQi x hx
    · obtain ⟨p, _, rfl⟩ := List.mem_map.1 hx
      exact ⟨hkey, hc, rfl⟩

/-- Every iteration of the main loop keeps the bookkeeping invariant. -/
theorem cost_inv_step (strHash : String → Nat) (fuel0 : Nat) (env : Env)
    (start goal : state_t) (st st2 : planner_state) (hinv : cost_inv start goal st)
    (h : planner_step strHash fuel0 [] env start goal st = .ok (.inr st2)) :
    cost_inv start goal st2 := by
  obtain ⟨node, rest, hpop, ⟨hs, rfl⟩ | ⟨hs, _, r, hn2, _, rfl⟩⟩ :=
    planner_step_continue strHash fuel0 env start goal st st2 h
  · obtain ⟨hmem, hsub, _, _⟩ := pq_pop_some _ _ _ hpop
    rcases hinv with ⟨hP, _, _⟩ | ⟨h0, hJ1, hJ2, hQi⟩
    · rw [hP] at hs
      simp [umap_find] at hs
    · exact Or.inr ⟨h0, hJ1, hJ2, fun x hx => hQi x (hsub x hx)⟩
  · exact cost_inv_push start goal _ _ rest st.heuristics_naive hn2 _ node.1.2 _ r
      (cost_inv_record start goal st node rest st.heuristics_naive (st.count + 1) hinv hpop hs)
      (by simp) ⟨_, List.mem_append_right _ (List.mem_singleton.2 rfl)⟩
      (umap_find_set_self state_eq state_eq_refl _ _ _)

/-- The bookkeeping invariant holds at the head of every iteration of `planner`. -/
theorem cost_inv_reaches (strHash : String → Nat) (fuel0 : Nat) (env : Env)
    (hn0 : heuristics_t) (st : planner_state)
    (h : planner_reaches strHash fuel0 env hn0 st) :
    cost_inv (start_state env) (goal_state env) st := by
  induction h with
  | init => exact cost_inv_init env hn0
  | step _ hstep ih => exact cost_inv_step strHash fuel0 env _ _ _ _ ih hstep

/-- The bookkeeping invariant holds when `planner` returns. -/
theorem cost_inv_final (strHash : String → Nat) (fuel0 : Nat) (env : Env)
    (start goal : state_t) (st : planner_state) (out : planner_result)
    (hinv : cost_inv start goal st)
    (h : planner_step strHash fuel0 [] env start goal st = .ok (.inl out)) :
    cost_inv start goal out.final := by
  rcases planner_step_done strHash fuel0 env start goal st out h with
    ⟨_, rfl⟩ | ⟨node, rest, plan, hpop, hs, _, _, rfl⟩
  · exact hinv
  · exact cost_inv_record start goal st node rest _ _ hinv hpop hs

/-- What the bookkeeping invariant says about the keys of `parents`, about `cost[start]`
and about the nodes of the queue. -/
theorem cost_inv_chain (strHash : String → Nat) (start goal : state_t) (st : planner_state)
    (hinv : cost_inv start goal st) :
    (st.parents = [] → st.cost = [(start, -1)]) ∧
    (∀ e ∈ st.parents, ∃ plan,
      reconstruct st.parents start st.parents.length e.1 [] = .ok plan ∧
      umap_find state_eq st.cost e.1 = some (plan.length : Int)) ∧
    (st.parents ≠ [] → umap_find state_eq st.cost start = some 0) ∧
    (st.parents ≠ [] → ∀ node ∈ st.queue, (∃ v, (node.1.1.1, v) ∈ st.parents) ∧
      umap_find state_eq st.cost node.1.1.1 = some node.2.1 ∧
      ∀ hn, ∃ h hn2, get_heuristic_naive strHash [] hn node.1.2 goal = .ok (h, hn2) ∧
        node.2.2 = node.2.1 + h + 1) := by
  rcases hinv with ⟨hP, hC, _⟩ | ⟨⟨v0, hv0⟩, hJ1, _, hQi⟩
  · refine ⟨fun _ => hC, fun e he => ?_, fun hne => absurd hP hne, fun hne => absurd hP hne⟩
    rw [hP] at he
    exact absurd he (List.not_mem_nil e)
  · refine ⟨fun hP => ?_, hJ1, fun _ => ?_, fun _ node hnode => ?_⟩
    · rw [hP] at hv0
      exact absurd hv0 (List.not_mem_nil _)
    · obtain ⟨plan, h1, h2⟩ := hJ1 _ hv0
      simp only at h1 h2
      unfold reconstruct at h1
      simp only [state_eq_refl, ↓reduceIte, Except.ok.injEq] at h1
      rw [← h1] at h2
      exact h2
    · obtain ⟨h1, h2, h3⟩ := hQi node hnode
      exact ⟨h1, h2, fun hn => ⟨_, _, get_heuristic_naive_empty strHash hn node.1.2 goal, h3⟩⟩

/-- Once a state is a key of `parents`, the entries of `cost` are not overwritten. -/
theorem cost_record_keeps (start goal : state_t) (st : planner_state) (node : node_t)
    (rest : List node_t) (hinv : cost_inv start goal st) (hne : st.parents ≠ [])
    (hpop : pq_pop st.queue = some (node, rest))
    (hs : umap_find state_eq st.parents node.1.2 = none) :
    ∀ q c, umap_find state_eq st.cost q = some c →
      umap_find state_eq (umap_set state_eq (umap_index state_eq st.cost node.1.1.1).2 node.1.2
        ((umap_index state_eq st.cost node.1.1.1).1 + 1)) q = some c := by
  obtain ⟨hmem, _, _, _⟩ := pq_pop_some _ _ _ hpop
  rcases hinv with ⟨hP, _, _⟩ | ⟨_, _, hJ2, hQi⟩
  · exact absurd hP hne
  · obtain ⟨_, hcp, _⟩ := hQi node hmem
    have hnone := (umap_find_none_iff state_eq st.parents node.1.2).1 hs
    have hCs : umap_find state_eq st.cost node.1.2 = none := by
      rw [umap_find_none_iff]
      intro e he
      obtain ⟨v, hv⟩ := hJ2 e he
      exact hnone _ hv
    have hidx : umap_index state_eq st.cost node.1.1.1 = (node.2.1, st.cost) := by
      simp only [umap_index, hcp]
    intro q c hq
    simp only [hidx, umap_set_of_not_found state_eq st.cost node.1.2 _ hCs]
    exact umap_find_append_some _ _ _ _ _ hq

/-- C24: at the head of every iteration of the loop of `planner` (`st` are its variables):
before the first dequeue `cost` holds `start` with `-1`; for every state `s` recorded in
`parents` the walk from `s` back through `parents` reaches `start`, within one step per
entry, and `cost[s]` is the number of its actions (`cost[start] = 0` once `parents` is not
empty); every node of the queue has a key of `parents` as parent, `g = cost[parent]` and
`f = g + h_naive(state, goal) + 1`.  An iteration that does not end the loop only adds
behind the entries of `parents`, leaves every lookup of `parents` (and, after the first
iteration, of `cost`) as it was, and either pushes nothing or records the dequeued state
`s` and pushes one node per ground action of `get_actions(s)`, each with parent `s`,
`g = cost[s]` and `f = cost[s] + h_naive(successor, goal) + 1`.  The same holds for the
variables with which `planner` returns. -/
theorem cost_bookkeeping (strHash : String → Nat) (fuel0 : Nat) (env : Env) (hn0 : heuristics_t)
    (st : planner_state) (hst : planner_reaches strHash fuel0 env hn0 st) :
    (st.parents = [] → st.cost = [(start_state env, -1)]) ∧
    (∀ e ∈ st.parents, ∃ plan,
      reconstruct st.parents (start_state env) st.parents.length e.1 [] = .ok plan ∧
      umap_find state_eq st.cost e.1 = some (plan.length : Int)) ∧
    (st.parents ≠ [] → umap_find state_eq st.cost (start_state env) = some 0) ∧
    (st.parents ≠ [] → ∀ node ∈ st.queue, (∃ v, (node.1.1.1, v) ∈ st.parents) ∧
      umap_find state_eq st.cost node.1.1.1 = some node.2.1 ∧
      ∀ hn, ∃ h hn2, get_heuristic_naive strHash [] hn node.1.2 (goal_state env) = .ok (h, hn2) ∧
        node.2.2 = node.2.1 + h + 1) ∧
    (∀ st2, planner_step strHash fuel0 [] env (start_state env) (goal_state env) st =
        .ok (.inr st2) →
      (∃ added, st2.parents = st.parents ++ added) ∧
      (∀ s v, umap_find state_eq st.parents s = some v →
        umap_find state_eq st2.parents s = some v) ∧
      (st.parents ≠ [] → ∀ s c, umap_find state_eq st.cost s = some c →
        umap_find state_eq st2.cost s = some c) ∧
      ∃ node rest, pq_pop st.queue = some (node, rest) ∧
        ((st2.parents = st.parents ∧ st2.cost = st.cost ∧ st2.queue = rest) ∨
          ∃ r c, get_actions fuel0 node.1.2 env = .ok r ∧
            st2.parents = st.parents ++ [(node.1.2, (node.1.1.1, node.1.1.2))] ∧
            umap_find state_eq st2.cost node.1.2 = some c ∧
            st2.queue = rest ++ r.map (new_node (goal_state env) node.1.2 c) ∧
            ∀ pushed ∈ r.map (new_node (goal_state env) node.1.2 c),
              pushed.1.1.1 = node.1.2 ∧ pushed.2.1 = c ∧
              ∀ hn, ∃ h hn2, get_heuristic_naive strHash [] hn pushed.1.2 (goal_state env) =
                .ok (h, hn2) ∧ pushed.2.2 = c + h + 1)) ∧
    (∀ out, planner_step strHash fuel0 [] env (start_state env) (goal_state env) st =
        .ok (.inl out) →
      (∃ added, out.final.parents = st.parents ++ added) ∧
      (∀ e ∈ out.final.parents, ∃ plan,
        reconstruct out.final.parents (start_state env) out.final.parents.length e.1 [] =
          .ok plan ∧
        umap_find state_eq out.final.cost e.1 = some (plan.length : Int))) := by
  have hinv := cost_inv_reaches strHash fuel0 env hn0 st hst
  obtain ⟨c1, c2, c3, c4⟩ := cost_inv_chain strHash _ _ st hinv
  refine ⟨c1, c2, c3, c4, fun st2 hstep => ?_, fun out hstep => ?_⟩
  · obtain ⟨node, rest, hpop, ⟨hs, rfl⟩ | ⟨hs, _, r, hn2, hr, rfl⟩⟩ :=
      planner_step_continue strHash fuel0 env _ _ st st2 hstep
    · exact ⟨⟨[], by simp⟩, fun s v h => h, fun _ s c h => h, node, rest, hpop,
        Or.inl ⟨rfl, rfl, rfl⟩⟩
    · refine ⟨⟨_, rfl⟩, fun s v h => umap_find_append_some _ _ _ _ _ h,
        fun hne => cost_record_keeps _ _ st node rest hinv hne hpop hs, node, rest, hpop,
        Or.inr ⟨r, _, hr, rfl, umap_find_set_self state_eq state_eq_refl _ _ _, rfl, ?_⟩⟩
      intro pushed hp
      obtain ⟨p, _, rfl⟩ := List.mem_map.1 hp
      exact ⟨rfl, rfl, fun hn => ⟨_, _, get_heuristic_naive_empty strHash hn _ _, rfl⟩⟩
  · have hfin := cost_inv_final strHash fuel0 env _ _ st out hinv hstep
    refine ⟨?_, (cost_inv_chain strHash _ _ out.final hfin).2.1⟩
    rcases planner_step_done strHash fuel0 env _ _ st out hstep with
      ⟨_, rfl⟩ | ⟨node, rest, plan, _, _, _, _, rfl⟩
    · exact ⟨[], by simp⟩
    · exact ⟨_, rfl⟩

/-- C24 witness: scenario S1 after the first iteration, which records the start state with
cost 0 and pushes the nodes of `Stack(A,B)` (`g = 0`, `f = 1`) and `Stack(B,A)` (`g = 0`,
`f = 2`). -/
theorem cost_bookkeeping_witness :
    ∃ st, planner_reaches (fun _ => 0) 7 scenario_S1 [] st ∧
      st.parents = [(start_state scenario_S1, (start_state scenario_S1, GroundedAction.default))] ∧
      st.queue.map (fun node => (node.1.1.2, node.2)) =
        [(⟨"Stack", ["A", "B"]⟩, (0, 1)), (⟨"Stack", ["B", "A"]⟩, (0, 2))] ∧
      umap_find state_eq st.cost (start_state scenario_S1) = some 0 :=
  ⟨_, planner_reaches.step planner_reaches.init rfl, rfl, by decide,
    (cost_bookkeeping (fun _ => 0) 7 scenario_S1 [] _
      (planner_reaches.step planner_reaches.init rfl)).2.2.1 (by decide)⟩

/-! ## Negated preconditions -/

/-- On a state of positive literals, every pair that `get_actions` returns is the grounding
of a schema whose preconditions are all positive. -/
theorem get_actions_positive (S : state_t) (fuel : Nat) (env : Env)
    (r : List (GroundedAction × state_t)) (hS : ∀ g ∈ S, g.truth = true)
    (hr : get_actions fuel S env = .ok r) :
    ∀ p ∈ r, ∃ a ∈ env.actions, (∀ c ∈ a.preconditions, c.truth = true) ∧
      ∃ b, a.ground b = .ok p := by
  intro p hp
  obtain ⟨a, ha, b, _, hpre, _, hg⟩ := get_actions_sound fuel S env r hr p hp
  refine ⟨a, ha, fun c hc => ?_, b, hg⟩
  obtain ⟨g, hg1, hg2⟩ := hpre c hc
  have := hS g hg2
  rw [((condition_ground_ok_iff c b g).1 hg1).2] at this
  exact this

theorem action_ground_name (a : Action) (b : bindings_t) (p : GroundedAction × state_t)
    (h : a.ground b = .ok p) : p.1.name = a.name ∧ p.1.arg_values.length = a.args.length := by
  obtain ⟨_, _, rfl⟩ := (action_ground_ok_iff a b p).1 h
  simp

/-- Among schemas that `add_action` keeps apart, the name and the number of parameters
determine the schema. -/
theorem action_unique (actions : List Action)
    (hd : actions.Pairwise (fun x y => x.operator_eq y = false)) (a1 a2 : Action)
    (h1 : a1 ∈ actions) (h2 : a2 ∈ actions) (hn : a1.name = a2.name)
    (hl : a1.args.length = a2.args.length) : a1 = a2 := by
  by_contra hne
  have hsymm : Symmetric (fun x y : Action => x.operator_eq y = false) := by
    intro x y hxy
    cases h : y.operator_eq x with
    | false => rfl
    | true =>
      have := (action_operator_eq_iff y x).1 h
      rw [(action_operator_eq_iff x y).2 ⟨this.1.symm, this.2.symm⟩] at hxy
      exact Bool.noConfusion hxy
  have := List.Pairwise.forall hsymm hd h1 h2 hne
  rw [(action_operator_eq_iff a1 a2).2 ⟨hn, hl⟩] at this
  exact Bool.noConfusion this

/-- On a state of positive literals, `get_actions` returns no ground action of a schema with
a negated precondition. -/
theorem get_actions_no_negated (S : state_t) (fuel : Nat) (env : Env)
    (r : List (GroundedAction × state_t)) (hS : ∀ g ∈ S, g.truth = true)
    (hr : get_actions fuel S env = .ok r)
    (hd : env.actions.Pairwise (fun x y => x.operator_eq y = false)) :
    ∀ p ∈ r, ∀ a ∈ env.actions, (∃ c ∈ a.preconditions, c.truth = false) →
      ¬ (p.1.name = a.name ∧ p.1.arg_values.length = a.args.length) := by
  rintro p hp a ha ⟨c, hc, hct⟩ ⟨hn, hl⟩
  obtain ⟨a2, ha2, hpos, b, hg⟩ := get_actions_positive S fuel env r hS hr p hp
  obtain ⟨hn2, hl2⟩ := action_ground_name a2 b p hg
  have := action_unique env.actions hd a2 a ha2 ha (hn2.symm.trans hn) (hl2.symm.trans hl)
  subst this
  rw [hpos c hc] at hct
  exact Bool.noConfusion hct

/-- Every action of a plan from a state of positive literals is returned by `get_actions`
in a state of positive literals. -/
theorem planFrom_actions (env : Env) (S T : state_t) (plan : List GroundedAction)
    (hplan : PlanFrom env S plan T) : (∀ g ∈ S, g.truth = true) →
      ∀ ga ∈ plan, ∃ S2 r E, (∀ g ∈ S2, g.truth = true) ∧ returns_actions env S2 r ∧
        (ga, E) ∈ r := by
  induction hplan with
  | nil S => exact fun _ ga hga => absurd hga (List.not_mem_nil ga)
  | @cons S1 T1 r a E rest h1 h2 _ ih =>
    intro hS ga hga
    rcases List.mem_cons.1 hga with hga | hga
    · subst hga
      exact ⟨S1, r, E, hS, h1, h2⟩
    · exact ih (successor_state_positive S1 E hS) ga hga

theorem positive_init (env : Env) (hn0 : heuristics_t)
    (hpos : ∀ g ∈ env.initial_conditions, g.truth = true) :
    (∀ e ∈ (planner_init env hn0).parents, ∀ g ∈ e.1, g.truth = true) ∧
      ∀ node ∈ (planner_init env hn0).queue, ∀ g ∈ node.1.2, g.truth = true := by
  refine ⟨fun e he => absurd he (List.not_mem_nil e), fun node hnode g hg => ?_⟩
  simp only [planner_init, List.mem_singleton] at hnode
  subst hnode
  exact hpos g ((mem_start_state env g).1 hg)

/-- Every iteration of the main loop keeps the states of `parents` and of the queue
positive. -/
theorem positive_step (strHash : String → Nat) (fuel0 : Nat) (env : Env)
    (start goal : state_t) (st st2 : planner_state)
    (hinv : (∀ e ∈ st.parents, ∀ g ∈ e.1, g.truth = true) ∧
      ∀ node ∈ st.queue, ∀ g ∈ node.1.2, g.truth = true)
    (h : planner_step strHash fuel0 [] env start goal st = .ok (.inr st2)) :
    (∀ e ∈ st2.parents, ∀ g ∈ e.1, g.truth = true) ∧
      ∀ node ∈ st2.queue, ∀ g ∈ node.1.2, g.truth = true := by
  obtain ⟨hP, hQ⟩ := hinv
  obtain ⟨node, rest, hpop, ⟨_, rfl⟩ | ⟨_, _, r, hn2, _, rfl⟩⟩ :=
    planner_step_continue strHash fuel0 env start goal st st2 h
  · obtain ⟨_, hsub, _, _⟩ := pq_pop_some _ _ _ hpop
    exact ⟨hP, fun x hx => hQ x (hsub x hx)⟩
  · obtain ⟨hmem, hsub, _, _⟩ := pq_pop_some _ _ _ hpop
    refine ⟨fun e he => ?_, fun x hx => ?_⟩
    · rcases List.mem_append.1 he with he | he
      · exact hP e he
      · rw [List.mem_singleton] at he
        subst he
        exact hQ node hmem
    · rcases List.mem_append.1 hx with hx | hx
      · exact hQ x (hsub x hx)
      · obtain ⟨p, _, rfl⟩ := List.mem_map.1 hx
        exact successor_state_positive node.1.2 p.2 (hQ node hmem)

theorem positive_reaches (strHash : String → Nat) (fuel0 : Nat) (env : Env)
    (hn0 : heuristics_t) (hpos : ∀ g ∈ env.initial_conditions, g.truth = true)
    (st : planner_state) (h : planner_reaches strHash fuel0 env hn0 st) :
    (∀ e ∈ st.parents, ∀ g ∈ e.1, g.truth = true) ∧
      ∀ node ∈ st.queue, ∀ g ∈ node.1.2, g.truth = true := by
  induction h with
  | init => exact positive_init env hn0 hpos
  | step _ hstep ih => exact positive_step strHash fuel0 env _ _ _ _ ih hstep

/-- C25: in an environment whose initial state holds positive literals only, every state
that `planner` has recorded in `parents` or holds in its queue, at the head of every
iteration, holds positive literals only; in every state of positive literals each pair
returned by `get_actions` is the grounding of a schema whose preconditions are all
positive, and (the schemas being pairwise different in name or arity, as `add_action`
keeps them) no returned ground action has the name and arity of a schema with a negated
precondition; the same holds for every action of a plan that `planner` returns. -/
theorem negated_preconditions_never_fire (strHash : String → Nat) (env : Env)
    (hpos : ∀ g ∈ env.initial_conditions, g.truth = true) :
    (∀ fuel0 hn0 st, planner_reaches strHash fuel0 env hn0 st →
      (∀ e ∈ st.parents, ∀ g ∈ e.1, g.truth = true) ∧
      (∀ node ∈ st.queue, ∀ g ∈ node.1.2, g.truth = true)) ∧
    (∀ (S : state_t) (fuel : Nat) (r : List (GroundedAction × state_t)),
      (∀ g ∈ S, g.truth = true) → get_actions fuel S env = .ok r → ∀ p ∈ r,
        (∃ a ∈ env.actions, (∀ c ∈ a.preconditions, c.truth = true) ∧
          ∃ b, a.ground b = .ok p) ∧
        (env.actions.Pairwise (fun x y => x.operator_eq y = false) →
          ∀ a ∈ env.actions, (∃ c ∈ a.preconditions, c.truth = false) →
            ¬ (p.1.name = a.name ∧ p.1.arg_values.length = a.args.length))) ∧
    (∀ (fuel : Nat) (hn : heuristics_t) (out : planner_result),
      planner_run strHash fuel [] hn env = .ok out → ∀ ga ∈ out.plan,
        (∃ a ∈ env.actions, (∀ c ∈ a.preconditions, c.truth = true) ∧
          ∃ b E, a.ground b = .ok (ga, E)) ∧
        (env.actions.Pairwise (fun x y => x.operator_eq y = false) →
          ∀ a ∈ env.actions, (∃ c ∈ a.preconditions, c.truth = false) →
            ¬ (ga.name = a.name ∧ ga.arg_values.length = a.args.length))) := by
  refine ⟨fun fuel0 hn0 st hst => positive_reaches strHash fuel0 env hn0 hpos st hst,
    fun S fuel r hS hr p hp => ⟨get_actions_positive S fuel env r hS hr p hp,
      fun hd => get_actions_no_negated S fuel env r hS hr hd p hp⟩,
    fun fuel hn out hout ga hga => ?_⟩
  obtain ⟨h1, h2⟩ := planner_run_sound strHash fuel hn env out hout
  have hstart : ∀ g ∈ start_state env, g.truth = true := fun g hg =>
    hpos g ((mem_start_state env g).1 hg)
  cases hf : out.found with
  | none =>
    rw [h2 hf] at hga
    exact absurd hga (List.not_mem_nil ga)
  | some Sg =>
    obtain ⟨S2, r, E, hS2, ⟨f2, hr⟩, hmem⟩ :=
      planFrom_actions env _ Sg out.plan (h1 Sg hf).1 hstart ga hga
    obtain ⟨a, ha, hp1, b, hg⟩ := get_actions_positive S2 f2 env r hS2 hr _ hmem
    exact ⟨⟨a, ha, hp1, b, E, hg⟩,
      fun hd => get_actions_no_negated S2 f2 env r hS2 hr hd _ hmem⟩

/-- C25 witness: the initial state `{P(A)}` misses `Q(A)`, yet `get_actions` returns
`Go(A)` only, not `Neg(A)`, whose precondition is the negated literal `!Q(x)`. -/
theorem negated_preconditions_never_fire_witness :
    (∀ g ∈ env_negated_precondition.initial_conditions, g.truth = true) ∧
    get_actions 2 (start_state env_negated_precondition) env_negated_precondition =
      .ok [(⟨"Go", ["A"]⟩, [⟨"Q", ["A"], true⟩])] ∧
    ∀ p ∈ [((⟨"Go", ["A"]⟩, [⟨"Q", ["A"], true⟩]) : GroundedAction × state_t)],
      ¬ (p.1.name = "Neg" ∧ p.1.arg_values.length = 1) :=
  ⟨by decide, by decide, fun p hp =>
    ((negated_preconditions_never_fire String.length env_negated_precondition (by decide)).2.1
      (start_state env_negated_precondition) 2 _ (by decide) (by decide) p hp).2 (by decide)
      ⟨"Neg", ["x"], [⟨"Q", ["x"], false⟩], [⟨"Q", ["x"], true⟩]⟩ (by decide)
      ⟨_, List.mem_singleton.2 rfl, rfl⟩⟩

end Planner
